import Mathlib

/-!
# Graph helper algorithms of `paddle/fluid/framework/ir/graph_helper.cc`

A shallow embedding of the dependency-graph helpers (`BuildOperationAdjList`,
`HasCircle`, `TopologySortOperations`, `SortOperationsInSequence`, `GraphNum`)
and proofs of their properties.

Modelling conventions.

* A `Node *` is a natural number (a handle).  The record behind a handle is
  given by `Graph.node`, so a neighbour list may mention a handle that is not in
  `Graph.nodes` (the result of `graph.Nodes()`, in any iteration order).
* `std::unordered_set<Node *>` is a duplicate-free list; `insert` appends an
  absent element, `erase` removes it.  The iteration order of an unordered set
  is unspecified in C++; the general lemmas on the traversals are stated for
  arbitrary maps and lists, so they do not depend on the order chosen here.
* `std::map<Node *, std::unordered_set<Node *>>` is an association list kept
  sorted by key, iterated in key order.
* The two `std::unordered_map`s of `SortOperationsInSequence` are never
  iterated, only looked up and updated, and are modelled as functions.
* The counters of `op_deps` are `size_t`: `preceding_ops.size()` is the length
  of the list and the pre-decrement wraps from zero to `2 ^ 64 - 1`.
* A failing `PADDLE_ENFORCE` aborts the call with the error of the
  specification that corresponds to it; `std::map::at` on a missing key is
  `Error.OutOfRange`.
* The recursive helpers take a recursion budget (`fuel`); the entry points
  supply `adj.length + 1`, and the theorems show that the budget is never
  exhausted on the graphs they speak of.
* The `while` loop of `GraphNum` takes a budget of `2 * |nodes| + 1` iterations,
  which is shown to suffice on every graph.  Its `graph_count` is a natural
  number; it never exceeds the number of nodes.
* The dump of `GraphNum` depends on two things outside the graph: the flag
  `FLAGS_print_sub_graph_dir` and whether the stream opened on that path is
  `good()`.  Both are parameters of `GraphNum`.  The result of `GraphNum` is the
  count it returns together with the text it has sent to the file stream
  (`none` when no stream is opened); a stream that is not good fails the
  `PADDLE_ENFORCE` and is `Error.DiagnosticIoFailure`.  The nodes of a
  component are dumped in the order in which its duplicate-free list holds
  them.
-/

namespace GraphHelper

/-! ## Data model -/

/-- The tag `ir::Node::Type`. -/
inductive NodeType where
  | kOperation
  | kVariable
deriving DecidableEq, Repr

/-- The part of `OpDesc` the helpers read: `Type()`, `Inputs()`, `Outputs()`,
and the attributes, which `is_same_op_desc` does not look at. -/
structure OpDesc where
  type : String
  inputs : List (String × List String)
  outputs : List (String × List String)
  attrs : List (String × String)
deriving DecidableEq, Repr

/-- The record behind a `Node *`: `NodeType()`, `inputs`, `outputs`, `Op()`
and `Name()`, which only the dump of `GraphNum` reads. -/
structure Node where
  type : NodeType
  inputs : List Nat
  outputs : List Nat
  op : OpDesc
  name : String := ""

/-- A graph: the records of all handles, the handles returned by
`graph.Nodes()`, and the attribute `kAllOpDescs` when the graph has it. -/
structure Graph where
  node : Nat → Node
  nodes : List Nat
  allOpDescs : Option (List OpDesc)

/-- The failures of the helpers. -/
inductive Error where
  | MalformedGraph
  | CycleDetected
  | MissingAttribute
  | NoMatchingOperation
  | AmbiguousMatch
  | OutOfRange
  | DiagnosticIoFailure
  | OutOfFuel
deriving DecidableEq, Repr

/-- The test `node->IsOp()`. -/
def Graph.IsOp (g : Graph) (n : Nat) : Bool :=
  decide ((g.node n).type = NodeType.kOperation)

/-- The test `node->IsVar()`. -/
def Graph.IsVar (g : Graph) (n : Nat) : Bool :=
  decide ((g.node n).type = NodeType.kVariable)

/-! ## Containers -/

/-- The call `std::unordered_set::insert`. -/
def setInsert (s : List Nat) (x : Nat) : List Nat :=
  if x ∈ s then s else s ++ [x]

/-- The adjacency map `std::map<Node *, std::unordered_set<Node *>>`. -/
abbrev AdjList := List (Nat × List Nat)

/-- The lookup `std::map::find`, `none` for `end()`. -/
def mapFind : AdjList → Nat → Option (List Nat)
  | [], _ => none
  | (k, v) :: rest, key => if k = key then some v else mapFind rest key

/-- The assignment `m[key] = v` on a map kept in key order. -/
def mapSet : AdjList → Nat → List Nat → AdjList
  | [], key, v => [(key, v)]
  | (k, w) :: rest, key, v =>
    if key < k then (key, v) :: (k, w) :: rest
    else if key = k then (key, v) :: rest
    else (k, w) :: mapSet rest key v

/-! ## BuildOperationAdjList -/

/-- The innermost loop of `BuildOperationAdjList`, over `var->inputs`. -/
def addProducers (g : Graph) (n : Nat) : List Nat → AdjList → Except Error AdjList
  | [], adj => .ok adj
  | adj_n :: rest, adj =>
    if (g.node adj_n).type = NodeType.kOperation then
      addProducers g n rest (mapSet adj n (setInsert ((mapFind adj n).getD []) adj_n))
    else .error Error.MalformedGraph

/-- The loop of `BuildOperationAdjList` over `n->inputs`. -/
def addInputs (g : Graph) (n : Nat) : List Nat → AdjList → Except Error AdjList
  | [], adj => .ok adj
  | var :: rest, adj =>
    match addProducers g n (g.node var).inputs adj with
    | .error e => .error e
    | .ok adj1 => addInputs g n rest adj1

/-- The loop of `BuildOperationAdjList` over `graph.Nodes()`. -/
def buildLoop (g : Graph) : List Nat → AdjList → Except Error AdjList
  | [], adj => .ok adj
  | n :: rest, adj =>
    if (g.node n).type ≠ NodeType.kOperation then buildLoop g rest adj
    else
      match addInputs g n (g.node n).inputs
          (if (mapFind adj n).isNone then mapSet adj n [] else adj) with
      | .error e => .error e
      | .ok adj1 => buildLoop g rest adj1

/-- The function `BuildOperationAdjList`. -/
def BuildOperationAdjList (g : Graph) : Except Error AdjList :=
  buildLoop g g.nodes []

/-! ## HasCircle -/

/-- The `for` loop of `HasCircleHelper` over `adj_list.at(node)`; `call` is the
recursive call. -/
def hasCircleLoop (call : Nat → List Nat → List Nat → Except Error (Bool × List Nat × List Nat)) :
    List Nat → List Nat → List Nat → Except Error (Bool × List Nat × List Nat)
  | [], visited, in_trace => .ok (false, visited, in_trace)
  | i :: rest, visited, in_trace =>
    if i ∉ visited then
      match call i visited in_trace with
      | .error e => .error e
      | .ok (true, v, t) => .ok (true, v, t)
      | .ok (false, v, t) =>
        if i ∈ t then .ok (true, v, t) else hasCircleLoop call rest v t
    else if i ∈ in_trace then .ok (true, visited, in_trace)
    else hasCircleLoop call rest visited in_trace

/-- The function `HasCircleHelper`; the result carries the two sets it
updates. -/
def HasCircleHelper (adj : AdjList) :
    Nat → Nat → List Nat → List Nat → Except Error (Bool × List Nat × List Nat)
  | 0, _, _, _ => .error Error.OutOfFuel
  | fuel + 1, node, visited, in_trace =>
    if node ∉ visited then
      match mapFind adj node with
      | none => .error Error.OutOfRange
      | some ins =>
        match hasCircleLoop (HasCircleHelper adj fuel) ins
            (setInsert visited node) (setInsert in_trace node) with
        | .error e => .error e
        | .ok (true, v, t) => .ok (true, v, t)
        | .ok (false, v, t) => .ok (false, v, t.erase node)
    else .ok (false, visited, in_trace.erase node)

/-- The loop of `HasCircleInternal` over the entries of the map. -/
def hasCircleRoots (adj : AdjList) (fuel : Nat) :
    List (Nat × List Nat) → List Nat → List Nat → Except Error Bool
  | [], _, _ => .ok false
  | kv :: rest, visited, in_trace =>
    match HasCircleHelper adj fuel kv.1 visited in_trace with
    | .error e => .error e
    | .ok (true, _, _) => .ok true
    | .ok (false, v, t) => hasCircleRoots adj fuel rest v t

/-- The function `HasCircleInternal`. -/
def HasCircleInternal (adj : AdjList) : Except Error Bool :=
  hasCircleRoots adj (adj.length + 1) adj [] []

/-- The function `HasCircle`. -/
def HasCircle (g : Graph) : Except Error Bool :=
  match BuildOperationAdjList g with
  | .error e => .error e
  | .ok adj => HasCircleInternal adj

/-! ## TopologySortOperations -/

/-- The `for` loop of `SortHelper` over `adj_list.at(node)`; `call` is the
recursive call. -/
def sortLoop (call : Nat → List Nat → List Nat → Except Error (List Nat × List Nat)) :
    List Nat → List Nat → List Nat → Except Error (List Nat × List Nat)
  | [], visited, ret => .ok (visited, ret)
  | a :: rest, visited, ret =>
    if a ∉ visited then
      match call a visited ret with
      | .error e => .error e
      | .ok (v, r) => sortLoop call rest v r
    else sortLoop call rest visited ret

/-- The function `SortHelper`; the result is the pair `(visited, ret)`. -/
def SortHelper (adj : AdjList) :
    Nat → Nat → List Nat → List Nat → Except Error (List Nat × List Nat)
  | 0, _, _, _ => .error Error.OutOfFuel
  | fuel + 1, node, visited, ret =>
    match mapFind adj node with
    | none => .error Error.OutOfRange
    | some ins =>
      match sortLoop (SortHelper adj fuel) ins (setInsert visited node) ret with
      | .error e => .error e
      | .ok (v, r) => .ok (v, r ++ [node])

/-- The loop of `TopologySortOperations` over the entries of the map. -/
def sortRoots (adj : AdjList) (fuel : Nat) :
    List (Nat × List Nat) → List Nat → List Nat → Except Error (List Nat)
  | [], _, ret => .ok ret
  | kv :: rest, visited, ret =>
    if kv.1 ∉ visited then
      match SortHelper adj fuel kv.1 visited ret with
      | .error e => .error e
      | .ok (v, r) => sortRoots adj fuel rest v r
    else sortRoots adj fuel rest visited ret

/-- The function `TopologySortOperations`. -/
def TopologySortOperations (g : Graph) : Except Error (List Nat) :=
  match BuildOperationAdjList g with
  | .error e => .error e
  | .ok adj =>
    match HasCircleInternal adj with
    | .error e => .error e
    | .ok true => .error Error.CycleDetected
    | .ok false => sortRoots adj (adj.length + 1) adj [] []

/-! ## SortOperationsInSequence -/

/-- The lambda `is_same_op_desc`: same `Type()`, `Inputs()` and `Outputs()`. -/
def is_same_op_desc (op1 op2 : OpDesc) : Bool :=
  decide (op1.type = op2.type) && decide (op1.inputs = op2.inputs) &&
    decide (op1.outputs = op2.outputs)

/-- The local containers `op_deps`, `pending_ops` and `ready_ops`. -/
structure SeqState where
  op_deps : Nat → Option Nat
  pending_ops : Nat → List Nat
  ready_ops : List Nat

/-- The loop of the setup phase over `node->inputs`; it carries
`preceding_ops` and `pending_ops`. -/
def precedingLoop (g : Graph) (node : Nat) :
    List Nat → List Nat → (Nat → List Nat) → Except Error (List Nat × (Nat → List Nat))
  | [], preceding_ops, pending_ops => .ok (preceding_ops, pending_ops)
  | i :: rest, preceding_ops, pending_ops =>
    if g.IsVar i then
      match (g.node i).inputs with
      | [] => precedingLoop g node rest preceding_ops pending_ops
      | [p] =>
        if g.IsOp p then
          precedingLoop g node rest (setInsert preceding_ops p)
            (Function.update pending_ops p (setInsert (pending_ops p) node))
        else .error Error.MalformedGraph
      | _ :: _ :: _ => .error Error.MalformedGraph
    else .error Error.MalformedGraph

/-- The setup loop of `SortOperationsInSequence` over `graph.Nodes()`. -/
def setupLoop (g : Graph) : List Nat → SeqState → Except Error SeqState
  | [], s => .ok s
  | node :: rest, s =>
    if g.IsOp node then
      match precedingLoop g node (g.node node).inputs [] s.pending_ops with
      | .error e => .error e
      | .ok (preceding_ops, pending_ops) =>
        setupLoop g rest
          { op_deps := Function.update s.op_deps node (some preceding_ops.length)
            pending_ops := pending_ops
            ready_ops :=
              if preceding_ops.isEmpty then setInsert s.ready_ops node else s.ready_ops }
    else setupLoop g rest s

/-- The state before the setup loop: three empty containers. -/
def initState : SeqState :=
  { op_deps := fun _ => none, pending_ops := fun _ => [], ready_ops := [] }

/-- The search of `ready_ops` for the nodes whose descriptor is `op_desc`;
`found_node` is `none` for `nullptr`. -/
def findLoop (g : Graph) (op_desc : OpDesc) : List Nat → Option Nat → Except Error (Option Nat)
  | [], found_node => .ok found_node
  | node :: rest, found_node =>
    if is_same_op_desc op_desc (g.node node).op then
      match found_node with
      | some _ => .error Error.AmbiguousMatch
      | none => findLoop g op_desc rest (some node)
    else findLoop g op_desc rest found_node

/-- The pre-decrement `--x` of a `size_t`: zero wraps to `2 ^ 64 - 1`. -/
def decr (c : Nat) : Nat :=
  if c = 0 then 2 ^ 64 - 1 else c - 1

/-- The loop over `pending_ops[found_node]`. -/
def releaseLoop : List Nat → (Nat → Option Nat) → List Nat →
    Except Error ((Nat → Option Nat) × List Nat)
  | [], op_deps, ready_ops => .ok (op_deps, ready_ops)
  | pending_op :: rest, op_deps, ready_ops =>
    match op_deps pending_op with
    | none => .error Error.OutOfRange
    | some c =>
      if decr c = 0 then
        releaseLoop rest (Function.update op_deps pending_op (some (decr c)))
          (setInsert ready_ops pending_op)
      else
        releaseLoop rest (Function.update op_deps pending_op (some (decr c))) ready_ops

/-- One iteration of the main loop of `SortOperationsInSequence`: the new
state and the node found for `op_desc`. -/
def seqStep (g : Graph) (op_desc : OpDesc) (s : SeqState) : Except Error (SeqState × Nat) :=
  match findLoop g op_desc s.ready_ops none with
  | .error e => .error e
  | .ok none => .error Error.NoMatchingOperation
  | .ok (some found_node) =>
    match releaseLoop (s.pending_ops found_node) s.op_deps s.ready_ops with
    | .error e => .error e
    | .ok (op_deps, ready_ops) =>
      .ok ({ op_deps := op_deps
             pending_ops := s.pending_ops
             ready_ops := ready_ops.erase found_node }, found_node)

/-- The main loop of `SortOperationsInSequence` over `ops`; the result is the
final state and `op_node_list`. -/
def seqLoop (g : Graph) : List OpDesc → SeqState → List Nat → Except Error (SeqState × List Nat)
  | [], s, op_node_list => .ok (s, op_node_list)
  | op_desc :: rest, s, op_node_list =>
    match seqStep g op_desc s with
    | .error e => .error e
    | .ok (s1, found_node) => seqLoop g rest s1 (op_node_list ++ [found_node])

/-- The function `SortOperationsInSequence`. -/
def SortOperationsInSequence (g : Graph) : Except Error (List Nat) :=
  match g.allOpDescs with
  | none => .error Error.MissingAttribute
  | some ops =>
    match setupLoop g g.nodes initState with
    | .error e => .error e
    | .ok s =>
      match seqLoop g ops s [] with
      | .error e => .error e
      | .ok (_, op_node_list) => .ok op_node_list

/-! ## Example graphs -/

/-- A descriptor with the given type name, input and output variable names. -/
def mkDesc (t : String) (i o : List String) : OpDesc :=
  { type := t, inputs := [("X", i)], outputs := [("Out", o)], attrs := [] }

/-- An operation node. -/
def opNode (d : OpDesc) (i o : List Nat) : Node :=
  { type := NodeType.kOperation, inputs := i, outputs := o, op := d }

/-- A variable node. -/
def varNode (i o : List Nat) : Node :=
  { type := NodeType.kVariable, inputs := i, outputs := o, op := mkDesc "" [] [] }

/-- Scenario A: operation `A` (handle 0) produces `x` (handle 1), operation `B`
(handle 2) consumes `x` and produces `y` (handle 3). -/
def scenarioA : Graph :=
  { node := fun n =>
      match n with
      | 0 => opNode (mkDesc "A" [] ["x"]) [] [1]
      | 1 => varNode [0] [2]
      | 2 => opNode (mkDesc "B" ["x"] ["y"]) [1] [3]
      | _ => varNode [2] []
    nodes := [3, 2, 1, 0]
    allOpDescs := none }

/-- The descriptors `D1`, `D2`, `D3` of scenario C. -/
def descD (k : Nat) : OpDesc :=
  match k with
  | 1 => mkDesc "op1" [] ["a"]
  | 2 => mkDesc "op2" ["a"] ["b"]
  | _ => mkDesc "op3" ["b"] ["c"]

/-- The chain of scenarios C and D: `D1` (handle 0) produces `a` (handle 1),
`D2` (handle 2) consumes `a` and produces `b` (handle 3), `D3` (handle 4)
consumes `b` and produces `c` (handle 5); `ops` is the canonical list. -/
def chainGraph (ops : List OpDesc) : Graph :=
  { node := fun n =>
      match n with
      | 0 => opNode (descD 1) [] [1]
      | 1 => varNode [0] [2]
      | 2 => opNode (descD 2) [1] [3]
      | 3 => varNode [2] [4]
      | 4 => opNode (descD 3) [3] [5]
      | _ => varNode [4] []
    nodes := [4, 1, 5, 0, 3, 2]
    allOpDescs := some ops }

/-- Scenario E: two source operations (handles 0 and 1) with equal
descriptors. -/
def scenarioE : Graph :=
  { node := fun n =>
      match n with
      | 0 => opNode (mkDesc "fill" [] ["a"]) [] []
      | _ => opNode (mkDesc "fill" [] ["a"]) [] []
    nodes := [0, 1]
    allOpDescs := some [mkDesc "fill" [] ["a"]] }

/-! ## Predicates of the specification and of the proofs -/

/-- The keys of a map, in iteration order. -/
def mapKeys (m : AdjList) : List Nat := m.map Prod.fst

/-- The operation `p` produces an input of `n`: `p` is an input neighbour of an
input neighbour of `n`. -/
def Producer (g : Graph) (n p : Nat) : Prop :=
  ∃ v ∈ (g.node n).inputs, p ∈ (g.node v).inputs

/-- The handle `n` is an operation node of the graph. -/
def IsOpNode (g : Graph) (n : Nat) : Prop :=
  n ∈ g.nodes ∧ (g.node n).type = NodeType.kOperation

/-- The map `adj` is what `BuildOperationAdjList` has built once the nodes
satisfying `S` are processed. -/
def AdjSpec (g : Graph) (S : Nat → Prop) (adj : AdjList) : Prop :=
  (mapKeys adj).Sorted (· < ·) ∧
  (∀ k, (mapFind adj k).isSome ↔ (S k ∧ (g.node k).type = NodeType.kOperation)) ∧
  (∀ k r, mapFind adj k = some r → r.Nodup ∧ ∀ p, p ∈ r ↔ Producer g k p)

/-- An edge of the adjacency map: `p` is in the set stored at the key `n`. -/
def AdjEdge (adj : AdjList) (n p : Nat) : Prop :=
  ∃ ins, mapFind adj n = some ins ∧ p ∈ ins

/-- Every member of every set of the map is a key of the map. -/
def AdjClosed (adj : AdjList) : Prop :=
  ∀ n p, AdjEdge adj n p → (mapFind adj p).isSome

/-- The map has a cycle. -/
def AdjCyclic (adj : AdjList) : Prop :=
  ∃ x, Relation.TransGen (AdjEdge adj) x x

/-- The number of entries of the map whose key is not in `V`. -/
def unvisited (adj : AdjList) (V : List Nat) : Nat :=
  (adj.filter (fun kv => decide (kv.1 ∉ V))).length

/-- The invariant of the depth-first search of `HasCircleHelper`: the nodes in
progress (`T`) are visited, and the finished nodes (visited, not in progress)
are closed under the edges of the map and lie on no cycle. -/
structure DfsInv (adj : AdjList) (V T : List Nat) : Prop where
  sub : ∀ t ∈ T, t ∈ V
  closed : ∀ b ∈ V, b ∉ T → ∀ p, AdjEdge adj b p → p ∈ V ∧ p ∉ T
  acyc : ∀ b ∈ V, b ∉ T → ¬ Relation.TransGen (AdjEdge adj) b b

/-- The contract of a call of `HasCircleHelper` on an unvisited key, when at
most `bound` keys are unvisited. -/
def HelperSpec (adj : AdjList)
    (call : Nat → List Nat → List Nat → Except Error (Bool × List Nat × List Nat))
    (bound : Nat) : Prop :=
  ∀ node V T, node ∉ V → (mapFind adj node).isSome → DfsInv adj V T →
    (∀ t ∈ T, Relation.ReflTransGen (AdjEdge adj) t node) → unvisited adj V ≤ bound →
    ∃ b V' T', call node V T = .ok (b, V', T') ∧ (b = true → AdjCyclic adj) ∧
      (b = false → T' = T ∧ (∀ x ∈ V, x ∈ V') ∧ node ∈ V' ∧ DfsInv adj V' T)

/-- Every neighbour of a graph node is a graph node. -/
def NeighboursClosed (g : Graph) : Prop :=
  ∀ n ∈ g.nodes, ∀ m ∈ (g.node n).inputs ++ (g.node n).outputs, m ∈ g.nodes

/-- Every producer of an input of an operation node of the graph is a graph
node. -/
def ProducersInGraph (g : Graph) : Prop :=
  ∀ n ∈ g.nodes, (g.node n).type = NodeType.kOperation →
    ∀ v ∈ (g.node n).inputs, ∀ p ∈ (g.node v).inputs, p ∈ g.nodes

/-- Every producer of an input of an operation node is an operation. -/
def ProducersAreOps (g : Graph) : Prop :=
  ∀ n ∈ g.nodes, (g.node n).type = NodeType.kOperation →
    ∀ v ∈ (g.node n).inputs, ∀ p ∈ (g.node v).inputs,
      (g.node p).type = NodeType.kOperation

/-- The bipartite invariant: every neighbour of a graph node is a graph node of
the other kind. -/
def Bipartite (g : Graph) : Prop :=
  ∀ n ∈ g.nodes, ∀ m ∈ (g.node n).inputs ++ (g.node n).outputs,
    m ∈ g.nodes ∧ (g.node m).type ≠ (g.node n).type

instance (g : Graph) : Decidable (NeighboursClosed g) := by
  unfold NeighboursClosed; infer_instance

instance (g : Graph) : Decidable (ProducersInGraph g) := by
  unfold ProducersInGraph; infer_instance

instance (g : Graph) : Decidable (ProducersAreOps g) := by
  unfold ProducersAreOps; infer_instance

instance (g : Graph) : Decidable (Bipartite g) := by
  unfold Bipartite; infer_instance

/-- The predecessor relation on the operation nodes of the graph: `p` is a
predecessor of `n`. -/
def Pred (g : Graph) (n p : Nat) : Prop :=
  IsOpNode g n ∧ IsOpNode g p ∧ Producer g n p

/-- The predecessor relation has a cycle: there are operation nodes
`n0, n1, ..., nk` with `k ≥ 1`, each `n(i+1)` a predecessor of `n(i)`, and
`nk = n0`; the list `l` is `n1, ..., nk`. -/
def HasCycle (g : Graph) : Prop :=
  ∃ (n0 : Nat) (l : List Nat), List.Chain (Pred g) n0 l ∧ l.getLast? = some n0

/-- The list `ret` is ordered along the map: every member of the set stored at
an element of `ret` occurs in `ret` at a smaller index. -/
def GoodOrder (adj : AdjList) (ret : List Nat) : Prop :=
  ∀ x ∈ ret, ∀ p, AdjEdge adj x p → p ∈ ret ∧ ret.indexOf p < ret.indexOf x

/-- The state `(V, ret)` of the depth-first search of `SortHelper` is sound:
`ret` is duplicate-free, ordered along the map, made of visited keys. -/
structure SortInv (adj : AdjList) (V ret : List Nat) : Prop where
  sub : ∀ x ∈ ret, x ∈ V
  nodup : ret.Nodup
  good : GoodOrder adj ret
  keys : ∀ x ∈ ret, (mapFind adj x).isSome

/-- The state `(V', ret')` extends `(V, ret)` by nodes that were not visited. -/
structure SortExt (V ret V' ret' : List Nat) : Prop where
  visited : ∀ x, x ∈ V' ↔ x ∈ V ∨ x ∈ ret'
  keep : ∀ x ∈ ret, x ∈ ret'
  fresh : ∀ x ∈ ret', x ∈ ret ∨ x ∉ V

/-- The contract of a call of `SortHelper` on an unvisited key, when at most
`bound` keys are unvisited. -/
def SortSpec (adj : AdjList)
    (call : Nat → List Nat → List Nat → Except Error (List Nat × List Nat))
    (bound : Nat) : Prop :=
  ∀ node V ret, node ∉ V → (mapFind adj node).isSome → SortInv adj V ret →
    (∀ s ∈ V, s ∉ ret → Relation.ReflTransGen (AdjEdge adj) s node) →
    unvisited adj V ≤ bound →
    ∃ V' ret', call node V ret = .ok (V', ret') ∧ SortExt V ret V' ret' ∧
      SortInv adj V' ret' ∧ node ∈ ret'

/-- A graph with a cycle: operation 0 produces variable 1, operation 2 consumes
it and produces variable 3, which operation 0 consumes. -/
def loopGraph : Graph :=
  { node := fun n =>
      match n with
      | 0 => opNode (mkDesc "f" ["y"] ["x"]) [3] [1]
      | 1 => varNode [0] [2]
      | 2 => opNode (mkDesc "g" ["x"] ["y"]) [1] [3]
      | _ => varNode [2] [0]
    nodes := [0, 1, 2, 3]
    allOpDescs := none }

/-- A graph with a neighbour outside its node set: operation `B` (handle 2)
consumes variable `x` (handle 1), whose producer, operation `A` (handle 0), is
not among `graph.Nodes()`. -/
def danglingGraph : Graph :=
  { node := fun n =>
      match n with
      | 0 => opNode (mkDesc "A" [] ["x"]) [] [1]
      | 1 => varNode [0] [2]
      | _ => opNode (mkDesc "B" ["x"] []) [1] []
    nodes := [1, 2]
    allOpDescs := none }

/-- The nodes of `ready` whose descriptor equals `op_desc` under
`is_same_op_desc`. -/
def matching (g : Graph) (op_desc : OpDesc) (ready : List Nat) : List Nat :=
  ready.filter (fun n => is_same_op_desc op_desc (g.node n).op)

/-- The set `preceding_ops` that the setup phase computes from the inputs
`ins`, when its checks pass. -/
def precFold (g : Graph) : List Nat → List Nat → List Nat
  | [], pre => pre
  | i :: rest, pre =>
    match (g.node i).inputs with
    | [p] => precFold g rest (setInsert pre p)
    | _ => precFold g rest pre

/-- The set `preceding_ops` of the node `n`. -/
def precOps (g : Graph) (n : Nat) : List Nat :=
  precFold g (g.node n).inputs []

/-- The structural checks of the setup phase on the node `n`: every input is a
variable with no producer or with one producer that is an operation. -/
def StructOK (g : Graph) (n : Nat) : Prop :=
  ∀ i ∈ (g.node n).inputs, g.IsVar i = true ∧
    ((g.node i).inputs = [] ∨ ∃ p, (g.node i).inputs = [p] ∧ g.IsOp p = true)

/-- The state of the setup loop once the nodes satisfying `S` are processed. -/
structure SetupInv (g : Graph) (S : Nat → Prop) (s : SeqState) : Prop where
  struct : ∀ n, S n → g.IsOp n = true → StructOK g n
  deps : ∀ n, S n → g.IsOp n = true → s.op_deps n = some (precOps g n).length
  pend : ∀ p x, x ∈ s.pending_ops p ↔ (S x ∧ g.IsOp x = true ∧ p ∈ precOps g x)
  pendNodup : ∀ p, (s.pending_ops p).Nodup
  ready : ∀ x, x ∈ s.ready_ops ↔ (S x ∧ g.IsOp x = true ∧ precOps g x = [])
  readyNodup : s.ready_ops.Nodup

/-- The number of members of `P` that are not in `out`. -/
def outstanding (P out : List Nat) : Nat :=
  (P.filter (fun p => decide (p ∉ out))).length

/-- The invariant of the main loop of `SortOperationsInSequence`, `out` being
`op_node_list`: the counter of an operation node is the number of its preceding
operations not yet output, the ready set holds the operation nodes not yet
output whose preceding operations are all output, and every node of `out`
comes after its preceding operations. -/
structure SeqInv (g : Graph) (s : SeqState) (out : List Nat) : Prop where
  struct : ∀ n, IsOpNode g n → StructOK g n
  deps : ∀ n, IsOpNode g n → s.op_deps n = some (outstanding (precOps g n) out)
  pend : ∀ p x, x ∈ s.pending_ops p ↔ (IsOpNode g x ∧ p ∈ precOps g x)
  pendNodup : ∀ p, (s.pending_ops p).Nodup
  ready : ∀ x, x ∈ s.ready_ops ↔ (IsOpNode g x ∧ x ∉ out ∧ ∀ p ∈ precOps g x, p ∈ out)
  readyNodup : s.ready_ops.Nodup
  outOps : ∀ x ∈ out, IsOpNode g x
  outNodup : out.Nodup
  ordered : ∀ i (hi : i < out.length) p, p ∈ precOps g out[i] → ∃ j, j < i ∧ out[j]? = some p

/-- In the list `L` every node comes after all the operations that produce its
input variables: a producer of an input of `L[i]` is `L[j]` for some `j < i`. -/
def DepOrdered (g : Graph) (L : List Nat) : Prop :=
  ∀ i (hi : i < L.length), ∀ v ∈ (g.node L[i]).inputs, ∀ p ∈ (g.node v).inputs,
    ∃ j, j < i ∧ L[j]? = some p

/-- The operation nodes of the graph carry pairwise non-equal descriptors. -/
def DistinctDescs (g : Graph) : Prop :=
  ∀ a ∈ g.nodes, ∀ b ∈ g.nodes, g.IsOp a = true → g.IsOp b = true → a ≠ b →
    is_same_op_desc (g.node a).op (g.node b).op = false

instance (g : Graph) (n : Nat) : Decidable (IsOpNode g n) := by
  unfold IsOpNode; infer_instance

instance (g : Graph) (L : List Nat) : Decidable (DepOrdered g L) := by
  unfold DepOrdered; infer_instance

instance (g : Graph) : Decidable (DistinctDescs g) := by
  unfold DistinctDescs; infer_instance

/-- The state after the setup phase, when it succeeds. -/
def setupState (g : Graph) : SeqState :=
  match setupLoop g g.nodes initState with
  | .ok s => s
  | .error _ => initState

/-- A graph with a variable that has two producers: the operations 0 and 1
both produce the variable 2, which the operation 3 consumes. -/
def twoProducerGraph : Graph :=
  { node := fun n =>
      match n with
      | 0 => opNode (mkDesc "A" [] ["x"]) [] [2]
      | 1 => opNode (mkDesc "B" [] ["x"]) [] [2]
      | 2 => varNode [0, 1] [3]
      | _ => opNode (mkDesc "C" ["x"] []) [2] []
    nodes := [0, 1, 2, 3]
    allOpDescs := some [] }

/-- A graph in which the producer of an input of an operation is a variable:
the operation 2 consumes the variable 1, whose input neighbour is the
variable 0. -/
def varProducerGraph : Graph :=
  { node := fun n =>
      match n with
      | 0 => varNode [] [1]
      | 1 => varNode [0] [2]
      | _ => opNode (mkDesc "B" ["x"] []) [1] []
    nodes := [0, 1, 2]
    allOpDescs := some [] }

/-- Some input neighbour of an operation node of the graph has an input
neighbour that is not an operation. -/
def HasNonOpProducer (g : Graph) : Prop :=
  ∃ n ∈ g.nodes, (g.node n).type = NodeType.kOperation ∧
    ∃ v ∈ (g.node n).inputs, ∃ p ∈ (g.node v).inputs,
      (g.node p).type ≠ NodeType.kOperation

/-- Some operation node of the graph has an input neighbour that is not a
variable, or one with more than one producer, or one whose single producer is
not an operation. -/
def HasSetupViolation (g : Graph) : Prop :=
  ∃ n ∈ g.nodes, g.IsOp n = true ∧ ∃ i ∈ (g.node n).inputs,
    g.IsVar i = false ∨ 2 ≤ (g.node i).inputs.length ∨
      ∃ p, (g.node i).inputs = [p] ∧ g.IsOp p = false

instance (g : Graph) : Decidable (HasNonOpProducer g) := by
  unfold HasNonOpProducer; infer_instance

/-- A map with a cycle: each of the keys 0 and 2 is in the set of the other. -/
def loopAdj : AdjList := [(0, [2]), (2, [0])]

/-! ## GraphNum -/

/-- The local containers of `GraphNum`. -/
structure GraphNumState where
  visited_nodes : List Nat
  q_nodes : List Nat
  graph_nodes : List (List Nat)
  g_nodes : List Nat
  q_set : List Nat
  graph_count : Nat

/-- The set `nodes` that `GraphNum` builds from `graph.Nodes()`. -/
def nodeSet (g : Graph) : List Nat :=
  g.nodes.foldl setInsert []

/-- The lambda `traverse_nodes`; the pair is `(q_nodes, q_set)`. -/
def traverse_nodes (visited_nodes : List Nat) :
    List Nat → List Nat × List Nat → List Nat × List Nat
  | [], q => q
  | n :: rest, q =>
    if n ∉ visited_nodes ∧ n ∉ q.2 then
      traverse_nodes visited_nodes rest (q.1 ++ [n], setInsert q.2 n)
    else traverse_nodes visited_nodes rest q

/-- The `for` loop over `nodes` that looks for the first unvisited node. -/
def seedLoop (visited_nodes : List Nat) : List Nat → Option Nat
  | [] => none
  | n :: rest => if n ∉ visited_nodes then some n else seedLoop visited_nodes rest

/-- The statement `if (g_nodes.size()) graph_nodes.emplace_back(g_nodes)`. -/
def recordComponent (graph_nodes : List (List Nat)) (g_nodes : List Nat) : List (List Nat) :=
  if g_nodes.length ≠ 0 then graph_nodes ++ [g_nodes] else graph_nodes

/-- The body of the `while` loop of `GraphNum`. -/
def graphNumStep (g : Graph) (nodes : List Nat) (s : GraphNumState) : GraphNumState :=
  match s.q_nodes with
  | cur_node :: q =>
    let visited := setInsert s.visited_nodes cur_node
    let q1 := traverse_nodes visited (g.node cur_node).inputs (q, s.q_set.erase cur_node)
    let q2 := traverse_nodes visited (g.node cur_node).outputs q1
    { visited_nodes := visited
      q_nodes := q2.1
      graph_nodes := s.graph_nodes
      g_nodes := setInsert s.g_nodes cur_node
      q_set := q2.2
      graph_count := s.graph_count }
  | [] =>
    match seedLoop s.visited_nodes nodes with
    | some n =>
      { visited_nodes := s.visited_nodes
        q_nodes := [n]
        graph_nodes := recordComponent s.graph_nodes s.g_nodes
        g_nodes := []
        q_set := setInsert s.q_set n
        graph_count := s.graph_count + 1 }
    | none =>
      { visited_nodes := s.visited_nodes
        q_nodes := []
        graph_nodes := recordComponent s.graph_nodes s.g_nodes
        g_nodes := []
        q_set := s.q_set
        graph_count := s.graph_count + 1 }

/-- The `while` loop of `GraphNum`. -/
def graphNumLoop (g : Graph) (nodes : List Nat) : Nat → GraphNumState → Except Error GraphNumState
  | 0, s =>
    if s.visited_nodes.length ≠ nodes.length then .error Error.OutOfFuel else .ok s
  | fuel + 1, s =>
    if s.visited_nodes.length ≠ nodes.length then
      graphNumLoop g nodes fuel (graphNumStep g nodes s)
    else .ok s

/-- The state of `GraphNum` before the loop. -/
def graphNumInit : GraphNumState :=
  { visited_nodes := [], q_nodes := [], graph_nodes := [], g_nodes := [], q_set := [],
    graph_count := 0 }

/-- The function `GraphNum` up to the dump: the loop and the record of the
last component. -/
def graphNumRun (g : Graph) : Except Error GraphNumState :=
  match graphNumLoop g (nodeSet g) (2 * (nodeSet g).length + 1) graphNumInit with
  | .error e => .error e
  | .ok s => .ok { s with graph_nodes := recordComponent s.graph_nodes s.g_nodes }

/-- The condition `graph_nodes.size() > 1` under which `GraphNum` writes the
dump. -/
def dumpCondition (s : GraphNumState) : Bool :=
  decide (1 < s.graph_nodes.length)

/-- The names of the neighbours `ns`, each followed by a comma and a blank, as
the dump prints them. -/
def dumpNames (g : Graph) (ns : List Nat) : String :=
  ns.foldl (fun out n => out ++ (g.node n).name ++ ", ") ""

/-- The line of the dump for one node. -/
def dumpNode (g : Graph) (node : Nat) : String :=
  "\nNode: " ++ (g.node node).name ++ " in [" ++ dumpNames g (g.node node).inputs
    ++ "], out[" ++ dumpNames g (g.node node).outputs ++ "]"

/-- The paragraph of the dump for one component. -/
def dumpComponent (g : Graph) (g_n : List Nat) : String :=
  "graph_nodes: " ++ toString g_n.length
    ++ g_n.foldl (fun out node => out ++ dumpNode g node) "" ++ "\n\n\n"

/-- The text that the dump collects in the string stream `out`: the sizes of
the components, then every component with its nodes. -/
def dumpText (g : Graph) (graph_nodes : List (List Nat)) : String :=
  graph_nodes.foldl (fun out g_n => out ++ "graph_nodes: " ++ toString g_n.length ++ "\n") ""
    ++ "\n\n" ++ graph_nodes.foldl (fun out g_n => out ++ dumpComponent g g_n) ""

/-- The dump of `GraphNum`: with a non-empty flag (`size()` is not zero) and
more than one component the text is collected, a file stream is opened on the
path of the flag, and a stream that is not good fails the `PADDLE_ENFORCE`;
otherwise the text is sent to the stream.  The result is the text sent, `none`
when no stream is opened. -/
def graphNumDump (g : Graph) (s : GraphNumState) (FLAGS_print_sub_graph_dir : String)
    (fout_good : Bool) : Except Error (Option String) :=
  if FLAGS_print_sub_graph_dir.length ≠ 0 then
    if 1 < s.graph_nodes.length then
      if fout_good then .ok (some (dumpText g s.graph_nodes))
      else .error Error.DiagnosticIoFailure
    else .ok none
  else .ok none

/-- The function `GraphNum`, given the flag `FLAGS_print_sub_graph_dir` and
whether a stream opened on its path is good: the count it returns and the text
it has written. -/
def GraphNum (g : Graph) (FLAGS_print_sub_graph_dir : String) (fout_good : Bool) :
    Except Error (Nat × Option String) :=
  match graphNumRun g with
  | .error e => .error e
  | .ok s =>
    match graphNumDump g s FLAGS_print_sub_graph_dir fout_good with
    | .error e => .error e
    | .ok written => .ok (s.graph_count, written)

/-- The graph without nodes. -/
def emptyGraph : Graph :=
  { node := fun _ => varNode [] [], nodes := [], allOpDescs := none }

/-- Scenario B: scenario A and an isolated operation `C` (handle 4). -/
def scenarioB : Graph :=
  { node := fun n =>
      match n with
      | 0 => opNode (mkDesc "A" [] ["x"]) [] [1]
      | 1 => varNode [0] [2]
      | 2 => opNode (mkDesc "B" ["x"] ["y"]) [1] [3]
      | 3 => varNode [2] []
      | _ => opNode (mkDesc "C" [] []) [] []
    nodes := [3, 4, 2, 1, 0]
    allOpDescs := none }

/-- The invariant of the work queue of `GraphNum`: the queue holds no visited
node and no node twice, `q_set` holds the nodes of the queue, and the visited
set is not larger than the node set. -/
structure QueueInv (nodes : List Nat) (s : GraphNumState) : Prop where
  visitedNodup : s.visited_nodes.Nodup
  queueNodup : s.q_nodes.Nodup
  disjoint : ∀ x ∈ s.q_nodes, x ∉ s.visited_nodes
  qset : ∀ x, x ∈ s.q_set ↔ x ∈ s.q_nodes
  qsetNodup : s.q_set.Nodup
  bound : s.visited_nodes.length ≤ nodes.length

/-- The measure that decreases at every iteration of the loop of `GraphNum`. -/
def graphNumMeasure (nodes : List Nat) (s : GraphNumState) : Nat :=
  2 * (nodes.length - s.visited_nodes.length) + (if s.q_nodes = [] then 1 else 0)

/-- The state after `k` iterations of the loop body from the state `s`. -/
def iterState (g : Graph) (nodes : List Nat) (s : GraphNumState) (k : Nat) : GraphNumState :=
  Nat.iterate (graphNumStep g nodes) k s

/-- The number of iterations among the first `K` from `s` that dequeue a
node. -/
def dequeues (g : Graph) (nodes : List Nat) (s : GraphNumState) : Nat → Nat
  | 0 => 0
  | K + 1 =>
    dequeues g nodes s K + (if (iterState g nodes s K).q_nodes = [] then 0 else 1)

/-- The invariant of the components of `GraphNum` on a graph whose neighbour
lists mention only graph nodes: the visited nodes are graph nodes, spread over
the recorded components and the current one, which are non-empty and disjoint,
and `graph_count` counts the recorded components and the current one. -/
structure CompInv (nodes : List Nat) (s : GraphNumState) : Prop where
  visitedSub : ∀ x ∈ s.visited_nodes, x ∈ nodes
  queueSub : ∀ x ∈ s.q_nodes, x ∈ nodes
  cover : ∀ x, x ∈ s.visited_nodes ↔ (x ∈ s.g_nodes ∨ ∃ c ∈ s.graph_nodes, x ∈ c)
  nonempty : ∀ c ∈ s.graph_nodes, c ≠ []
  pairwise : s.graph_nodes.Pairwise (fun a b => ∀ x ∈ a, x ∉ b)
  gDisjoint : ∀ c ∈ s.graph_nodes, ∀ x ∈ c, x ∉ s.g_nodes
  count : s.graph_count =
    s.graph_nodes.length + (if s.q_nodes = [] ∧ s.g_nodes = [] then 0 else 1)

/-- The node `b` is an input or output neighbour of `a`. -/
def Neighbour (g : Graph) (a b : Nat) : Prop :=
  b ∈ (g.node a).inputs ∨ b ∈ (g.node a).outputs

/-- The reflexive-transitive closure of `Neighbour`. -/
def WeakConn (g : Graph) (a b : Nat) : Prop :=
  Relation.ReflTransGen (Neighbour g) a b

/-- The neighbour lists of the graph nodes are mutually consistent: `b` is in
`a.outputs` if and only if `a` is in `b.inputs`. -/
def Consistent (g : Graph) : Prop :=
  ∀ a ∈ g.nodes, ∀ b ∈ g.nodes, (b ∈ (g.node a).outputs ↔ a ∈ (g.node b).inputs)

instance (g : Graph) : Decidable (Consistent g) := by
  unfold Consistent; infer_instance

/-- The invariant of the breadth-first search of `GraphNum`: every recorded
component is the class of each of its nodes, the nodes of the current component
and of the queue are connected to each other, and the neighbours of a node of
the current component are visited or queued. -/
structure ConnInv (g : Graph) (s : GraphNumState) : Prop where
  classes : ∀ c ∈ s.graph_nodes, ∀ x ∈ c, ∀ y, y ∈ c ↔ WeakConn g x y
  current : ∀ x, (x ∈ s.g_nodes ∨ x ∈ s.q_nodes) → ∀ y, (y ∈ s.g_nodes ∨ y ∈ s.q_nodes) →
    WeakConn g x y
  frontier : ∀ x ∈ s.g_nodes, ∀ y, Neighbour g x y → y ∈ s.visited_nodes ∨ y ∈ s.q_nodes

/-- A graph with named nodes in two components: the operation `a` (handle 0)
produces the variable `x` (handle 1), and the operation `c` (handle 2) is
isolated. -/
def namedGraph : Graph :=
  { node := fun n =>
      match n with
      | 0 => { type := NodeType.kOperation, inputs := [], outputs := [1],
               op := mkDesc "a" [] ["x"], name := "a" }
      | 1 => { type := NodeType.kVariable, inputs := [0], outputs := [],
               op := mkDesc "" [] [], name := "x" }
      | _ => { type := NodeType.kOperation, inputs := [], outputs := [],
               op := mkDesc "c" [] [], name := "c" }
    nodes := [0, 1, 2]
    allOpDescs := none }

/-! # Properties -/

/-! ## Lemmas on the containers -/

theorem mem_setInsert (s : List Nat) (x y : Nat) : y ∈ setInsert s x ↔ y ∈ s ∨ y = x := by
  unfold setInsert
  split
  · constructor
    · exact fun h => Or.inl h
    · rintro (h | h)
      · exact h
      · subst h; assumption
  · simp

theorem nodup_setInsert (s : List Nat) (x : Nat) (h : s.Nodup) : (setInsert s x).Nodup := by
  unfold setInsert
  split
  · exact h
  · rw [List.nodup_append]
    refine ⟨h, List.nodup_singleton x, ?_⟩
    intro a ha hb
    simp at hb
    subst hb
    contradiction

theorem setInsert_of_not_mem (s : List Nat) (x : Nat) (h : x ∉ s) : setInsert s x = s ++ [x] := by
  unfold setInsert
  rw [if_neg h]


theorem mapFind_mapSet (m : AdjList) (k : Nat) (v : List Nat) (k' : Nat) :
    mapFind (mapSet m k v) k' = if k = k' then some v else mapFind m k' := by
  induction m with
  | nil => simp [mapSet, mapFind]
  | cons kv rest ih =>
    obtain ⟨a, w⟩ := kv
    unfold mapSet
    by_cases h1 : k < a
    · rw [if_pos h1]
      by_cases h : k = k'
      · simp [mapFind, h]
      · simp [mapFind, h]
    · rw [if_neg h1]
      by_cases h2 : k = a
      · rw [if_pos h2]
        subst h2
        by_cases h : k = k'
        · simp [mapFind, h]
        · simp [mapFind, h]
      · rw [if_neg h2]
        by_cases h : k = k'
        · subst h
          have : ¬ a = k := fun e => h2 e.symm
          simp [mapFind, this, ih]
        · by_cases h3 : a = k'
          · simp [mapFind, h3, h]
          · simp [mapFind, h3, h, ih]

theorem mapFind_isSome_iff (m : AdjList) (k : Nat) :
    (mapFind m k).isSome ↔ k ∈ mapKeys m := by
  induction m with
  | nil => simp [mapFind, mapKeys]
  | cons kv rest ih =>
    obtain ⟨a, w⟩ := kv
    by_cases h : a = k
    · simp [mapFind, mapKeys, h]
    · have h' : ¬ k = a := fun e => h e.symm
      simp only [mapFind, if_neg h, ih, mapKeys, List.map_cons, List.mem_cons, h', false_or]

theorem mapFind_mem (m : AdjList) (k : Nat) (v : List Nat) (h : mapFind m k = some v) :
    (k, v) ∈ m := by
  induction m with
  | nil => simp [mapFind] at h
  | cons kv rest ih =>
    obtain ⟨a, w⟩ := kv
    by_cases h1 : a = k
    · simp [mapFind, h1] at h
      simp [h1, h]
    · simp [mapFind, h1] at h
      exact List.mem_cons_of_mem _ (ih h)

theorem mem_mapKeys_mapSet (m : AdjList) (k : Nat) (v : List Nat) (k' : Nat) :
    k' ∈ mapKeys (mapSet m k v) ↔ k' = k ∨ k' ∈ mapKeys m := by
  rw [← mapFind_isSome_iff, ← mapFind_isSome_iff, mapFind_mapSet]
  by_cases h : k = k'
  · simp [h]
  · have h' : ¬ k' = k := fun e => h e.symm
    simp [h, h']

theorem sorted_mapSet (m : AdjList) (k : Nat) (v : List Nat)
    (h : (mapKeys m).Sorted (· < ·)) : (mapKeys (mapSet m k v)).Sorted (· < ·) := by
  induction m with
  | nil => simp [mapSet, mapKeys]
  | cons kv rest ih =>
    obtain ⟨a, w⟩ := kv
    have hs : (a :: mapKeys rest).Sorted (· < ·) := h
    rw [List.sorted_cons] at hs
    unfold mapSet
    by_cases h1 : k < a
    · rw [if_pos h1]
      show (k :: a :: mapKeys rest).Sorted (· < ·)
      rw [List.sorted_cons]
      refine ⟨?_, h⟩
      intro b hb
      rcases List.mem_cons.mp hb with hb | hb
      · subst hb; exact h1
      · exact lt_trans h1 (hs.1 b hb)
    · rw [if_neg h1]
      by_cases h2 : k = a
      · rw [if_pos h2]
        subst h2
        exact h
      · rw [if_neg h2]
        show (a :: mapKeys (mapSet rest k v)).Sorted (· < ·)
        rw [List.sorted_cons]
        refine ⟨?_, ih hs.2⟩
        intro b hb
        rcases (mem_mapKeys_mapSet rest k v b).mp hb with hb | hb
        · subst hb; omega
        · exact hs.1 b hb

/-! ## BuildOperationAdjList -/

theorem addProducers_ok (g : Graph) (n : Nat) :
    ∀ (ps : List Nat) (adj adj' : AdjList) (r : List Nat),
      mapFind adj n = some r → addProducers g n ps adj = .ok adj' →
      (∀ p ∈ ps, (g.node p).type = NodeType.kOperation) ∧
      (∃ r', mapFind adj' n = some r' ∧ (∀ p, p ∈ r' ↔ p ∈ r ∨ p ∈ ps) ∧
        (r.Nodup → r'.Nodup)) ∧
      (∀ k, k ≠ n → mapFind adj' k = mapFind adj k) ∧
      ((mapKeys adj).Sorted (· < ·) → (mapKeys adj').Sorted (· < ·)) := by
  intro ps
  induction ps with
  | nil =>
    intro adj adj' r hr h
    simp only [addProducers, Except.ok.injEq] at h
    subst h
    exact ⟨by simp, ⟨r, hr, by simp, id⟩, fun _ _ => rfl, id⟩
  | cons p rest ih =>
    intro adj adj' r hr h
    unfold addProducers at h
    by_cases hp : (g.node p).type = NodeType.kOperation
    · rw [if_pos hp] at h
      have hr1 : mapFind (mapSet adj n (setInsert ((mapFind adj n).getD []) p)) n
          = some (setInsert r p) := by
        rw [mapFind_mapSet, if_pos rfl, hr]; rfl
      obtain ⟨h1, ⟨r', h2, h3, h4⟩, h5, h6⟩ := ih _ adj' _ hr1 h
      refine ⟨?_, ⟨r', h2, ?_, ?_⟩, ?_, ?_⟩
      · intro q hq
        rcases List.mem_cons.mp hq with hq | hq
        · subst hq; exact hp
        · exact h1 q hq
      · intro q
        rw [h3, mem_setInsert, List.mem_cons]
        tauto
      · intro hn
        exact h4 (nodup_setInsert r p hn)
      · intro k hk
        rw [h5 k hk, mapFind_mapSet, if_neg (fun e => hk e.symm)]
      · intro hs
        exact h6 (sorted_mapSet adj n _ hs)
    · rw [if_neg hp] at h
      cases h

theorem addProducers_total (g : Graph) (n : Nat) :
    ∀ (ps : List Nat) (adj : AdjList),
      (∀ p ∈ ps, (g.node p).type = NodeType.kOperation) →
      ∃ adj', addProducers g n ps adj = .ok adj' := by
  intro ps
  induction ps with
  | nil => intro adj _; exact ⟨adj, rfl⟩
  | cons p rest ih =>
    intro adj h
    unfold addProducers
    rw [if_pos (h p (List.mem_cons_self _ _))]
    exact ih _ (fun q hq => h q (List.mem_cons_of_mem _ hq))

theorem addInputs_ok (g : Graph) (n : Nat) :
    ∀ (vs : List Nat) (adj adj' : AdjList) (r : List Nat),
      mapFind adj n = some r → addInputs g n vs adj = .ok adj' →
      (∀ v ∈ vs, ∀ p ∈ (g.node v).inputs, (g.node p).type = NodeType.kOperation) ∧
      (∃ r', mapFind adj' n = some r' ∧
        (∀ p, p ∈ r' ↔ p ∈ r ∨ ∃ v ∈ vs, p ∈ (g.node v).inputs) ∧
        (r.Nodup → r'.Nodup)) ∧
      (∀ k, k ≠ n → mapFind adj' k = mapFind adj k) ∧
      ((mapKeys adj).Sorted (· < ·) → (mapKeys adj').Sorted (· < ·)) := by
  intro vs
  induction vs with
  | nil =>
    intro adj adj' r hr h
    simp only [addInputs, Except.ok.injEq] at h
    subst h
    exact ⟨by simp, ⟨r, hr, by simp, id⟩, fun _ _ => rfl, id⟩
  | cons v rest ih =>
    intro adj adj' r hr h
    unfold addInputs at h
    cases hv : addProducers g n (g.node v).inputs adj with
    | error e => rw [hv] at h; cases h
    | ok adj1 =>
      rw [hv] at h
      obtain ⟨a1, ⟨r1, a2, a3, a4⟩, a5, a6⟩ := addProducers_ok g n _ adj adj1 r hr hv
      obtain ⟨b1, ⟨r2, b2, b3, b4⟩, b5, b6⟩ := ih adj1 adj' r1 a2 h
      refine ⟨?_, ⟨r2, b2, ?_, fun hn => b4 (a4 hn)⟩, ?_, fun hs => b6 (a6 hs)⟩
      · intro w hw
        rcases List.mem_cons.mp hw with hw | hw
        · subst hw; exact a1
        · exact b1 w hw
      · intro p
        rw [b3, a3]
        constructor
        · rintro ((h1 | h1) | ⟨w, hw, h1⟩)
          · exact Or.inl h1
          · exact Or.inr ⟨v, List.mem_cons_self _ _, h1⟩
          · exact Or.inr ⟨w, List.mem_cons_of_mem _ hw, h1⟩
        · rintro (h1 | ⟨w, hw, h1⟩)
          · exact Or.inl (Or.inl h1)
          · rcases List.mem_cons.mp hw with hw | hw
            · subst hw; exact Or.inl (Or.inr h1)
            · exact Or.inr ⟨w, hw, h1⟩
      · intro k hk
        rw [b5 k hk, a5 k hk]

theorem addInputs_total (g : Graph) (n : Nat) :
    ∀ (vs : List Nat) (adj : AdjList),
      (∀ v ∈ vs, ∀ p ∈ (g.node v).inputs, (g.node p).type = NodeType.kOperation) →
      ∃ adj', addInputs g n vs adj = .ok adj' := by
  intro vs
  induction vs with
  | nil => intro adj _; exact ⟨adj, rfl⟩
  | cons v rest ih =>
    intro adj h
    unfold addInputs
    obtain ⟨adj1, h1⟩ := addProducers_total g n (g.node v).inputs adj
      (h v (List.mem_cons_self _ _))
    rw [h1]
    exact ih adj1 (fun w hw => h w (List.mem_cons_of_mem _ hw))

theorem buildLoop_ok (g : Graph) :
    ∀ (ns : List Nat) (adj adj' : AdjList) (S : Nat → Prop),
      AdjSpec g S adj → buildLoop g ns adj = .ok adj' →
      AdjSpec g (fun k => S k ∨ k ∈ ns) adj' ∧
      (∀ n ∈ ns, (g.node n).type = NodeType.kOperation →
        ∀ p, Producer g n p → (g.node p).type = NodeType.kOperation) := by
  intro ns
  induction ns with
  | nil =>
    intro adj adj' S hs h
    simp only [buildLoop, Except.ok.injEq] at h
    subst h
    refine ⟨?_, by simp⟩
    simpa [AdjSpec] using hs
  | cons n rest ih =>
    intro adj adj' S hs h
    unfold buildLoop at h
    by_cases hn : (g.node n).type ≠ NodeType.kOperation
    · rw [if_pos hn] at h
      obtain ⟨c1, c2⟩ := ih adj adj' S hs h
      refine ⟨?_, ?_⟩
      · refine ⟨c1.1, ?_, c1.2.2⟩
        intro k
        rw [c1.2.1 k]
        constructor
        · rintro ⟨h1 | h1, h2⟩
          · exact ⟨Or.inl h1, h2⟩
          · exact ⟨Or.inr (List.mem_cons_of_mem _ h1), h2⟩
        · rintro ⟨h1 | h1, h2⟩
          · exact ⟨Or.inl h1, h2⟩
          · rcases List.mem_cons.mp h1 with h1 | h1
            · subst h1; exact absurd h2 hn
            · exact ⟨Or.inr h1, h2⟩
      · intro m hm hop
        rcases List.mem_cons.mp hm with hm | hm
        · subst hm; exact absurd hop hn
        · exact c2 m hm hop
    · rw [if_neg hn] at h
      have hn' : (g.node n).type = NodeType.kOperation := not_not.mp hn
      -- the map after the entry of `n` is ensured
      have key : ∃ r0, mapFind (if (mapFind adj n).isNone then mapSet adj n [] else adj) n
          = some r0 ∧ r0.Nodup ∧ (∀ p, p ∈ r0 → Producer g n p) ∧
          (∀ k, k ≠ n → mapFind (if (mapFind adj n).isNone then mapSet adj n [] else adj) k
            = mapFind adj k) ∧
          (mapKeys (if (mapFind adj n).isNone then mapSet adj n [] else adj)).Sorted (· < ·) := by
        cases hf : mapFind adj n with
        | none =>
          refine ⟨[], ?_, List.nodup_nil, by simp, ?_, ?_⟩
          · simp [mapFind_mapSet]
          · intro k hk
            have hk' : ¬ n = k := fun e => hk e.symm
            simp [mapFind_mapSet, hk']
          · simpa using sorted_mapSet adj n [] hs.1
        | some r0 =>
          refine ⟨r0, by simp [hf], (hs.2.2 n r0 hf).1,
            fun p hp => ((hs.2.2 n r0 hf).2 p).mp hp, by simp, by simpa using hs.1⟩
      obtain ⟨r0, k1, k2, k3, k4, k5⟩ := key
      cases ha : addInputs g n (g.node n).inputs
          (if (mapFind adj n).isNone then mapSet adj n [] else adj) with
      | error e => rw [ha] at h; cases h
      | ok adj1 =>
        rw [ha] at h
        obtain ⟨a1, ⟨r1, a2, a3, a4⟩, a5, a6⟩ := addInputs_ok g n _ _ adj1 r0 k1 ha
        have hs1 : AdjSpec g (fun k => S k ∨ k = n) adj1 := by
          refine ⟨a6 k5, ?_, ?_⟩
          · intro k
            by_cases hk : k = n
            · subst hk
              simp [a2, hn']
            · rw [a5 k hk, k4 k hk, hs.2.1 k]
              simp [hk]
          · intro k r hkr
            by_cases hk : k = n
            · subst hk
              rw [a2] at hkr
              cases hkr
              refine ⟨a4 k2, ?_⟩
              intro p
              rw [a3]
              constructor
              · rintro (h1 | h1)
                · exact k3 p h1
                · exact h1
              · exact fun h1 => Or.inr h1
            · rw [a5 k hk, k4 k hk] at hkr
              exact hs.2.2 k r hkr
        obtain ⟨c1, c2⟩ := ih adj1 adj' _ hs1 h
        refine ⟨?_, ?_⟩
        · refine ⟨c1.1, ?_, c1.2.2⟩
          intro k
          rw [c1.2.1 k]
          simp only [List.mem_cons]
          tauto
        · intro m hm hop
          rcases List.mem_cons.mp hm with hm | hm
          · subst hm
            rintro p ⟨v, hv, hp⟩
            exact a1 v hv p hp
          · exact c2 m hm hop

theorem buildLoop_total (g : Graph) :
    ∀ (ns : List Nat) (adj : AdjList),
      (∀ n ∈ ns, (g.node n).type = NodeType.kOperation →
        ∀ p, Producer g n p → (g.node p).type = NodeType.kOperation) →
      ∃ adj', buildLoop g ns adj = .ok adj' := by
  intro ns
  induction ns with
  | nil => intro adj _; exact ⟨adj, rfl⟩
  | cons n rest ih =>
    intro adj h
    unfold buildLoop
    by_cases hn : (g.node n).type ≠ NodeType.kOperation
    · rw [if_pos hn]
      exact ih adj (fun m hm => h m (List.mem_cons_of_mem _ hm))
    · rw [if_neg hn]
      obtain ⟨adj1, h1⟩ := addInputs_total g n (g.node n).inputs
        (if (mapFind adj n).isNone then mapSet adj n [] else adj)
        (fun v hv p hp => h n (List.mem_cons_self _ _) (not_not.mp hn) p ⟨v, hv, hp⟩)
      rw [h1]
      exact ih adj1 (fun m hm => h m (List.mem_cons_of_mem _ hm))

/-- What a successful `BuildOperationAdjList` returns. -/
theorem build_ok (g : Graph) (adj : AdjList) (h : BuildOperationAdjList g = .ok adj) :
    (mapKeys adj).Sorted (· < ·) ∧
    (∀ k, (mapFind adj k).isSome ↔ IsOpNode g k) ∧
    (∀ k r, mapFind adj k = some r → r.Nodup ∧ ∀ p, p ∈ r ↔ Producer g k p) ∧
    (∀ n, IsOpNode g n → ∀ p, Producer g n p → (g.node p).type = NodeType.kOperation) := by
  have h0 : AdjSpec g (fun _ => False) [] := by
    refine ⟨by simp [mapKeys], by simp [mapFind], by simp [mapFind]⟩
  obtain ⟨c1, c2⟩ := buildLoop_ok g g.nodes [] adj _ h0 h
  refine ⟨c1.1, ?_, c1.2.2, fun n hn => c2 n hn.1 hn.2⟩
  intro k
  rw [c1.2.1 k]
  simp [IsOpNode]

/-! ## HasCircle -/

theorem unvisited_mono (adj : AdjList) (V V' : List Nat) (h : ∀ x ∈ V, x ∈ V') :
    unvisited adj V' ≤ unvisited adj V := by
  induction adj with
  | nil => simp [unvisited]
  | cons kv rest ih =>
    unfold unvisited at *
    by_cases h1 : kv.1 ∈ V
    · have h2 : kv.1 ∈ V' := h _ h1
      simpa [List.filter_cons, h1, h2] using ih
    · by_cases h2 : kv.1 ∈ V'
      · simp only [List.filter_cons, h1, h2, not_true_eq_false, decide_False, not_false_eq_true,
          decide_True, if_true, List.length_cons]
        simp only [Bool.false_eq_true, ↓reduceIte]
        omega
      · simp only [List.filter_cons, h1, h2, not_false_eq_true, decide_True, if_true,
          List.length_cons]
        omega

theorem unvisited_insert (adj : AdjList) (V : List Nat) (node : Nat)
    (hk : (mapFind adj node).isSome) (hn : node ∉ V) :
    unvisited adj (setInsert V node) < unvisited adj V := by
  induction adj with
  | nil => simp [mapFind] at hk
  | cons kv rest ih =>
    obtain ⟨a, w⟩ := kv
    have hm := unvisited_mono rest V (setInsert V node)
      (fun x hx => (mem_setInsert V node x).mpr (Or.inl hx))
    unfold unvisited at *
    by_cases h1 : a = node
    · subst h1
      have h2 : a ∈ setInsert V a := (mem_setInsert V a a).mpr (Or.inr rfl)
      simp only [List.filter_cons, hn, h2, not_true_eq_false, decide_False, not_false_eq_true,
        decide_True, if_true, List.length_cons]
      simp only [Bool.false_eq_true, ↓reduceIte]
      omega
    · have hk' : (mapFind rest node).isSome := by simpa [mapFind, h1] using hk
      have ih' := ih hk'
      by_cases h2 : a ∈ V
      · have h3 : a ∈ setInsert V node := (mem_setInsert V node a).mpr (Or.inl h2)
        simpa [List.filter_cons, h2, h3] using ih'
      · have h3 : a ∉ setInsert V node := by
          rw [mem_setInsert]; tauto
        simp only [List.filter_cons, h2, h3, not_false_eq_true, decide_True, if_true,
          List.length_cons]
        omega

theorem unvisited_le_length (adj : AdjList) (V : List Nat) : unvisited adj V ≤ adj.length := by
  unfold unvisited
  exact List.length_filter_le _ _

theorem hasCircleLoop_spec (adj : AdjList)
    (call : Nat → List Nat → List Nat → Except Error (Bool × List Nat × List Nat))
    (bound : Nat) (hc : AdjClosed adj) (hcall : HelperSpec adj call bound)
    (node : Nat) (T0 : List Nat)
    (hreach : ∀ t ∈ T0, Relation.ReflTransGen (AdjEdge adj) t node) :
    ∀ (ins V : List Nat), (∀ p ∈ ins, AdjEdge adj node p) → DfsInv adj V T0 →
      unvisited adj V ≤ bound →
      ∃ b V' T', hasCircleLoop call ins V T0 = .ok (b, V', T') ∧ (b = true → AdjCyclic adj) ∧
        (b = false → T' = T0 ∧ (∀ x ∈ V, x ∈ V') ∧ DfsInv adj V' T0 ∧
          ∀ p ∈ ins, p ∈ V' ∧ p ∉ T0) := by
  intro ins
  induction ins with
  | nil =>
    intro V _ hinv _
    exact ⟨false, V, T0, rfl, by simp, fun _ => ⟨rfl, fun _ h => h, hinv, by simp⟩⟩
  | cons i rest ih =>
    intro V hins hinv hb
    have hedge : AdjEdge adj node i := hins i (List.mem_cons_self _ _)
    have hrest : ∀ p ∈ rest, AdjEdge adj node p := fun p hp => hins p (List.mem_cons_of_mem _ hp)
    unfold hasCircleLoop
    by_cases hv : i ∈ V
    · rw [if_neg (not_not.mpr hv)]
      by_cases ht : i ∈ T0
      · rw [if_pos ht]
        refine ⟨true, V, T0, rfl, fun _ => ⟨i, ?_⟩, by simp⟩
        exact Relation.TransGen.tail' (hreach i ht) hedge
      · rw [if_neg ht]
        obtain ⟨b, V', T', e, h1, h2⟩ := ih V hrest hinv hb
        refine ⟨b, V', T', e, h1, ?_⟩
        intro hb'
        obtain ⟨a1, a2, a3, a4⟩ := h2 hb'
        refine ⟨a1, a2, a3, ?_⟩
        intro p hp
        rcases List.mem_cons.mp hp with hp | hp
        · subst hp; exact ⟨a2 p hv, ht⟩
        · exact a4 p hp
    · rw [if_pos hv]
      have hreach' : ∀ t ∈ T0, Relation.ReflTransGen (AdjEdge adj) t i :=
        fun t ht => Relation.ReflTransGen.tail (hreach t ht) hedge
      obtain ⟨b, V1, T1, e, h1, h2⟩ := hcall i V T0 hv (hc node i hedge) hinv hreach' hb
      rw [e]
      cases b with
      | true => exact ⟨true, V1, T1, rfl, h1, by simp⟩
      | false =>
        obtain ⟨a1, a2, a3, a4⟩ := h2 rfl
        subst a1
        have ht : i ∉ T1 := fun ht => hv (hinv.sub i ht)
        simp only [if_neg ht]
        have hb1 : unvisited adj V1 ≤ bound := le_trans (unvisited_mono adj V V1 a2) hb
        obtain ⟨b, V', T', e', h1', h2'⟩ := ih V1 hrest a4 hb1
        refine ⟨b, V', T', e', h1', ?_⟩
        intro hb'
        obtain ⟨c1, c2, c3, c4⟩ := h2' hb'
        refine ⟨c1, fun x hx => c2 x (a2 x hx), c3, ?_⟩
        intro p hp
        rcases List.mem_cons.mp hp with hp | hp
        · subst hp; exact ⟨c2 p a3, ht⟩
        · exact c4 p hp

theorem closed_reach (adj : AdjList) (V T : List Nat) (hinv : DfsInv adj V T)
    (a b : Nat) (h : Relation.ReflTransGen (AdjEdge adj) a b) (ha : a ∈ V ∧ a ∉ T) :
    b ∈ V ∧ b ∉ T := by
  induction h with
  | refl => exact ha
  | tail _ hedge ih => exact hinv.closed _ ih.1 ih.2 _ hedge

theorem HasCircleHelper_spec (adj : AdjList) (hc : AdjClosed adj) :
    ∀ fuel, HelperSpec adj (HasCircleHelper adj fuel) fuel := by
  intro fuel
  induction fuel with
  | zero =>
    intro node V T hv hk _ _ hb
    have := unvisited_insert adj V node hk hv
    omega
  | succ fuel ih =>
    intro node V T hv hk hinv hreach hb
    obtain ⟨ins, hins⟩ := Option.isSome_iff_exists.mp hk
    have hT : node ∉ T := fun h => hv (hinv.sub node h)
    unfold HasCircleHelper
    rw [if_pos hv, hins]
    simp only
    rw [setInsert_of_not_mem T node hT]
    have hV1 : ∀ x, x ∈ setInsert V node ↔ x ∈ V ∨ x = node := mem_setInsert V node
    have hinv1 : DfsInv adj (setInsert V node) (T ++ [node]) := by
      refine ⟨?_, ?_, ?_⟩
      · intro t ht
        rw [hV1]
        rcases List.mem_append.mp ht with ht | ht
        · exact Or.inl (hinv.sub t ht)
        · exact Or.inr (by simpa using ht)
      · intro b hbV hbT p hp
        have hb1 : b ∉ T := fun h => hbT (List.mem_append_left _ h)
        have hb2 : b ≠ node := fun h => hbT (List.mem_append_right _ (by simp [h]))
        have hb3 : b ∈ V := by
          rcases (hV1 b).mp hbV with h | h
          · exact h
          · exact absurd h hb2
        obtain ⟨p1, p2⟩ := hinv.closed b hb3 hb1 p hp
        refine ⟨(hV1 p).mpr (Or.inl p1), ?_⟩
        intro hpT
        rcases List.mem_append.mp hpT with h | h
        · exact p2 h
        · have : p = node := by simpa using h
          subst this
          exact hv p1
      · intro b hbV hbT
        have hb1 : b ∉ T := fun h => hbT (List.mem_append_left _ h)
        have hb2 : b ≠ node := fun h => hbT (List.mem_append_right _ (by simp [h]))
        have hb3 : b ∈ V := by
          rcases (hV1 b).mp hbV with h | h
          · exact h
          · exact absurd h hb2
        exact hinv.acyc b hb3 hb1
    have hreach1 : ∀ t ∈ T ++ [node], Relation.ReflTransGen (AdjEdge adj) t node := by
      intro t ht
      rcases List.mem_append.mp ht with ht | ht
      · exact hreach t ht
      · have : t = node := by simpa using ht
        subst this
        exact Relation.ReflTransGen.refl
    have hb1 : unvisited adj (setInsert V node) ≤ fuel := by
      have := unvisited_insert adj V node hk hv
      omega
    obtain ⟨b, V', T', e, h1, h2⟩ := hasCircleLoop_spec adj (HasCircleHelper adj fuel) fuel hc ih
      node (T ++ [node]) hreach1 ins (setInsert V node) (fun p hp => ⟨ins, hins, hp⟩) hinv1 hb1
    rw [e]
    cases b with
    | true => exact ⟨true, V', T', rfl, h1, by simp⟩
    | false =>
      obtain ⟨a1, a2, a3, a4⟩ := h2 rfl
      subst a1
      have herase : (T ++ [node]).erase node = T := by
        rw [List.erase_append_right _ hT]
        simp
      refine ⟨false, V', T, ?_, by simp, fun _ => ⟨rfl, ?_, ?_, ?_⟩⟩
      · simp only [herase]
      · exact fun x hx => a2 x ((hV1 x).mpr (Or.inl hx))
      · exact a2 node ((hV1 node).mpr (Or.inr rfl))
      · have hnodeT0 : node ∈ T ++ [node] := List.mem_append_right _ (by simp)
        have hsucc : ∀ p, AdjEdge adj node p → p ∈ V' ∧ p ∉ T ++ [node] := by
          rintro p ⟨ins', hi, hp⟩
          rw [hins] at hi
          cases hi
          exact a4 p hp
        have hold : ∀ b, b ∈ V' → b ∉ T → b ≠ node → b ∉ T ++ [node] := by
          intro b _ hbT hbn h
          rcases List.mem_append.mp h with h | h
          · exact hbT h
          · exact hbn (by simpa using h)
        refine ⟨?_, ?_, ?_⟩
        · exact fun t ht => a3.sub t (List.mem_append_left _ ht)
        · intro b hbV hbT p hp
          by_cases hbn : b = node
          · subst hbn
            obtain ⟨p1, p2⟩ := hsucc p hp
            exact ⟨p1, fun h => p2 (List.mem_append_left _ h)⟩
          · obtain ⟨p1, p2⟩ := a3.closed b hbV (hold b hbV hbT hbn) p hp
            exact ⟨p1, fun h => p2 (List.mem_append_left _ h)⟩
        · intro b hbV hbT
          by_cases hbn : b = node
          · subst hbn
            intro hcyc
            obtain ⟨p, hp, hpb⟩ := Relation.TransGen.head'_iff.mp hcyc
            have := closed_reach adj V' (T ++ [b]) a3 p b hpb (hsucc p hp)
            exact this.2 hnodeT0
          · exact a3.acyc b hbV (hold b hbV hbT hbn)

theorem hasCircleRoots_spec (adj : AdjList) (hc : AdjClosed adj) :
    ∀ (roots : List (Nat × List Nat)) (V : List Nat),
      (∀ kv ∈ roots, (mapFind adj kv.1).isSome) → DfsInv adj V [] →
      ∃ b, hasCircleRoots adj (adj.length + 1) roots V [] = .ok b ∧ (b = true → AdjCyclic adj) ∧
        (b = false → ∃ V', DfsInv adj V' [] ∧ (∀ x ∈ V, x ∈ V') ∧ ∀ kv ∈ roots, kv.1 ∈ V') := by
  intro roots
  induction roots with
  | nil =>
    intro V _ hinv
    exact ⟨false, rfl, by simp, fun _ => ⟨V, hinv, fun _ h => h, by simp⟩⟩
  | cons kv rest ih =>
    intro V hk hinv
    have hrest : ∀ kv ∈ rest, (mapFind adj kv.1).isSome :=
      fun x hx => hk x (List.mem_cons_of_mem _ hx)
    unfold hasCircleRoots
    by_cases hv : kv.1 ∈ V
    · have e : HasCircleHelper adj (adj.length + 1) kv.1 V [] = .ok (false, V, []) := by
        unfold HasCircleHelper
        rw [if_neg (not_not.mpr hv)]
        rfl
      rw [e]
      simp only
      obtain ⟨b, e', h1, h2⟩ := ih V hrest hinv
      refine ⟨b, e', h1, ?_⟩
      intro hb
      obtain ⟨V', c1, c2, c3⟩ := h2 hb
      refine ⟨V', c1, c2, ?_⟩
      intro x hx
      rcases List.mem_cons.mp hx with hx | hx
      · subst hx; exact c2 _ hv
      · exact c3 x hx
    · obtain ⟨b, V1, T1, e, h1, h2⟩ := HasCircleHelper_spec adj hc (adj.length + 1) kv.1 V [] hv
        (hk kv (List.mem_cons_self _ _)) hinv (by simp)
        (le_trans (unvisited_le_length adj V) (Nat.le_succ _))
      rw [e]
      cases b with
      | true => exact ⟨true, rfl, h1, by simp⟩
      | false =>
        obtain ⟨a1, a2, a3, a4⟩ := h2 rfl
        subst a1
        simp only
        obtain ⟨b, e', h1', h2'⟩ := ih V1 hrest a4
        refine ⟨b, e', h1', ?_⟩
        intro hb
        obtain ⟨V', c1, c2, c3⟩ := h2' hb
        refine ⟨V', c1, fun x hx => c2 x (a2 x hx), ?_⟩
        intro x hx
        rcases List.mem_cons.mp hx with hx | hx
        · subst hx; exact c2 _ a3
        · exact c3 x hx

/-- On a map whose sets contain only keys, `HasCircleInternal` returns, and it
returns `true` exactly when the map has a cycle. -/
theorem HasCircleInternal_spec (adj : AdjList) (hc : AdjClosed adj) :
    ∃ b, HasCircleInternal adj = .ok b ∧ (b = true ↔ AdjCyclic adj) := by
  have hinv : DfsInv adj [] [] := ⟨by simp, by simp, by simp⟩
  have hkeys : ∀ kv ∈ adj, (mapFind adj kv.1).isSome := by
    intro kv hkv
    rw [mapFind_isSome_iff]
    exact List.mem_map_of_mem _ hkv
  obtain ⟨b, e, h1, h2⟩ := hasCircleRoots_spec adj hc adj [] hkeys hinv
  refine ⟨b, e, h1, ?_⟩
  rintro ⟨x, hx⟩
  cases b with
  | true => rfl
  | false =>
    exfalso
    obtain ⟨V', c1, _, c3⟩ := h2 rfl
    obtain ⟨p, ⟨ins, hi, _⟩, _⟩ := Relation.TransGen.head'_iff.mp hx
    have := c3 (x, ins) (mapFind_mem adj x ins hi)
    exact c1.acyc x this (by simp) hx

/-! ## The graph and its adjacency map -/

theorem hasCycle_iff_transGen (g : Graph) :
    HasCycle g ↔ ∃ n, Relation.TransGen (Pred g) n n := by
  constructor
  · rintro ⟨n0, l, hch, hlast⟩
    cases l with
    | nil => simp at hlast
    | cons b l' =>
      rw [List.chain_cons] at hch
      refine ⟨n0, Relation.TransGen.head'_iff.mpr ⟨b, hch.1, ?_⟩⟩
      refine List.relationReflTransGen_of_exists_chain l' hch.2 ?_
      rw [List.getLast?_eq_getLast _ (List.cons_ne_nil _ _)] at hlast
      exact Option.some.inj hlast
  · rintro ⟨n, h⟩
    obtain ⟨b, hb, hr⟩ := Relation.TransGen.head'_iff.mp h
    obtain ⟨l', h1, h2⟩ := List.exists_chain_of_relationReflTransGen hr
    refine ⟨n, b :: l', List.chain_cons.mpr ⟨hb, h1⟩, ?_⟩
    rw [List.getLast?_eq_getLast _ (List.cons_ne_nil _ _), h2]

theorem bipartite_closed (g : Graph) (h : Bipartite g) : NeighboursClosed g :=
  fun n hn m hm => (h n hn m hm).1

theorem producersInGraph_of_closed (g : Graph) (h : NeighboursClosed g) : ProducersInGraph g :=
  fun n hn _ v hv p hp =>
    h v (h n hn v (List.mem_append_left _ hv)) p (List.mem_append_left _ hp)

theorem bipartite_producers (g : Graph) (h : Bipartite g) : ProducersAreOps g := by
  intro n hn hop v hv p hp
  obtain ⟨hv1, hv2⟩ := h n hn v (List.mem_append_left _ hv)
  obtain ⟨_, hp2⟩ := h v hv1 p (List.mem_append_left _ hp)
  rw [hop] at hv2
  cases hvt : (g.node v).type with
  | kOperation => exact absurd hvt hv2
  | kVariable =>
    rw [hvt] at hp2
    cases hpt : (g.node p).type with
    | kOperation => rfl
    | kVariable => exact absurd hpt hp2

theorem build_total (g : Graph) (h : ProducersAreOps g) :
    ∃ adj, BuildOperationAdjList g = .ok adj := by
  apply buildLoop_total
  rintro n hn hop p ⟨v, hv, hp⟩
  exact h n hn hop v hv p hp

theorem adjEdge_iff_pred (g : Graph) (adj : AdjList) (h : BuildOperationAdjList g = .ok adj)
    (hpg : ProducersInGraph g) (n p : Nat) : AdjEdge adj n p ↔ Pred g n p := by
  obtain ⟨_, b2, b3, b4⟩ := build_ok g adj h
  constructor
  · rintro ⟨ins, hi, hp⟩
    have hn : IsOpNode g n := (b2 n).mp (by simp [hi])
    have hprod : Producer g n p := ((b3 n ins hi).2 p).mp hp
    refine ⟨hn, ⟨?_, b4 n hn p hprod⟩, hprod⟩
    obtain ⟨v, hv, hpv⟩ := hprod
    exact hpg n hn.1 hn.2 v hv p hpv
  · rintro ⟨hn, _, hprod⟩
    obtain ⟨ins, hi⟩ := Option.isSome_iff_exists.mp ((b2 n).mpr hn)
    exact ⟨ins, hi, ((b3 n ins hi).2 p).mpr hprod⟩

theorem adjClosed_of_build (g : Graph) (adj : AdjList) (h : BuildOperationAdjList g = .ok adj)
    (hpg : ProducersInGraph g) : AdjClosed adj := by
  intro n p he
  have hp := (adjEdge_iff_pred g adj h hpg n p).mp he
  exact ((build_ok g adj h).2.1 p).mpr hp.2.1

theorem adjCyclic_iff_hasCycle (g : Graph) (adj : AdjList)
    (h : BuildOperationAdjList g = .ok adj) (hpg : ProducersInGraph g) :
    AdjCyclic adj ↔ HasCycle g := by
  rw [hasCycle_iff_transGen]
  constructor
  · rintro ⟨x, hx⟩
    exact ⟨x, Relation.TransGen.mono (fun a b => (adjEdge_iff_pred g adj h hpg a b).mp) hx⟩
  · rintro ⟨x, hx⟩
    exact ⟨x, Relation.TransGen.mono (fun a b => (adjEdge_iff_pred g adj h hpg a b).mpr) hx⟩

/-- On a graph whose map can be built and in which the producers of the inputs of
operation nodes are graph nodes,
`HasCircle` returns, and it returns `true` exactly when the predecessor relation
has a cycle. -/
theorem HasCircle_spec (g : Graph) (adj : AdjList) (h : BuildOperationAdjList g = .ok adj)
    (hpg : ProducersInGraph g) :
    ∃ b, HasCircleInternal adj = .ok b ∧ (b = true ↔ HasCycle g) := by
  obtain ⟨b, e, hb⟩ := HasCircleInternal_spec adj (adjClosed_of_build g adj h hpg)
  exact ⟨b, e, hb.trans (adjCyclic_iff_hasCycle g adj h hpg)⟩

/-! ## The claims on the adjacency map and the cycle detector -/

/-- C1. On every graph in which every neighbour of a graph node is a graph node
and every producer of an input of an operation node is an operation,
`HasCircle` returns a boolean, and that boolean is `true` if and only if the
predecessor relation on the operation nodes has a cycle: it is `false` on an
acyclic graph and `true` on a graph with a cycle, such as one obtained by
adding an edge that closes a cycle. -/
theorem C1_HasCircle_iff_cycle (g : Graph) (hcl : NeighboursClosed g)
    (hprod : ProducersAreOps g) :
    (∃ b, HasCircle g = .ok b ∧ (b = true ↔ HasCycle g)) ∧
    (¬ HasCycle g → HasCircle g = .ok false) ∧
    (HasCycle g → HasCircle g = .ok true) := by
  obtain ⟨adj, h⟩ := build_total g hprod
  obtain ⟨b, e, hb⟩ := HasCircle_spec g adj h (producersInGraph_of_closed g hcl)
  have e' : HasCircle g = .ok b := by
    unfold HasCircle
    rw [h]
    exact e
  refine ⟨⟨b, e', hb⟩, ?_, ?_⟩
  · intro hac
    cases b with
    | false => exact e'
    | true => exact absurd (hb.mp rfl) hac
  · intro hcyc
    rw [e', hb.mpr hcyc]

/-- C1, at the graph with a cycle. -/
theorem C1_witness :
    NeighboursClosed loopGraph ∧ ProducersAreOps loopGraph ∧
    ((∃ b, HasCircle loopGraph = .ok b ∧ (b = true ↔ HasCycle loopGraph)) ∧
    (¬ HasCycle loopGraph → HasCircle loopGraph = .ok false) ∧
    (HasCycle loopGraph → HasCircle loopGraph = .ok true)) :=
  ⟨by decide, by decide, C1_HasCircle_iff_cycle loopGraph (by decide) (by decide)⟩

/-- C5. On every graph with the bipartite invariant `BuildOperationAdjList`
does not fail; the keys of the map it returns are exactly the operation nodes
of the graph, each once, and the set stored at an operation node `n`, which is
duplicate-free, holds exactly the `p` that are an input neighbour of an input
neighbour of `n`; an operation without producers is a key with the empty set.
On scenario A the map is `{A: {}, B: {A}}`. -/
theorem C5_BuildOperationAdjList (g : Graph) (hb : Bipartite g) :
    (∃ adj, BuildOperationAdjList g = .ok adj ∧
      (mapKeys adj).Nodup ∧ (∀ k, k ∈ mapKeys adj ↔ IsOpNode g k) ∧
      (∀ n, IsOpNode g n → ∃ r, mapFind adj n = some r ∧ r.Nodup ∧
        (∀ p, p ∈ r ↔ ∃ v ∈ (g.node n).inputs, p ∈ (g.node v).inputs) ∧
        ((∀ v ∈ (g.node n).inputs, (g.node v).inputs = []) → r = []))) ∧
    BuildOperationAdjList scenarioA = .ok [(0, []), (2, [0])] := by
  refine ⟨?_, rfl⟩
  obtain ⟨adj, h⟩ := build_total g (bipartite_producers g hb)
  obtain ⟨b1, b2, b3, _⟩ := build_ok g adj h
  refine ⟨adj, h, b1.nodup, ?_, ?_⟩
  · intro k
    rw [← mapFind_isSome_iff]
    exact b2 k
  · intro n hn
    obtain ⟨r, hr⟩ := Option.isSome_iff_exists.mp ((b2 n).mpr hn)
    refine ⟨r, hr, (b3 n r hr).1, (b3 n r hr).2, ?_⟩
    intro hempty
    apply List.eq_nil_iff_forall_not_mem.mpr
    intro p hp
    obtain ⟨v, hv, hpv⟩ := ((b3 n r hr).2 p).mp hp
    rw [hempty v hv] at hpv
    simp at hpv

/-- C5, at scenario A. -/
theorem C5_witness :
    Bipartite scenarioA ∧
    ((∃ adj, BuildOperationAdjList scenarioA = .ok adj ∧
      (mapKeys adj).Nodup ∧ (∀ k, k ∈ mapKeys adj ↔ IsOpNode scenarioA k) ∧
      (∀ n, IsOpNode scenarioA n → ∃ r, mapFind adj n = some r ∧ r.Nodup ∧
        (∀ p, p ∈ r ↔ ∃ v ∈ (scenarioA.node n).inputs, p ∈ (scenarioA.node v).inputs) ∧
        ((∀ v ∈ (scenarioA.node n).inputs, (scenarioA.node v).inputs = []) → r = []))) ∧
    BuildOperationAdjList scenarioA = .ok [(0, []), (2, [0])]) :=
  ⟨by decide, C5_BuildOperationAdjList scenarioA (by decide)⟩

/-! ## TopologySortOperations -/

theorem goodOrder_snoc (adj : AdjList) (r : List Nat) (node : Nat) (hg : GoodOrder adj r)
    (hn : node ∉ r) (hp : ∀ p, AdjEdge adj node p → p ∈ r) : GoodOrder adj (r ++ [node]) := by
  intro x hx p he
  rcases List.mem_append.mp hx with hx | hx
  · obtain ⟨h1, h2⟩ := hg x hx p he
    refine ⟨List.mem_append_left _ h1, ?_⟩
    rw [List.indexOf_append_of_mem h1, List.indexOf_append_of_mem hx]
    exact h2
  · have hxn : x = node := by simpa using hx
    subst hxn
    have h1 := hp p he
    refine ⟨List.mem_append_left _ h1, ?_⟩
    rw [List.indexOf_append_of_mem h1, List.indexOf_append_of_not_mem hn]
    have := List.indexOf_lt_length.mpr h1
    omega

theorem sortExt_trans (V ret V1 r1 V2 r2 : List Nat) (h1 : SortExt V ret V1 r1)
    (h2 : SortExt V1 r1 V2 r2) : SortExt V ret V2 r2 := by
  refine ⟨?_, fun x hx => h2.keep x (h1.keep x hx), ?_⟩
  · intro x
    rw [h2.visited, h1.visited]
    constructor
    · rintro ((h | h) | h)
      · exact Or.inl h
      · exact Or.inr (h2.keep x h)
      · exact Or.inr h
    · rintro (h | h)
      · exact Or.inl (Or.inl h)
      · exact Or.inr h
  · intro x hx
    rcases h2.fresh x hx with h | h
    · exact h1.fresh x h
    · exact Or.inr (fun hv => h ((h1.visited x).mpr (Or.inl hv)))

theorem sortLoop_spec (adj : AdjList)
    (call : Nat → List Nat → List Nat → Except Error (List Nat × List Nat))
    (bound : Nat) (hc : AdjClosed adj) (hac : ¬ AdjCyclic adj) (hcall : SortSpec adj call bound)
    (node : Nat) :
    ∀ (ins V ret : List Nat), (∀ p ∈ ins, AdjEdge adj node p) → node ∈ V → node ∉ ret →
      SortInv adj V ret →
      (∀ s ∈ V, s ∉ ret → Relation.ReflTransGen (AdjEdge adj) s node) →
      unvisited adj V ≤ bound →
      ∃ V' ret', sortLoop call ins V ret = .ok (V', ret') ∧ SortExt V ret V' ret' ∧
        SortInv adj V' ret' ∧ ∀ p ∈ ins, p ∈ ret' := by
  intro ins
  induction ins with
  | nil =>
    intro V ret _ _ _ hinv _ _
    refine ⟨V, ret, rfl, ⟨?_, fun _ h => h, fun _ h => Or.inl h⟩, hinv, by simp⟩
    intro x
    constructor
    · exact fun h => Or.inl h
    · rintro (h | h)
      · exact h
      · exact hinv.sub x h
  | cons a rest ih =>
    intro V ret hins hnV hnr hinv hstack hb
    have hedge : AdjEdge adj node a := hins a (List.mem_cons_self _ _)
    have hrest : ∀ p ∈ rest, AdjEdge adj node p := fun p hp => hins p (List.mem_cons_of_mem _ hp)
    unfold sortLoop
    by_cases hv : a ∈ V
    · rw [if_neg (not_not.mpr hv)]
      have har : a ∈ ret := by
        by_contra har
        exact hac ⟨a, Relation.TransGen.tail' (hstack a hv har) hedge⟩
      obtain ⟨V', ret', e, h1, h2, h3⟩ := ih V ret hrest hnV hnr hinv hstack hb
      refine ⟨V', ret', e, h1, h2, ?_⟩
      intro p hp
      rcases List.mem_cons.mp hp with hp | hp
      · subst hp; exact h1.keep p har
      · exact h3 p hp
    · rw [if_pos hv]
      have hstack' : ∀ s ∈ V, s ∉ ret → Relation.ReflTransGen (AdjEdge adj) s a :=
        fun s hs hsr => Relation.ReflTransGen.tail (hstack s hs hsr) hedge
      obtain ⟨V1, r1, e, x1, i1, ha⟩ := hcall a V ret hv (hc node a hedge) hinv hstack' hb
      rw [e]
      simp only
      have hnV1 : node ∈ V1 := (x1.visited node).mpr (Or.inl hnV)
      have hnr1 : node ∉ r1 := by
        intro h
        rcases x1.fresh node h with h | h
        · exact hnr h
        · exact h hnV
      have hstack1 : ∀ s ∈ V1, s ∉ r1 → Relation.ReflTransGen (AdjEdge adj) s node := by
        intro s hs hsr
        rcases (x1.visited s).mp hs with h | h
        · exact hstack s h (fun h' => hsr (x1.keep s h'))
        · exact absurd h hsr
      have hb1 : unvisited adj V1 ≤ bound :=
        le_trans (unvisited_mono adj V V1 (fun x hx => (x1.visited x).mpr (Or.inl hx))) hb
      obtain ⟨V', ret', e', x2, i2, h3⟩ := ih V1 r1 hrest hnV1 hnr1 i1 hstack1 hb1
      refine ⟨V', ret', e', sortExt_trans V ret V1 r1 V' ret' x1 x2, i2, ?_⟩
      intro p hp
      rcases List.mem_cons.mp hp with hp | hp
      · subst hp; exact x2.keep p ha
      · exact h3 p hp

theorem SortHelper_spec (adj : AdjList) (hc : AdjClosed adj) (hac : ¬ AdjCyclic adj) :
    ∀ fuel, SortSpec adj (SortHelper adj fuel) fuel := by
  intro fuel
  induction fuel with
  | zero =>
    intro node V ret hv hk _ _ hb
    have := unvisited_insert adj V node hk hv
    omega
  | succ fuel ih =>
    intro node V ret hv hk hinv hstack hb
    obtain ⟨ins, hins⟩ := Option.isSome_iff_exists.mp hk
    have hV1 : ∀ x, x ∈ setInsert V node ↔ x ∈ V ∨ x = node := mem_setInsert V node
    have hnr : node ∉ ret := fun h => hv (hinv.sub node h)
    unfold SortHelper
    rw [hins]
    simp only
    have hinv1 : SortInv adj (setInsert V node) ret :=
      ⟨fun x hx => (hV1 x).mpr (Or.inl (hinv.sub x hx)), hinv.nodup, hinv.good, hinv.keys⟩
    have hstack1 : ∀ s ∈ setInsert V node, s ∉ ret →
        Relation.ReflTransGen (AdjEdge adj) s node := by
      intro s hs hsr
      rcases (hV1 s).mp hs with h | h
      · exact hstack s h hsr
      · subst h; exact Relation.ReflTransGen.refl
    have hb1 : unvisited adj (setInsert V node) ≤ fuel := by
      have := unvisited_insert adj V node hk hv
      omega
    obtain ⟨V', r', e, x1, i1, h3⟩ := sortLoop_spec adj (SortHelper adj fuel) fuel hc hac ih node
      ins (setInsert V node) ret (fun p hp => ⟨ins, hins, hp⟩) ((hV1 node).mpr (Or.inr rfl)) hnr
      hinv1 hstack1 hb1
    rw [e]
    have hnr' : node ∉ r' := by
      intro h
      rcases x1.fresh node h with h | h
      · exact hnr h
      · exact h ((hV1 node).mpr (Or.inr rfl))
    refine ⟨V', r' ++ [node], rfl, ⟨?_, ?_, ?_⟩, ⟨?_, ?_, ?_, ?_⟩, by simp⟩
    · intro x
      rw [x1.visited, hV1, List.mem_append, List.mem_singleton]
      tauto
    · exact fun x hx => List.mem_append_left _ (x1.keep x hx)
    · intro x hx
      rcases List.mem_append.mp hx with h | h
      · rcases x1.fresh x h with h | h
        · exact Or.inl h
        · exact Or.inr (fun hxv => h ((hV1 x).mpr (Or.inl hxv)))
      · have : x = node := by simpa using h
        subst this
        exact Or.inr hv
    · intro x hx
      rcases List.mem_append.mp hx with h | h
      · exact i1.sub x h
      · have : x = node := by simpa using h
        subst this
        exact (x1.visited x).mpr (Or.inl ((hV1 x).mpr (Or.inr rfl)))
    · rw [List.nodup_append]
      refine ⟨i1.nodup, List.nodup_singleton _, ?_⟩
      intro a ha hb'
      have : a = node := by simpa using hb'
      subst this
      exact hnr' ha
    · apply goodOrder_snoc adj r' node i1.good hnr'
      rintro p ⟨ins', hi, hp⟩
      rw [hins] at hi
      cases hi
      exact h3 p hp
    · intro x hx
      rcases List.mem_append.mp hx with h | h
      · exact i1.keys x h
      · have : x = node := by simpa using h
        subst this
        exact hk

theorem sortRoots_spec (adj : AdjList) (hc : AdjClosed adj) (hac : ¬ AdjCyclic adj) :
    ∀ (roots : List (Nat × List Nat)) (V ret : List Nat),
      (∀ kv ∈ roots, (mapFind adj kv.1).isSome) → SortInv adj V ret → (∀ x ∈ V, x ∈ ret) →
      ∃ ret', sortRoots adj (adj.length + 1) roots V ret = .ok ret' ∧ ret'.Nodup ∧
        GoodOrder adj ret' ∧ (∀ x ∈ ret', (mapFind adj x).isSome) ∧
        (∀ x ∈ ret, x ∈ ret') ∧ ∀ kv ∈ roots, kv.1 ∈ ret' := by
  intro roots
  induction roots with
  | nil =>
    intro V ret _ hinv _
    exact ⟨ret, rfl, hinv.nodup, hinv.good, hinv.keys, fun _ h => h, by simp⟩
  | cons kv rest ih =>
    intro V ret hk hinv hVr
    have hrest : ∀ kv ∈ rest, (mapFind adj kv.1).isSome :=
      fun x hx => hk x (List.mem_cons_of_mem _ hx)
    unfold sortRoots
    by_cases hv : kv.1 ∈ V
    · rw [if_neg (not_not.mpr hv)]
      obtain ⟨ret', e, h1, h2, h3, h4, h5⟩ := ih V ret hrest hinv hVr
      refine ⟨ret', e, h1, h2, h3, h4, ?_⟩
      intro x hx
      rcases List.mem_cons.mp hx with hx | hx
      · subst hx; exact h4 _ (hVr _ hv)
      · exact h5 x hx
    · rw [if_pos hv]
      obtain ⟨V1, r1, e, x1, i1, ha⟩ := SortHelper_spec adj hc hac (adj.length + 1) kv.1 V ret hv
        (hk kv (List.mem_cons_self _ _)) hinv (fun s hs hsr => absurd (hVr s hs) hsr)
        (le_trans (unvisited_le_length adj V) (Nat.le_succ _))
      rw [e]
      simp only
      have hVr1 : ∀ x ∈ V1, x ∈ r1 := by
        intro x hx
        rcases (x1.visited x).mp hx with h | h
        · exact x1.keep x (hVr x h)
        · exact h
      obtain ⟨ret', e', h1, h2, h3, h4, h5⟩ := ih V1 r1 hrest i1 hVr1
      refine ⟨ret', e', h1, h2, h3, fun x hx => h4 x (x1.keep x hx), ?_⟩
      intro x hx
      rcases List.mem_cons.mp hx with hx | hx
      · subst hx; exact h4 _ ha
      · exact h5 x hx

/-- On an acyclic map whose sets contain only keys, the loop of
`TopologySortOperations` returns each key once, every key after the members of
its set. -/
theorem sortRoots_adj (adj : AdjList) (hc : AdjClosed adj) (hac : ¬ AdjCyclic adj) :
    ∃ ret, sortRoots adj (adj.length + 1) adj [] [] = .ok ret ∧ ret.Nodup ∧ GoodOrder adj ret ∧
      ∀ x, x ∈ ret ↔ (mapFind adj x).isSome := by
  have hinv : SortInv adj [] [] := ⟨by simp, List.nodup_nil, by simp [GoodOrder], by simp⟩
  have hkeys : ∀ kv ∈ adj, (mapFind adj kv.1).isSome := by
    intro kv hkv
    rw [mapFind_isSome_iff]
    exact List.mem_map_of_mem _ hkv
  obtain ⟨ret, e, h1, h2, h3, _, h5⟩ := sortRoots_spec adj hc hac adj [] [] hkeys hinv (by simp)
  refine ⟨ret, e, h1, h2, fun x => ⟨h3 x, ?_⟩⟩
  intro hx
  obtain ⟨ins, hi⟩ := Option.isSome_iff_exists.mp hx
  exact h5 (x, ins) (mapFind_mem adj x ins hi)

/-- What `TopologySortOperations` does on a graph whose map can be built and
in which the producers of the inputs of operation nodes are graph nodes. -/
theorem topologySort_spec (g : Graph) (adj : AdjList) (h : BuildOperationAdjList g = .ok adj)
    (hpg : ProducersInGraph g) :
    (HasCycle g → TopologySortOperations g = .error Error.CycleDetected) ∧
    (¬ HasCycle g → ∃ ret, TopologySortOperations g = .ok ret ∧ ret.Nodup ∧
      (∀ x, x ∈ ret ↔ IsOpNode g x) ∧
      ∀ n p, Pred g n p → p ∈ ret ∧ ret.indexOf p < ret.indexOf n) := by
  obtain ⟨b, e, hb⟩ := HasCircle_spec g adj h hpg
  have hc := adjClosed_of_build g adj h hpg
  constructor
  · intro hcyc
    have : b = true := hb.mpr hcyc
    subst this
    unfold TopologySortOperations
    rw [h]
    simp only [e]
  · intro hac
    have hbf : b = false := by
      cases b with
      | false => rfl
      | true => exact absurd (hb.mp rfl) hac
    subst hbf
    have hac' : ¬ AdjCyclic adj := fun hx => hac ((adjCyclic_iff_hasCycle g adj h hpg).mp hx)
    obtain ⟨ret, e', h1, h2, h3⟩ := sortRoots_adj adj hc hac'
    refine ⟨ret, ?_, h1, ?_, ?_⟩
    · unfold TopologySortOperations
      rw [h]
      simp only [e]
      exact e'
    · intro x
      rw [h3 x]
      exact (build_ok g adj h).2.1 x
    · intro n p hp
      have hn : n ∈ ret := (h3 n).mpr (((build_ok g adj h).2.1 n).mpr hp.1)
      exact h2 n hn p ((adjEdge_iff_pred g adj h hpg n p).mpr hp)

/-! ## Example graphs -/

theorem not_hasCycle_of_run (g : Graph) (adj : AdjList) (h : BuildOperationAdjList g = .ok adj)
    (hpg : ProducersInGraph g) (e : HasCircleInternal adj = .ok false) : ¬ HasCycle g := by
  obtain ⟨b, e', hb⟩ := HasCircle_spec g adj h hpg
  rw [e] at e'
  cases e'
  intro hcyc
  exact Bool.false_ne_true (hb.mpr hcyc)

theorem hasCycle_of_run (g : Graph) (adj : AdjList) (h : BuildOperationAdjList g = .ok adj)
    (hpg : ProducersInGraph g) (e : HasCircleInternal adj = .ok true) : HasCycle g := by
  obtain ⟨b, e', hb⟩ := HasCircle_spec g adj h hpg
  rw [e] at e'
  cases e'
  exact hb.mp rfl

theorem chainGraph_acyclic (ops : List OpDesc) : ¬ HasCycle (chainGraph ops) :=
  have hpg : ProducersInGraph (chainGraph []) := by decide
  not_hasCycle_of_run (chainGraph ops) [(0, []), (2, [0]), (4, [2])] rfl hpg rfl

theorem scenarioA_acyclic : ¬ HasCycle scenarioA :=
  not_hasCycle_of_run scenarioA [(0, []), (2, [0])] rfl (by decide) rfl

theorem loopGraph_cyclic : HasCycle loopGraph :=
  hasCycle_of_run loopGraph [(0, [2]), (2, [0])] rfl (by decide) rfl

theorem danglingGraph_acyclic : ¬ HasCycle danglingGraph := by
  rintro ⟨n0, l, hch, hlast⟩
  cases l with
  | nil => simp at hlast
  | cons b l' =>
    rw [List.chain_cons] at hch
    obtain ⟨⟨hn, hn'⟩, ⟨hb, hb'⟩, v, hv, hp⟩ := hch.1
    have hn2 : n0 = 2 := by
      simp only [danglingGraph, List.mem_cons, List.mem_singleton, List.not_mem_nil,
        or_false] at hn
      rcases hn with h | h
      · subst h; simp [danglingGraph, varNode] at hn'
      · exact h
    have hb2 : b = 2 := by
      simp only [danglingGraph, List.mem_cons, List.mem_singleton, List.not_mem_nil,
        or_false] at hb
      rcases hb with h | h
      · subst h; simp [danglingGraph, varNode] at hb'
      · exact h
    subst hn2 hb2
    simp only [danglingGraph, opNode, List.mem_singleton] at hv
    subst hv
    simp [danglingGraph, varNode] at hp

/-! ## The claims on the topological sort -/

/-- C2. On every acyclic graph with the bipartite invariant
`TopologySortOperations` returns a list that is a permutation of the operation
nodes of the graph: it has no duplicate, its elements are exactly the operation
nodes, and every operation node occurs in it exactly once. -/
theorem C2_TopologySort_permutation (g : Graph) (hb : Bipartite g) (hac : ¬ HasCycle g) :
    ∃ ret, TopologySortOperations g = .ok ret ∧ ret.Nodup ∧
      (∀ x, x ∈ ret ↔ IsOpNode g x) ∧
      (∀ x, IsOpNode g x → ret.count x = 1) ∧
      ret.Perm ((g.nodes.filter (fun n => g.IsOp n)).dedup) := by
  obtain ⟨adj, h⟩ := build_total g (bipartite_producers g hb)
  obtain ⟨ret, e, h1, h2, _⟩ :=
    (topologySort_spec g adj h (producersInGraph_of_closed g (bipartite_closed g hb))).2 hac
  refine ⟨ret, e, h1, h2, ?_, ?_⟩
  · intro x hx
    exact List.count_eq_one_of_mem h1 ((h2 x).mpr hx)
  · rw [List.perm_ext_iff_of_nodup h1 (List.nodup_dedup _)]
    intro x
    rw [h2 x, List.mem_dedup, List.mem_filter]
    simp [IsOpNode, Graph.IsOp]

/-- C2, at the chain of three operations. -/
theorem C2_witness :
    Bipartite (chainGraph []) ∧ ¬ HasCycle (chainGraph []) ∧
    ∃ ret, TopologySortOperations (chainGraph []) = .ok ret ∧ ret.Nodup ∧
      (∀ x, x ∈ ret ↔ IsOpNode (chainGraph []) x) ∧
      (∀ x, IsOpNode (chainGraph []) x → ret.count x = 1) ∧
      ret.Perm (((chainGraph []).nodes.filter (fun n => (chainGraph []).IsOp n)).dedup) :=
  ⟨by decide, chainGraph_acyclic [],
    C2_TopologySort_permutation (chainGraph []) (by decide) (chainGraph_acyclic [])⟩

/-- C3. On every acyclic graph with the bipartite invariant, in the list
returned by `TopologySortOperations`, whenever an operation node `C` of the
graph consumes `v` (`v` in `C.inputs`) and `P` produces `v` (`P` in
`v.inputs`), both occur in the list and the index of `P` is strictly smaller
than the index of `C`.  On scenario A the list is `[A, B]`. -/
theorem C3_TopologySort_order (g : Graph) (hb : Bipartite g) (hac : ¬ HasCycle g) :
    (∃ ret, TopologySortOperations g = .ok ret ∧
      ∀ v P C, IsOpNode g C → v ∈ (g.node C).inputs → P ∈ (g.node v).inputs →
        P ∈ ret ∧ C ∈ ret ∧ ret.indexOf P < ret.indexOf C) ∧
    TopologySortOperations scenarioA = .ok [0, 2] := by
  refine ⟨?_, rfl⟩
  have hcl := bipartite_closed g hb
  obtain ⟨adj, h⟩ := build_total g (bipartite_producers g hb)
  obtain ⟨ret, e, _, h2, h3⟩ :=
    (topologySort_spec g adj h (producersInGraph_of_closed g hcl)).2 hac
  refine ⟨ret, e, ?_⟩
  intro v P C hC hv hP
  have hPop : IsOpNode g P :=
    ⟨hcl v (hcl C hC.1 v (List.mem_append_left _ hv)) P (List.mem_append_left _ hP),
      bipartite_producers g hb C hC.1 hC.2 v hv P hP⟩
  obtain ⟨a1, a2⟩ := h3 C P ⟨hC, hPop, v, hv, hP⟩
  exact ⟨a1, (h2 C).mpr hC, a2⟩

/-- C3, at the chain of three operations. -/
theorem C3_witness :
    Bipartite (chainGraph []) ∧ ¬ HasCycle (chainGraph []) ∧
    ((∃ ret, TopologySortOperations (chainGraph []) = .ok ret ∧
      ∀ v P C, IsOpNode (chainGraph []) C → v ∈ ((chainGraph []).node C).inputs →
        P ∈ ((chainGraph []).node v).inputs →
        P ∈ ret ∧ C ∈ ret ∧ ret.indexOf P < ret.indexOf C) ∧
    TopologySortOperations scenarioA = .ok [0, 2]) :=
  ⟨by decide, chainGraph_acyclic [],
    C3_TopologySort_order (chainGraph []) (by decide) (chainGraph_acyclic [])⟩

/-- C4, as stated, fails: on `danglingGraph` the map is built, the predecessor
relation on the operation nodes has no cycle, and `TopologySortOperations`
fails, with the `std::out_of_range` of `adj_list.at`. -/
theorem C4_counterexample :
    (∃ adj, BuildOperationAdjList danglingGraph = .ok adj) ∧
    ¬ HasCycle danglingGraph ∧
    TopologySortOperations danglingGraph = .error Error.OutOfRange ∧
    ¬ (¬ HasCycle danglingGraph → ∃ ret, TopologySortOperations danglingGraph = .ok ret) := by
  have e : TopologySortOperations danglingGraph = .error Error.OutOfRange := rfl
  refine ⟨⟨[(2, [0])], rfl⟩, danglingGraph_acyclic, e, ?_⟩
  · intro h
    obtain ⟨ret, hr⟩ := h danglingGraph_acyclic
    rw [e] at hr
    cases hr

/-- C4, amended. On every graph on which `BuildOperationAdjList` succeeds and
in which every producer of an input of an operation node of the graph is
itself a graph node (as it is when every neighbour of a graph node is a graph
node), `TopologySortOperations` fails with `CycleDetected` if and only if the
predecessor relation on the operation nodes has a cycle; it returns no order
for a cyclic graph and it returns an order for an acyclic one. -/
theorem C4_TopologySort_cycle (g : Graph) (hbuild : ∃ adj, BuildOperationAdjList g = .ok adj)
    (hpg : ProducersInGraph g) :
    (TopologySortOperations g = .error Error.CycleDetected ↔ HasCycle g) ∧
    (HasCycle g → ∀ ret, TopologySortOperations g ≠ .ok ret) ∧
    (¬ HasCycle g → ∃ ret, TopologySortOperations g = .ok ret) := by
  obtain ⟨adj, h⟩ := hbuild
  obtain ⟨h1, h2⟩ := topologySort_spec g adj h hpg
  refine ⟨⟨?_, h1⟩, ?_, ?_⟩
  · intro e
    by_contra hac
    obtain ⟨ret, e', _⟩ := h2 hac
    rw [e] at e'
    cases e'
  · intro hcyc ret e
    rw [h1 hcyc] at e
    cases e
  · intro hac
    obtain ⟨ret, e, _⟩ := h2 hac
    exact ⟨ret, e⟩

/-- C4 amended, at the graph with a cycle. -/
theorem C4_witness :
    (∃ adj, BuildOperationAdjList loopGraph = .ok adj) ∧ ProducersInGraph loopGraph ∧
    ((TopologySortOperations loopGraph = .error Error.CycleDetected ↔ HasCycle loopGraph) ∧
    (HasCycle loopGraph → ∀ ret, TopologySortOperations loopGraph ≠ .ok ret) ∧
    (¬ HasCycle loopGraph → ∃ ret, TopologySortOperations loopGraph = .ok ret)) :=
  ⟨⟨[(0, [2]), (2, [0])], rfl⟩, by decide,
    C4_TopologySort_cycle loopGraph ⟨[(0, [2]), (2, [0])], rfl⟩ (by decide)⟩

/-! ## SortOperationsInSequence: the search of the ready set -/

theorem findLoop_some (g : Graph) (d : OpDesc) (y : Nat) :
    ∀ l : List Nat, findLoop g d l (some y) =
      if matching g d l = [] then .ok (some y) else .error Error.AmbiguousMatch := by
  intro l
  induction l with
  | nil => simp [findLoop, matching]
  | cons n rest ih =>
    unfold findLoop
    by_cases h : is_same_op_desc d (g.node n).op = true
    · simp [h, matching, List.filter_cons]
    · rw [if_neg h, ih]
      simp [h, matching, List.filter_cons]

theorem findLoop_none (g : Graph) (d : OpDesc) :
    ∀ l : List Nat, findLoop g d l none =
      match matching g d l with
      | [] => .ok none
      | [x] => .ok (some x)
      | _ :: _ :: _ => .error Error.AmbiguousMatch := by
  intro l
  induction l with
  | nil => simp [findLoop, matching]
  | cons n rest ih =>
    unfold findLoop
    by_cases h : is_same_op_desc d (g.node n).op = true
    · rw [if_pos h]
      simp only
      rw [findLoop_some]
      have e : matching g d (n :: rest) = n :: matching g d rest := by
        simp [matching, List.filter_cons, h]
      rw [e]
      cases hm : matching g d rest with
      | nil => simp
      | cons a t => simp
    · rw [if_neg h, ih]
      have e : matching g d (n :: rest) = matching g d rest := by
        simp [matching, List.filter_cons, h]
      rw [e]

/-! ## SortOperationsInSequence: the setup phase -/

theorem mem_precFold (g : Graph) :
    ∀ (ins pre : List Nat) (p : Nat),
      p ∈ precFold g ins pre ↔ p ∈ pre ∨ ∃ i ∈ ins, (g.node i).inputs = [p] := by
  intro ins
  induction ins with
  | nil => intro pre p; simp [precFold]
  | cons i rest ih =>
    intro pre p
    unfold precFold
    cases hi : (g.node i).inputs with
    | nil =>
      simp only
      rw [ih]
      simp [hi]
    | cons q t =>
      cases t with
      | nil =>
        simp only
        rw [ih, mem_setInsert]
        simp only [List.mem_cons, exists_eq_or_imp, hi, List.cons.injEq, and_true]
        constructor
        · rintro ((h | h) | h)
          · exact Or.inl h
          · exact Or.inr (Or.inl h.symm)
          · exact Or.inr (Or.inr h)
        · rintro (h | h | h)
          · exact Or.inl (Or.inl h)
          · exact Or.inl (Or.inr h.symm)
          · exact Or.inr h
      | cons q' t' =>
        simp only
        rw [ih]
        simp [hi]

theorem nodup_precFold (g : Graph) :
    ∀ (ins pre : List Nat), pre.Nodup → (precFold g ins pre).Nodup := by
  intro ins
  induction ins with
  | nil => intro pre h; simpa [precFold] using h
  | cons i rest ih =>
    intro pre h
    unfold precFold
    split
    · exact ih _ (nodup_setInsert pre _ h)
    · exact ih _ h

theorem mem_precOps (g : Graph) (n p : Nat) (h : StructOK g n) :
    p ∈ precOps g n ↔ Producer g n p := by
  unfold precOps
  rw [mem_precFold]
  constructor
  · rintro (h1 | ⟨i, hi, e⟩)
    · simp at h1
    · exact ⟨i, hi, by simp [e]⟩
  · rintro ⟨v, hv, hp⟩
    right
    rcases (h v hv).2 with e | ⟨q, e, _⟩
    · simp [e] at hp
    · rw [e] at hp
      have : p = q := by simpa using hp
      subst this
      exact ⟨v, hv, e⟩

theorem precedingLoop_ok (g : Graph) (node : Nat) :
    ∀ (ins pre : List Nat) (pend : Nat → List Nat) (pre' : List Nat) (pend' : Nat → List Nat),
      precedingLoop g node ins pre pend = .ok (pre', pend') →
      (∀ i ∈ ins, g.IsVar i = true ∧
        ((g.node i).inputs = [] ∨ ∃ p, (g.node i).inputs = [p] ∧ g.IsOp p = true)) ∧
      pre' = precFold g ins pre ∧
      (∀ p x, x ∈ pend' p ↔ x ∈ pend p ∨ (x = node ∧ ∃ i ∈ ins, (g.node i).inputs = [p])) ∧
      ((∀ p, (pend p).Nodup) → ∀ p, (pend' p).Nodup) := by
  intro ins
  induction ins with
  | nil =>
    intro pre pend pre' pend' h
    simp only [precedingLoop, Except.ok.injEq, Prod.mk.injEq] at h
    obtain ⟨h1, h2⟩ := h
    subst h1 h2
    exact ⟨by simp, rfl, by simp, id⟩
  | cons i rest ih =>
    intro pre pend pre' pend' h
    unfold precedingLoop at h
    by_cases hv : g.IsVar i = true
    · rw [if_pos hv] at h
      cases hi : (g.node i).inputs with
      | nil =>
        rw [hi] at h
        simp only at h
        obtain ⟨a1, a2, a3, a4⟩ := ih pre pend pre' pend' h
        refine ⟨?_, ?_, ?_, a4⟩
        · intro j hj
          rcases List.mem_cons.mp hj with hj | hj
          · subst hj; exact ⟨hv, Or.inl hi⟩
          · exact a1 j hj
        · rw [a2]; simp [precFold, hi]
        · intro p x
          rw [a3]
          simp [hi]
      | cons q t =>
        cases t with
        | nil =>
          rw [hi] at h
          simp only at h
          by_cases hq : g.IsOp q = true
          · rw [if_pos hq] at h
            obtain ⟨a1, a2, a3, a4⟩ := ih _ _ pre' pend' h
            refine ⟨?_, ?_, ?_, ?_⟩
            · intro j hj
              rcases List.mem_cons.mp hj with hj | hj
              · subst hj; exact ⟨hv, Or.inr ⟨q, hi, hq⟩⟩
              · exact a1 j hj
            · rw [a2]; simp [precFold, hi]
            · intro p x
              rw [a3]
              simp only [List.mem_cons, exists_eq_or_imp, hi, List.cons.injEq, and_true]
              by_cases hpq : p = q
              · subst hpq
                simp only [Function.update_same, mem_setInsert, true_or, and_true]
                tauto
              · have hqp : ¬ q = p := fun e => hpq e.symm
                simp only [Function.update_noteq hpq, hqp, false_or]
            · intro hn p
              apply a4
              intro p'
              by_cases hpq : p' = q
              · subst hpq
                simp only [Function.update_same]
                exact nodup_setInsert _ _ (hn p')
              · simp only [Function.update_noteq hpq]
                exact hn p'
          · rw [if_neg hq] at h
            cases h
        | cons q' t' =>
          rw [hi] at h
          simp only at h
          cases h
    · rw [if_neg hv] at h
      cases h

theorem setupLoop_ok (g : Graph) :
    ∀ (ns : List Nat) (s s' : SeqState) (S : Nat → Prop),
      SetupInv g S s → setupLoop g ns s = .ok s' →
      SetupInv g (fun k => S k ∨ k ∈ ns) s' := by
  intro ns
  induction ns with
  | nil =>
    intro s s' S hs h
    simp only [setupLoop, Except.ok.injEq] at h
    subst h
    refine ⟨?_, ?_, ?_, hs.pendNodup, ?_, hs.readyNodup⟩
    · intro n hn; exact hs.struct n (by simpa using hn)
    · intro n hn; exact hs.deps n (by simpa using hn)
    · intro p x; rw [hs.pend]; simp
    · intro x; rw [hs.ready]; simp
  | cons node rest ih =>
    intro s s' S hs h
    unfold setupLoop at h
    have hset : ∀ k, ((S k ∨ k = node) ∨ k ∈ rest) ↔ (S k ∨ k ∈ node :: rest) := by
      intro k
      simp only [List.mem_cons]
      tauto
    by_cases hop : g.IsOp node = true
    · rw [if_pos hop] at h
      cases hp : precedingLoop g node (g.node node).inputs [] s.pending_ops with
      | error e => rw [hp] at h; cases h
      | ok r =>
        obtain ⟨pre, pend⟩ := r
        rw [hp] at h
        simp only at h
        obtain ⟨a1, a2, a3, a4⟩ := precedingLoop_ok g node _ _ _ _ _ hp
        have hpre : pre = precOps g node := a2
        have hmemP : ∀ p, p ∈ precOps g node ↔ ∃ i ∈ (g.node node).inputs,
            (g.node i).inputs = [p] := by
          intro p
          unfold precOps
          rw [mem_precFold]
          simp
        have hs1 : SetupInv g (fun k => S k ∨ k = node)
            { op_deps := Function.update s.op_deps node (some pre.length)
              pending_ops := pend
              ready_ops := if pre.isEmpty then setInsert s.ready_ops node else s.ready_ops } := by
          refine ⟨?_, ?_, ?_, a4 hs.pendNodup, ?_, ?_⟩
          · intro n hn hnop
            rcases hn with hn | hn
            · exact hs.struct n hn hnop
            · subst hn; exact a1
          · intro n hn hnop
            by_cases e : n = node
            · subst e
              simp only [Function.update_same, hpre]
            · simp only [Function.update_noteq e]
              rcases hn with hn | hn
              · exact hs.deps n hn hnop
              · exact absurd hn e
          · intro p x
            show x ∈ pend p ↔ _
            rw [a3, hs.pend]
            constructor
            · rintro (⟨h1, h2, h3⟩ | ⟨h1, h2⟩)
              · exact ⟨Or.inl h1, h2, h3⟩
              · subst h1
                exact ⟨Or.inr rfl, hop, (hmemP p).mpr h2⟩
            · rintro ⟨h1 | h1, h2, h3⟩
              · exact Or.inl ⟨h1, h2, h3⟩
              · subst h1
                exact Or.inr ⟨rfl, (hmemP p).mp h3⟩
          · intro x
            show x ∈ (if pre.isEmpty then setInsert s.ready_ops node else s.ready_ops) ↔ _
            by_cases hemp : pre = []
            · have hP : precOps g node = [] := by rw [← hpre]; exact hemp
              simp only [hemp, List.isEmpty_nil, if_true, mem_setInsert, hs.ready]
              constructor
              · rintro (⟨h1, h2, h3⟩ | h1)
                · exact ⟨Or.inl h1, h2, h3⟩
                · subst h1; exact ⟨Or.inr rfl, hop, hP⟩
              · rintro ⟨h1 | h1, h2, h3⟩
                · exact Or.inl ⟨h1, h2, h3⟩
                · exact Or.inr h1
            · have hP : precOps g node ≠ [] := by rw [← hpre]; exact hemp
              have hemp' : pre.isEmpty = false := by
                cases pre with
                | nil => exact absurd rfl hemp
                | cons _ _ => rfl
              simp only [hemp', Bool.false_eq_true, if_false, hs.ready]
              constructor
              · rintro ⟨h1, h2, h3⟩
                exact ⟨Or.inl h1, h2, h3⟩
              · rintro ⟨h1 | h1, h2, h3⟩
                · exact ⟨h1, h2, h3⟩
                · subst h1; exact absurd h3 hP
          · show (if pre.isEmpty then setInsert s.ready_ops node else s.ready_ops).Nodup
            split
            · exact nodup_setInsert _ _ hs.readyNodup
            · exact hs.readyNodup
        have hfin := ih _ s' _ hs1 h
        refine ⟨?_, ?_, ?_, hfin.pendNodup, ?_, hfin.readyNodup⟩
        · intro n hn; exact hfin.struct n ((hset n).mpr hn)
        · intro n hn; exact hfin.deps n ((hset n).mpr hn)
        · intro p x; rw [hfin.pend, hset]
        · intro x; rw [hfin.ready, hset]
    · rw [if_neg hop] at h
      have hfin := ih s s' S hs h
      refine ⟨?_, ?_, ?_, hfin.pendNodup, ?_, hfin.readyNodup⟩
      · intro n hn hnop
        rcases hn with hn | hn
        · exact hfin.struct n (Or.inl hn) hnop
        · rcases List.mem_cons.mp hn with hn | hn
          · subst hn; exact absurd hnop hop
          · exact hfin.struct n (Or.inr hn) hnop
      · intro n hn hnop
        rcases hn with hn | hn
        · exact hfin.deps n (Or.inl hn) hnop
        · rcases List.mem_cons.mp hn with hn | hn
          · subst hn; exact absurd hnop hop
          · exact hfin.deps n (Or.inr hn) hnop
      · intro p x
        rw [hfin.pend]
        constructor
        · rintro ⟨h1 | h1, h2, h3⟩
          · exact ⟨Or.inl h1, h2, h3⟩
          · exact ⟨Or.inr (List.mem_cons_of_mem _ h1), h2, h3⟩
        · rintro ⟨h1 | h1, h2, h3⟩
          · exact ⟨Or.inl h1, h2, h3⟩
          · rcases List.mem_cons.mp h1 with h1 | h1
            · subst h1; exact absurd h2 hop
            · exact ⟨Or.inr h1, h2, h3⟩
      · intro x
        rw [hfin.ready]
        constructor
        · rintro ⟨h1 | h1, h2, h3⟩
          · exact ⟨Or.inl h1, h2, h3⟩
          · exact ⟨Or.inr (List.mem_cons_of_mem _ h1), h2, h3⟩
        · rintro ⟨h1 | h1, h2, h3⟩
          · exact ⟨Or.inl h1, h2, h3⟩
          · rcases List.mem_cons.mp h1 with h1 | h1
            · subst h1; exact absurd h2 hop
            · exact ⟨Or.inr h1, h2, h3⟩

/-! ## SortOperationsInSequence: the main loop -/

theorem outstanding_snoc_not_mem (P out : List Nat) (f : Nat) (hf : f ∉ P) :
    outstanding P (out ++ [f]) = outstanding P out := by
  unfold outstanding
  congr 1
  apply List.filter_congr
  intro x hx
  have : x ≠ f := fun e => hf (e ▸ hx)
  simp [this]

theorem outstanding_cons_mem (a : Nat) (P out : List Nat) (h : a ∈ out) :
    outstanding (a :: P) out = outstanding P out := by
  unfold outstanding
  rw [List.filter_cons_of_neg (by simpa using h)]

theorem outstanding_cons_not_mem (a : Nat) (P out : List Nat) (h : a ∉ out) :
    outstanding (a :: P) out = outstanding P out + 1 := by
  unfold outstanding
  rw [List.filter_cons_of_pos (by simpa using h)]
  rfl

theorem outstanding_snoc_mem (P out : List Nat) (f : Nat) (hn : P.Nodup) (hf : f ∈ P)
    (hfo : f ∉ out) : outstanding P (out ++ [f]) + 1 = outstanding P out := by
  induction P with
  | nil => simp at hf
  | cons a rest ih =>
    rw [List.nodup_cons] at hn
    by_cases e : a = f
    · subst e
      have h1 := outstanding_snoc_not_mem rest out a hn.1
      rw [outstanding_cons_mem a rest (out ++ [a]) (by simp),
        outstanding_cons_not_mem a rest out hfo, h1]
    · have hf' : f ∈ rest := by
        rcases List.mem_cons.mp hf with h | h
        · exact absurd h.symm e
        · exact h
      have ih' := ih hn.2 hf'
      by_cases ha : a ∈ out
      · rw [outstanding_cons_mem a rest (out ++ [f]) (List.mem_append_left _ ha),
          outstanding_cons_mem a rest out ha]
        exact ih'
      · have ha' : a ∉ out ++ [f] := by
          simp only [List.mem_append, List.mem_singleton, not_or]
          exact ⟨ha, e⟩
        rw [outstanding_cons_not_mem a rest (out ++ [f]) ha',
          outstanding_cons_not_mem a rest out ha]
        omega

theorem outstanding_eq_zero (P out : List Nat) :
    outstanding P out = 0 ↔ ∀ p ∈ P, p ∈ out := by
  unfold outstanding
  rw [List.length_eq_zero, List.filter_eq_nil_iff]
  simp

theorem outstanding_nil (P : List Nat) : outstanding P [] = P.length := by
  unfold outstanding
  simp

theorem decr_pos (c : Nat) (h : 1 ≤ c) : decr c = c - 1 := by
  unfold decr
  rw [if_neg (by omega)]

theorem releaseLoop_ok :
    ∀ (L : List Nat) (deps : Nat → Option Nat) (ready : List Nat),
      L.Nodup → (∀ n ∈ L, ∃ c, deps n = some c ∧ 1 ≤ c) →
      ∃ deps' ready', releaseLoop L deps ready = .ok (deps', ready') ∧
        (∀ n ∈ L, ∀ c, deps n = some c → deps' n = some (c - 1)) ∧
        (∀ n, n ∉ L → deps' n = deps n) ∧
        (∀ x, x ∈ ready' ↔ x ∈ ready ∨ (x ∈ L ∧ deps x = some 1)) ∧
        (ready.Nodup → ready'.Nodup) := by
  intro L
  induction L with
  | nil =>
    intro deps ready _ _
    exact ⟨deps, ready, rfl, by simp, fun _ _ => rfl, by simp, id⟩
  | cons n rest ih =>
    intro deps ready hn hc
    rw [List.nodup_cons] at hn
    obtain ⟨c, hdc, hc1⟩ := hc n (List.mem_cons_self _ _)
    have hrest : ∀ m ∈ rest, ∃ c', Function.update deps n (some (decr c)) m = some c' ∧ 1 ≤ c' := by
      intro m hm
      have hmn : m ≠ n := fun e => hn.1 (e ▸ hm)
      rw [Function.update_noteq hmn]
      exact hc m (List.mem_cons_of_mem _ hm)
    have hupd : ∀ m, m ≠ n → Function.update deps n (some (decr c)) m = deps m :=
      fun m hm => Function.update_noteq hm _ _
    unfold releaseLoop
    rw [hdc]
    simp only
    by_cases hz : decr c = 0
    · rw [if_pos hz]
      have hc_one : c = 1 := by
        rw [decr_pos c hc1] at hz
        omega
      obtain ⟨deps', ready', e, a1, a2, a3, a4⟩ := ih (Function.update deps n (some (decr c)))
        (setInsert ready n) hn.2 hrest
      refine ⟨deps', ready', e, ?_, ?_, ?_, fun h => a4 (nodup_setInsert _ _ h)⟩
      · intro m hm c' hc'
        rcases List.mem_cons.mp hm with hm | hm
        · subst hm
          rw [a2 m hn.1, Function.update_same, decr_pos c hc1]
          rw [hdc] at hc'
          cases hc'
          rfl
        · have hmn : m ≠ n := fun e => hn.1 (e ▸ hm)
          exact a1 m hm c' (by rw [hupd m hmn]; exact hc')
      · intro m hm
        have hmn : m ≠ n := fun e => hm (e ▸ List.mem_cons_self _ _)
        rw [a2 m (fun h => hm (List.mem_cons_of_mem _ h)), hupd m hmn]
      · intro x
        rw [a3, mem_setInsert]
        constructor
        · rintro ((h | h) | ⟨h1, h2⟩)
          · exact Or.inl h
          · subst h
            exact Or.inr ⟨List.mem_cons_self _ _, by rw [hdc, hc_one]⟩
          · have hxn : x ≠ n := fun e => hn.1 (e ▸ h1)
            rw [hupd x hxn] at h2
            exact Or.inr ⟨List.mem_cons_of_mem _ h1, h2⟩
        · rintro (h | ⟨h1, h2⟩)
          · exact Or.inl (Or.inl h)
          · rcases List.mem_cons.mp h1 with h1 | h1
            · exact Or.inl (Or.inr h1)
            · have hxn : x ≠ n := fun e => hn.1 (e ▸ h1)
              exact Or.inr ⟨h1, by rw [hupd x hxn]; exact h2⟩
    · rw [if_neg hz]
      have hc_ne : c ≠ 1 := by
        intro e
        rw [decr_pos c hc1] at hz
        omega
      obtain ⟨deps', ready', e, a1, a2, a3, a4⟩ := ih (Function.update deps n (some (decr c)))
        ready hn.2 hrest
      refine ⟨deps', ready', e, ?_, ?_, ?_, a4⟩
      · intro m hm c' hc'
        rcases List.mem_cons.mp hm with hm | hm
        · subst hm
          rw [a2 m hn.1, Function.update_same, decr_pos c hc1]
          rw [hdc] at hc'
          cases hc'
          rfl
        · have hmn : m ≠ n := fun e => hn.1 (e ▸ hm)
          exact a1 m hm c' (by rw [hupd m hmn]; exact hc')
      · intro m hm
        have hmn : m ≠ n := fun e => hm (e ▸ List.mem_cons_self _ _)
        rw [a2 m (fun h => hm (List.mem_cons_of_mem _ h)), hupd m hmn]
      · intro x
        rw [a3]
        constructor
        · rintro (h | ⟨h1, h2⟩)
          · exact Or.inl h
          · have hxn : x ≠ n := fun e => hn.1 (e ▸ h1)
            rw [hupd x hxn] at h2
            exact Or.inr ⟨List.mem_cons_of_mem _ h1, h2⟩
        · rintro (h | ⟨h1, h2⟩)
          · exact Or.inl h
          · rcases List.mem_cons.mp h1 with h1 | h1
            · subst h1
              rw [hdc] at h2
              cases h2
              exact absurd rfl hc_ne
            · have hxn : x ≠ n := fun e => hn.1 (e ▸ h1)
              exact Or.inr ⟨h1, by rw [hupd x hxn]; exact h2⟩

theorem ordered_snoc (g : Graph) (out : List Nat) (f : Nat)
    (ho : ∀ i (hi : i < out.length) p, p ∈ precOps g out[i] → ∃ j, j < i ∧ out[j]? = some p)
    (hf : ∀ p ∈ precOps g f, p ∈ out) :
    ∀ i (hi : i < (out ++ [f]).length) p, p ∈ precOps g (out ++ [f])[i] →
      ∃ j, j < i ∧ (out ++ [f])[j]? = some p := by
  intro i hi p hp
  by_cases h : i < out.length
  · rw [List.getElem_append_left h] at hp
    obtain ⟨j, hj, e⟩ := ho i h p hp
    refine ⟨j, hj, ?_⟩
    rw [List.getElem?_append_left (by omega)]
    exact e
  · have hlen : i = out.length := by
      simp only [List.length_append, List.length_singleton] at hi
      omega
    subst hlen
    have e : (out ++ [f])[out.length] = f := by simp
    rw [e] at hp
    obtain ⟨j, hj, e'⟩ := List.getElem_of_mem (hf p hp)
    refine ⟨j, hj, ?_⟩
    rw [List.getElem?_append_left hj, List.getElem?_eq_getElem hj, e']

/-- The body of the main loop after a node of the ready set is found keeps the
invariant. -/
theorem release_inv (g : Graph) (s : SeqState) (out : List Nat) (f : Nat)
    (hinv : SeqInv g s out) (hf : f ∈ s.ready_ops) :
    ∃ deps ready, releaseLoop (s.pending_ops f) s.op_deps s.ready_ops = .ok (deps, ready) ∧
      SeqInv g { op_deps := deps, pending_ops := s.pending_ops, ready_ops := ready.erase f }
        (out ++ [f]) := by
  obtain ⟨hfop, hfout, hfP⟩ := (hinv.ready f).mp hf
  have hPn : ∀ n, (precOps g n).Nodup := fun n => nodup_precFold g _ [] List.nodup_nil
  have hpos : ∀ n ∈ s.pending_ops f, ∃ c, s.op_deps n = some c ∧ 1 ≤ c := by
    intro n hn
    obtain ⟨hnop, hfn⟩ := (hinv.pend f n).mp hn
    refine ⟨_, hinv.deps n hnop, ?_⟩
    have := outstanding_snoc_mem (precOps g n) out f (hPn n) hfn hfout
    omega
  obtain ⟨deps, ready, e, a1, a2, a3, a4⟩ :=
    releaseLoop_ok (s.pending_ops f) s.op_deps s.ready_ops (hinv.pendNodup f) hpos
  have hdeps : ∀ n, IsOpNode g n → deps n = some (outstanding (precOps g n) (out ++ [f])) := by
    intro n hn
    by_cases hfn : f ∈ precOps g n
    · have hmem : n ∈ s.pending_ops f := (hinv.pend f n).mpr ⟨hn, hfn⟩
      rw [a1 n hmem _ (hinv.deps n hn)]
      have := outstanding_snoc_mem (precOps g n) out f (hPn n) hfn hfout
      congr 1
      omega
    · have hmem : n ∉ s.pending_ops f := fun h => hfn ((hinv.pend f n).mp h).2
      rw [a2 n hmem, hinv.deps n hn, outstanding_snoc_not_mem _ _ _ hfn]
  refine ⟨deps, ready, e, ⟨hinv.struct, hdeps, hinv.pend, hinv.pendNodup, ?_, ?_, ?_, ?_, ?_⟩⟩
  · intro x
    show x ∈ ready.erase f ↔ _
    rw [(a4 hinv.readyNodup).mem_erase_iff, a3, hinv.ready]
    constructor
    · rintro ⟨hxf, ⟨h1, h2, h3⟩ | ⟨h1, h2⟩⟩
      · refine ⟨h1, ?_, fun p hp => List.mem_append_left _ (h3 p hp)⟩
        simp only [List.mem_append, List.mem_singleton, not_or]
        exact ⟨h2, hxf⟩
      · obtain ⟨hxop, hfx⟩ := (hinv.pend f x).mp h1
        have hc := hinv.deps x hxop
        rw [h2] at hc
        have hone : outstanding (precOps g x) out = 1 := (Option.some.inj hc).symm
        have hsnoc := outstanding_snoc_mem (precOps g x) out f (hPn x) hfx hfout
        have hzero : outstanding (precOps g x) (out ++ [f]) = 0 := by omega
        refine ⟨hxop, ?_, (outstanding_eq_zero _ _).mp hzero⟩
        simp only [List.mem_append, List.mem_singleton, not_or]
        refine ⟨?_, hxf⟩
        intro hxo
        obtain ⟨i, hi, ei⟩ := List.getElem_of_mem hxo
        have hfi : f ∈ precOps g out[i] := by rw [ei]; exact hfx
        obtain ⟨j, hj, ej⟩ := hinv.ordered i hi f hfi
        exact hfout (List.mem_iff_getElem?.mpr ⟨j, ej⟩)
    · rintro ⟨h1, h2, h3⟩
      simp only [List.mem_append, List.mem_singleton, not_or] at h2
      refine ⟨h2.2, ?_⟩
      by_cases hfx : f ∈ precOps g x
      · right
        refine ⟨(hinv.pend f x).mpr ⟨h1, hfx⟩, ?_⟩
        rw [hinv.deps x h1]
        have hsnoc := outstanding_snoc_mem (precOps g x) out f (hPn x) hfx hfout
        have hzero := (outstanding_eq_zero (precOps g x) (out ++ [f])).mpr h3
        congr 1
        omega
      · left
        refine ⟨h1, h2.1, ?_⟩
        intro p hp
        rcases List.mem_append.mp (h3 p hp) with h | h
        · exact h
        · have : p = f := by simpa using h
          subst this
          exact absurd hp hfx
  · exact (a4 hinv.readyNodup).erase f
  · intro x hx
    rcases List.mem_append.mp hx with h | h
    · exact hinv.outOps x h
    · have : x = f := by simpa using h
      subst this
      exact hfop
  · rw [List.nodup_append]
    refine ⟨hinv.outNodup, List.nodup_singleton _, ?_⟩
    intro a ha hb
    have : a = f := by simpa using hb
    subst this
    exact hfout ha
  · exact ordered_snoc g out f hinv.ordered hfP

theorem seqStep_none (g : Graph) (d : OpDesc) (s : SeqState)
    (h : matching g d s.ready_ops = []) : seqStep g d s = .error Error.NoMatchingOperation := by
  unfold seqStep
  rw [findLoop_none, h]

theorem seqStep_many (g : Graph) (d : OpDesc) (s : SeqState) (a b : Nat) (t : List Nat)
    (h : matching g d s.ready_ops = a :: b :: t) :
    seqStep g d s = .error Error.AmbiguousMatch := by
  unfold seqStep
  rw [findLoop_none, h]

theorem seqStep_one (g : Graph) (d : OpDesc) (s : SeqState) (out : List Nat) (f : Nat)
    (hinv : SeqInv g s out) (h : matching g d s.ready_ops = [f]) :
    ∃ s', seqStep g d s = .ok (s', f) ∧ SeqInv g s' (out ++ [f]) := by
  have hf : f ∈ s.ready_ops := by
    have : f ∈ matching g d s.ready_ops := by rw [h]; simp
    exact (List.mem_filter.mp this).1
  obtain ⟨deps, ready, e, hinv'⟩ := release_inv g s out f hinv hf
  refine ⟨_, ?_, hinv'⟩
  unfold seqStep
  rw [findLoop_none, h]
  simp only [e]

theorem seqStep_ok (g : Graph) (d : OpDesc) (s s' : SeqState) (out : List Nat) (f : Nat)
    (hinv : SeqInv g s out) (h : seqStep g d s = .ok (s', f)) :
    matching g d s.ready_ops = [f] ∧ SeqInv g s' (out ++ [f]) := by
  cases hm : matching g d s.ready_ops with
  | nil => rw [seqStep_none g d s hm] at h; cases h
  | cons a t =>
    cases t with
    | cons b t' => rw [seqStep_many g d s a b t' hm] at h; cases h
    | nil =>
      obtain ⟨s'', e, hinv'⟩ := seqStep_one g d s out a hinv hm
      rw [e] at h
      simp only [Except.ok.injEq, Prod.mk.injEq] at h
      obtain ⟨h1, h2⟩ := h
      subst h1 h2
      exact ⟨rfl, hinv'⟩

theorem seqLoop_append (g : Graph) :
    ∀ (l1 l2 : List OpDesc) (s : SeqState) (out : List Nat),
      seqLoop g (l1 ++ l2) s out =
        match seqLoop g l1 s out with
        | .error e => .error e
        | .ok (s1, out1) => seqLoop g l2 s1 out1 := by
  intro l1
  induction l1 with
  | nil => intro l2 s out; simp [seqLoop]
  | cons d rest ih =>
    intro l2 s out
    simp only [List.cons_append, seqLoop]
    cases h : seqStep g d s with
    | error e => rfl
    | ok r =>
      obtain ⟨s1, f⟩ := r
      simp only
      exact ih l2 s1 (out ++ [f])

theorem seqLoop_inv (g : Graph) :
    ∀ (ds : List OpDesc) (s s' : SeqState) (out out' : List Nat),
      SeqInv g s out → seqLoop g ds s out = .ok (s', out') →
      SeqInv g s' out' ∧ ∃ found, out' = out ++ found ∧
        List.Forall₂ (fun d n => is_same_op_desc d (g.node n).op = true) ds found := by
  intro ds
  induction ds with
  | nil =>
    intro s s' out out' hinv h
    simp only [seqLoop, Except.ok.injEq, Prod.mk.injEq] at h
    obtain ⟨h1, h2⟩ := h
    subst h1 h2
    exact ⟨hinv, [], by simp, List.Forall₂.nil⟩
  | cons d rest ih =>
    intro s s' out out' hinv h
    unfold seqLoop at h
    cases hs : seqStep g d s with
    | error e => rw [hs] at h; cases h
    | ok r =>
      obtain ⟨s1, f⟩ := r
      rw [hs] at h
      simp only at h
      obtain ⟨hm, hinv1⟩ := seqStep_ok g d s s1 out f hinv hs
      obtain ⟨hfin, found, e, hall⟩ := ih s1 s' (out ++ [f]) out' hinv1 h
      refine ⟨hfin, f :: found, by rw [e]; simp, List.Forall₂.cons ?_ hall⟩
      have : f ∈ matching g d s.ready_ops := by rw [hm]; simp
      exact (List.mem_filter.mp this).2

theorem setup_inv (g : Graph) (s0 : SeqState) (h : setupLoop g g.nodes initState = .ok s0) :
    SeqInv g s0 [] := by
  have h0 : SetupInv g (fun _ => False) initState :=
    ⟨by simp, by simp, by simp [initState], by simp [initState], by simp [initState],
      by simp [initState]⟩
  have hs := setupLoop_ok g g.nodes initState s0 _ h0 h
  have hop : ∀ n, IsOpNode g n ↔ ((False ∨ n ∈ g.nodes) ∧ g.IsOp n = true) := by
    intro n
    simp [IsOpNode, Graph.IsOp]
  refine ⟨?_, ?_, ?_, hs.pendNodup, ?_, hs.readyNodup, by simp, List.nodup_nil, by simp⟩
  · intro n hn
    exact hs.struct n ((hop n).mp hn).1 ((hop n).mp hn).2
  · intro n hn
    rw [hs.deps n ((hop n).mp hn).1 ((hop n).mp hn).2, outstanding_nil]
  · intro p x
    rw [hs.pend, hop]
    tauto
  · intro x
    rw [hs.ready, hop]
    simp only [List.not_mem_nil, not_false_eq_true, true_and, imp_false]
    constructor
    · rintro ⟨h1, h2, h3⟩
      exact ⟨⟨h1, h2⟩, by simp [h3]⟩
    · rintro ⟨⟨h1, h2⟩, h3⟩
      exact ⟨h1, h2, List.eq_nil_iff_forall_not_mem.mpr h3⟩

theorem sortSeq_of_ok (g : Graph) (ops : List OpDesc) (s0 s' : SeqState) (l : List Nat)
    (hops : g.allOpDescs = some ops) (hsetup : setupLoop g g.nodes initState = .ok s0)
    (h : seqLoop g ops s0 [] = .ok (s', l)) : SortOperationsInSequence g = .ok l := by
  unfold SortOperationsInSequence
  rw [hops]
  simp only [hsetup, h]

theorem sortSeq_of_error (g : Graph) (ops : List OpDesc) (s0 : SeqState) (e : Error)
    (hops : g.allOpDescs = some ops) (hsetup : setupLoop g g.nodes initState = .ok s0)
    (h : seqLoop g ops s0 [] = .error e) : SortOperationsInSequence g = .error e := by
  unfold SortOperationsInSequence
  rw [hops]
  simp only [hsetup, h]

theorem sortSeq_ok (g : Graph) (ret : List Nat) (h : SortOperationsInSequence g = .ok ret) :
    ∃ ops s0 s', g.allOpDescs = some ops ∧ setupLoop g g.nodes initState = .ok s0 ∧
      seqLoop g ops s0 [] = .ok (s', ret) := by
  unfold SortOperationsInSequence at h
  cases hops : g.allOpDescs with
  | none => rw [hops] at h; cases h
  | some ops =>
    rw [hops] at h
    simp only at h
    cases hsetup : setupLoop g g.nodes initState with
    | error e => rw [hsetup] at h; cases h
    | ok s0 =>
      rw [hsetup] at h
      simp only at h
      cases hloop : seqLoop g ops s0 [] with
      | error e => rw [hloop] at h; cases h
      | ok r =>
        obtain ⟨s', l⟩ := r
        rw [hloop] at h
        simp only [Except.ok.injEq] at h
        subst h
        exact ⟨ops, s0, s', rfl, rfl, hloop⟩

theorem filter_eq_singleton (P : Nat → Bool) :
    ∀ (l : List Nat) (x : Nat), l.Nodup → x ∈ l → P x = true →
      (∀ y ∈ l, P y = true → y = x) → l.filter P = [x] := by
  intro l
  induction l with
  | nil => intro x _ hx; simp at hx
  | cons a rest ih =>
    intro x hn hx hP huniq
    rw [List.nodup_cons] at hn
    by_cases e : a = x
    · subst e
      rw [List.filter_cons_of_pos hP]
      congr 1
      rw [List.filter_eq_nil_iff]
      intro y hy hPy
      have := huniq y (List.mem_cons_of_mem _ hy) hPy
      subst this
      exact hn.1 hy
    · have hx' : x ∈ rest := by
        rcases List.mem_cons.mp hx with h | h
        · exact absurd h.symm e
        · exact h
      have hPa : ¬ P a = true := fun h => e (huniq a (List.mem_cons_self _ _) h)
      rw [List.filter_cons_of_neg hPa]
      exact ih x hn.2 hx' hP (fun y hy => huniq y (List.mem_cons_of_mem _ hy))

theorem is_same_op_desc_refl (d : OpDesc) : is_same_op_desc d d = true := by
  simp [is_same_op_desc]

/-- From a state that satisfies the invariant, the main loop outputs a list of
distinct operation nodes with pairwise different descriptors, each after its
preceding operations, when it is given their descriptors. -/
theorem seqLoop_complete (g : Graph)
    (hdesc : ∀ a b, IsOpNode g a → IsOpNode g b →
      is_same_op_desc (g.node a).op (g.node b).op = true → a = b) :
    ∀ (L2 : List Nat) (s : SeqState) (out : List Nat), SeqInv g s out →
      (out ++ L2).Nodup → (∀ x ∈ L2, IsOpNode g x) →
      (∀ (i x p : Nat), (out ++ L2)[i]? = some x → Producer g x p →
        ∃ j, j < i ∧ (out ++ L2)[j]? = some p) →
      ∃ s', seqLoop g (L2.map (fun n => (g.node n).op)) s out = .ok (s', out ++ L2) := by
  intro L2
  induction L2 with
  | nil =>
    intro s out _ _ _ _
    exact ⟨s, by simp [seqLoop]⟩
  | cons x rest ih =>
    intro s out hinv hn hops hord
    have hx : IsOpNode g x := hops x (List.mem_cons_self _ _)
    have hxout : x ∉ out := by
      intro h
      have := (List.nodup_append.mp hn).2.2
      exact this h (List.mem_cons_self _ _)
    have hxP : ∀ p ∈ precOps g x, p ∈ out := by
      intro p hp
      have e : (out ++ x :: rest)[out.length]? = some x := by
        rw [List.getElem?_append_right (le_refl _)]
        simp
      obtain ⟨j, hj, ej⟩ := hord out.length x p e
        ((mem_precOps g x p (hinv.struct x hx)).mp hp)
      rw [List.getElem?_append_left hj] at ej
      exact List.mem_iff_getElem?.mpr ⟨j, ej⟩
    have hready : x ∈ s.ready_ops := (hinv.ready x).mpr ⟨hx, hxout, hxP⟩
    have hm : matching g (g.node x).op s.ready_ops = [x] := by
      apply filter_eq_singleton _ _ x hinv.readyNodup hready (is_same_op_desc_refl _)
      intro y hy hsame
      exact (hdesc x y hx ((hinv.ready y).mp hy).1 hsame).symm
    obtain ⟨s1, e1, hinv1⟩ := seqStep_one g _ s out x hinv hm
    have happ : out ++ [x] ++ rest = out ++ x :: rest := by simp
    obtain ⟨s', e'⟩ := ih s1 (out ++ [x]) hinv1 (by rw [happ]; exact hn)
      (fun y hy => hops y (List.mem_cons_of_mem _ hy))
      (by rw [happ]; exact hord)
    refine ⟨s', ?_⟩
    simp only [List.map_cons, seqLoop, e1]
    rw [e', happ]

theorem two_members (l : List Nat) (a b : Nat) (hab : a ≠ b) (ha : a ∈ l) (hb : b ∈ l) :
    ∃ x y t, l = x :: y :: t := by
  cases l with
  | nil => simp at ha
  | cons x t =>
    cases t with
    | nil =>
      simp only [List.mem_singleton] at ha hb
      exact absurd (ha.trans hb.symm) hab
    | cons y t' => exact ⟨x, y, t', rfl⟩

/-- The outcome of `SortOperationsInSequence` when the main loop reaches the
`k`-th descriptor in the state `s` and fails there. -/
theorem sortSeq_at (g : Graph) (ops : List OpDesc) (s0 s : SeqState) (out : List Nat)
    (k : Nat) (hk : k < ops.length) (hops : g.allOpDescs = some ops)
    (hsetup : setupLoop g g.nodes initState = .ok s0)
    (hrun : seqLoop g (ops.take k) s0 [] = .ok (s, out)) (e : Error)
    (hstep : seqStep g ops[k] s = .error e) :
    SortOperationsInSequence g = .error e := by
  apply sortSeq_of_error g ops s0 e hops hsetup
  generalize hd : ops[k] = d at hstep
  have hsplit : ops = ops.take k ++ d :: ops.drop (k + 1) := by
    rw [← hd, ← List.drop_eq_getElem_cons hk, List.take_append_drop]
  have hgoal : seqLoop g (ops.take k ++ d :: ops.drop (k + 1)) s0 [] = .error e := by
    rw [seqLoop_append, hrun]
    simp only [seqLoop, hstep]
  rw [hsplit]
  exact hgoal

/-! ## The claims on SortOperationsInSequence -/

theorem is_same_op_desc_iff (a b : OpDesc) :
    is_same_op_desc a b = true ↔
      a.type = b.type ∧ a.inputs = b.inputs ∧ a.outputs = b.outputs := by
  simp [is_same_op_desc, and_assoc]

theorem isOpNode_iff (g : Graph) (n : Nat) : IsOpNode g n ↔ n ∈ g.nodes ∧ g.IsOp n = true := by
  simp [IsOpNode, Graph.IsOp]

/-- C6. When `SortOperationsInSequence` succeeds on a graph carrying the
canonical list `ops`, the returned list has the length of `ops`, and for every
index `i` its `i`-th element is an operation node of the graph whose descriptor
has the type name, the input mapping and the output mapping of `ops[i]`. -/
theorem C6_SortInSequence_matches (g : Graph) (ops : List OpDesc) (ret : List Nat)
    (hops : g.allOpDescs = some ops) (h : SortOperationsInSequence g = .ok ret) :
    ret.length = ops.length ∧
    ∀ i (h1 : i < ret.length) (h2 : i < ops.length),
      IsOpNode g ret[i] ∧
      (g.node ret[i]).op.type = ops[i].type ∧
      (g.node ret[i]).op.inputs = ops[i].inputs ∧
      (g.node ret[i]).op.outputs = ops[i].outputs := by
  obtain ⟨ops', s0, s', e1, e2, e3⟩ := sortSeq_ok g ret h
  rw [hops] at e1
  cases e1
  obtain ⟨hinv, found, e, hall⟩ := seqLoop_inv g ops s0 s' [] ret (setup_inv g s0 e2) e3
  simp only [List.nil_append] at e
  subst e
  obtain ⟨hlen, hget⟩ := List.forall₂_iff_get.mp hall
  refine ⟨hlen.symm, ?_⟩
  intro i h1 h2
  have := (is_same_op_desc_iff _ _).mp (hget i h2 h1)
  exact ⟨hinv.outOps _ (List.getElem_mem _), this.1.symm, this.2.1.symm, this.2.2.symm⟩

/-- C6, at the chain of scenario C. -/
theorem C6_witness :
    (chainGraph [descD 1, descD 2, descD 3]).allOpDescs = some [descD 1, descD 2, descD 3] ∧
    SortOperationsInSequence (chainGraph [descD 1, descD 2, descD 3]) = .ok [0, 2, 4] ∧
    [0, 2, 4].length = [descD 1, descD 2, descD 3].length :=
  ⟨rfl, rfl, (C6_SortInSequence_matches (chainGraph [descD 1, descD 2, descD 3])
    [descD 1, descD 2, descD 3] [0, 2, 4] rfl rfl).1⟩

/-- C7. When `SortOperationsInSequence` succeeds, the returned order respects
the data dependencies: every operation that produces an input variable of the
`i`-th returned node occurs in the returned list at an index `j < i`. -/
theorem C7_SortInSequence_dependencies (g : Graph) (ret : List Nat)
    (h : SortOperationsInSequence g = .ok ret) : DepOrdered g ret := by
  obtain ⟨ops, s0, s', _, e2, e3⟩ := sortSeq_ok g ret h
  obtain ⟨hinv, _⟩ := seqLoop_inv g ops s0 s' [] ret (setup_inv g s0 e2) e3
  intro i hi v hv p hp
  apply hinv.ordered i hi p
  exact (mem_precOps g ret[i] p (hinv.struct _ (hinv.outOps _ (List.getElem_mem _)))).mpr
    ⟨v, hv, hp⟩

/-- C7, at the chain of scenario C. -/
theorem C7_witness :
    SortOperationsInSequence (chainGraph [descD 1, descD 2, descD 3]) = .ok [0, 2, 4] ∧
    DepOrdered (chainGraph [descD 1, descD 2, descD 3]) [0, 2, 4] :=
  ⟨rfl, C7_SortInSequence_dependencies (chainGraph [descD 1, descD 2, descD 3]) [0, 2, 4] rfl⟩

/-- C8. On a graph that passes the structural checks of the setup phase and
whose operation nodes carry pairwise non-equal descriptors, for every list `L`
of distinct operation nodes of the graph in which each node comes after all
the operations that produce its input variables, `SortOperationsInSequence`
with the canonical list of the descriptors of `L` succeeds and returns `L`.
On the chain of scenario C the list `[D1, D2, D3]` gives the three nodes in
that order. -/
theorem C8_SortInSequence_complete (g : Graph) (L : List Nat)
    (hsetup : ∃ s0, setupLoop g g.nodes initState = .ok s0)
    (hdesc : DistinctDescs g) (hL : L.Nodup) (hLops : ∀ x ∈ L, IsOpNode g x)
    (hord : DepOrdered g L)
    (hops : g.allOpDescs = some (L.map (fun n => (g.node n).op))) :
    SortOperationsInSequence g = .ok L ∧
    SortOperationsInSequence (chainGraph [descD 1, descD 2, descD 3]) = .ok [0, 2, 4] := by
  refine ⟨?_, rfl⟩
  obtain ⟨s0, hs0⟩ := hsetup
  have hdesc' : ∀ a b, IsOpNode g a → IsOpNode g b →
      is_same_op_desc (g.node a).op (g.node b).op = true → a = b := by
    intro a b ha hb hsame
    by_contra hab
    have := hdesc a ((isOpNode_iff g a).mp ha).1 b ((isOpNode_iff g b).mp hb).1
      ((isOpNode_iff g a).mp ha).2 ((isOpNode_iff g b).mp hb).2 hab
    rw [hsame] at this
    cases this
  have hord' : ∀ (i x p : Nat), ([] ++ L)[i]? = some x → Producer g x p →
      ∃ j, j < i ∧ ([] ++ L)[j]? = some p := by
    intro i x p hi hp
    simp only [List.nil_append] at hi ⊢
    obtain ⟨hi', e⟩ := List.getElem?_eq_some_iff.mp hi
    subst e
    obtain ⟨v, hv, hpv⟩ := hp
    exact hord i hi' v hv p hpv
  obtain ⟨s', e⟩ := seqLoop_complete g hdesc' L s0 [] (setup_inv g s0 hs0)
    (by simpa using hL) hLops hord'
  simp only [List.nil_append] at e
  exact sortSeq_of_ok g _ s0 s' L hops hs0 e

/-- C8, at the chain of scenario C. -/
theorem C8_witness :
    (∃ s0, setupLoop (chainGraph [descD 1, descD 2, descD 3])
      (chainGraph [descD 1, descD 2, descD 3]).nodes initState = .ok s0) ∧
    DistinctDescs (chainGraph [descD 1, descD 2, descD 3]) ∧
    [0, 2, 4].Nodup ∧
    (∀ x ∈ [0, 2, 4], IsOpNode (chainGraph [descD 1, descD 2, descD 3]) x) ∧
    DepOrdered (chainGraph [descD 1, descD 2, descD 3]) [0, 2, 4] ∧
    (SortOperationsInSequence (chainGraph [descD 1, descD 2, descD 3]) = .ok [0, 2, 4] ∧
    SortOperationsInSequence (chainGraph [descD 1, descD 2, descD 3]) = .ok [0, 2, 4]) :=
  ⟨⟨_, rfl⟩, by decide, by decide, by decide, by decide,
    C8_SortInSequence_complete (chainGraph [descD 1, descD 2, descD 3]) [0, 2, 4]
      ⟨_, rfl⟩ (by decide) (by decide) (by decide) (by decide) rfl⟩

/-- C9. On a graph that passes the structural checks, when the main loop
reaches the `k`-th descriptor (every earlier descriptor had exactly one match
in the ready set) and the ready set then holds no node with an equal
descriptor, `SortOperationsInSequence` fails with `NoMatchingOperation`.  This
happens in particular when the only operation node with the requested
descriptor has a producer of one of its inputs that is not yet output, and in
scenario D. -/
theorem C9_NoMatchingOperation (g : Graph) (ops : List OpDesc) (s0 s : SeqState)
    (out : List Nat) (k : Nat) (hk : k < ops.length) (hops : g.allOpDescs = some ops)
    (hsetup : setupLoop g g.nodes initState = .ok s0)
    (hrun : seqLoop g (ops.take k) s0 [] = .ok (s, out)) :
    ((∀ n ∈ s.ready_ops, is_same_op_desc ops[k] (g.node n).op = false) →
      SortOperationsInSequence g = .error Error.NoMatchingOperation) ∧
    (∀ n, (∀ x, IsOpNode g x → is_same_op_desc ops[k] (g.node x).op = true → x = n) →
      (∃ p, Producer g n p ∧ p ∉ out) →
      (∀ m ∈ s.ready_ops, is_same_op_desc ops[k] (g.node m).op = false) ∧
      SortOperationsInSequence g = .error Error.NoMatchingOperation) ∧
    SortOperationsInSequence (chainGraph [descD 2, descD 1, descD 3])
      = .error Error.NoMatchingOperation := by
  have main : (∀ n ∈ s.ready_ops, is_same_op_desc ops[k] (g.node n).op = false) →
      SortOperationsInSequence g = .error Error.NoMatchingOperation := by
    intro hnone
    apply sortSeq_at g ops s0 s out k hk hops hsetup hrun
    apply seqStep_none
    unfold matching
    rw [List.filter_eq_nil_iff]
    intro n hn
    rw [hnone n hn]
    simp
  refine ⟨main, ?_, rfl⟩
  intro n honly hprod
  obtain ⟨hinv, _⟩ := seqLoop_inv g _ s0 s [] out (setup_inv g s0 hsetup) hrun
  have hnone : ∀ m ∈ s.ready_ops, is_same_op_desc ops[k] (g.node m).op = false := by
    intro m hm
    obtain ⟨hmop, _, hmP⟩ := (hinv.ready m).mp hm
    cases hsame : is_same_op_desc ops[k] (g.node m).op with
    | false => rfl
    | true =>
      exfalso
      have hmn := honly m hmop hsame
      subst hmn
      obtain ⟨p, hp, hpout⟩ := hprod
      exact hpout (hmP p ((mem_precOps g m p (hinv.struct m hmop)).mpr hp))
  exact ⟨hnone, main hnone⟩

/-- C9, at scenario D: the first descriptor is `D2`, whose node waits for the
node of `D1`. -/
theorem C9_witness :
    0 < [descD 2, descD 1, descD 3].length ∧
    (chainGraph [descD 2, descD 1, descD 3]).allOpDescs = some [descD 2, descD 1, descD 3] ∧
    setupLoop (chainGraph [descD 2, descD 1, descD 3])
      (chainGraph [descD 2, descD 1, descD 3]).nodes initState
      = .ok (setupState (chainGraph [descD 2, descD 1, descD 3])) ∧
    (∀ n ∈ (setupState (chainGraph [descD 2, descD 1, descD 3])).ready_ops,
      is_same_op_desc (descD 2) ((chainGraph [descD 2, descD 1, descD 3]).node n).op = false) ∧
    SortOperationsInSequence (chainGraph [descD 2, descD 1, descD 3])
      = .error Error.NoMatchingOperation :=
  ⟨by decide, rfl, rfl, by decide,
    (C9_NoMatchingOperation (chainGraph [descD 2, descD 1, descD 3])
      [descD 2, descD 1, descD 3] (setupState (chainGraph [descD 2, descD 1, descD 3]))
      (setupState (chainGraph [descD 2, descD 1, descD 3])) [] 0 (by decide) rfl rfl rfl).1
      (by decide)⟩

/-- C10. On a graph that passes the structural checks, when the main loop
reaches the `k`-th descriptor (every earlier descriptor had exactly one match
in the ready set) and the ready set then holds two distinct nodes with a
descriptor equal to the requested one, `SortOperationsInSequence` fails with
`AmbiguousMatch`; so it does in scenario E. -/
theorem C10_AmbiguousMatch (g : Graph) (ops : List OpDesc) (s0 s : SeqState)
    (out : List Nat) (k : Nat) (hk : k < ops.length) (hops : g.allOpDescs = some ops)
    (hsetup : setupLoop g g.nodes initState = .ok s0)
    (hrun : seqLoop g (ops.take k) s0 [] = .ok (s, out))
    (a b : Nat) (hab : a ≠ b) (ha : a ∈ s.ready_ops) (hb : b ∈ s.ready_ops)
    (hda : is_same_op_desc ops[k] (g.node a).op = true)
    (hdb : is_same_op_desc ops[k] (g.node b).op = true) :
    SortOperationsInSequence g = .error Error.AmbiguousMatch ∧
    SortOperationsInSequence scenarioE = .error Error.AmbiguousMatch := by
  refine ⟨?_, rfl⟩
  apply sortSeq_at g ops s0 s out k hk hops hsetup hrun
  have ha' : a ∈ matching g ops[k] s.ready_ops := List.mem_filter.mpr ⟨ha, hda⟩
  have hb' : b ∈ matching g ops[k] s.ready_ops := List.mem_filter.mpr ⟨hb, hdb⟩
  obtain ⟨x, y, t, e⟩ := two_members _ a b hab ha' hb'
  exact seqStep_many g _ s x y t e

/-- C10, at scenario E. -/
theorem C10_witness :
    0 < [mkDesc "fill" [] ["a"]].length ∧
    scenarioE.allOpDescs = some [mkDesc "fill" [] ["a"]] ∧
    setupLoop scenarioE scenarioE.nodes initState = .ok (setupState scenarioE) ∧
    (0 : Nat) ≠ 1 ∧ 0 ∈ (setupState scenarioE).ready_ops ∧ 1 ∈ (setupState scenarioE).ready_ops ∧
    (SortOperationsInSequence scenarioE = .error Error.AmbiguousMatch ∧
    SortOperationsInSequence scenarioE = .error Error.AmbiguousMatch) :=
  ⟨by decide, rfl, rfl, by decide, by decide, by decide,
    C10_AmbiguousMatch scenarioE [mkDesc "fill" [] ["a"]] (setupState scenarioE)
      (setupState scenarioE) [] 0 (by decide) rfl rfl rfl 0 1 (by decide) (by decide)
      (by decide) rfl rfl⟩

/-! ## Failures of BuildOperationAdjList and of the setup phase -/

theorem addProducers_error (g : Graph) (n : Nat) :
    ∀ (ps : List Nat) (adj : AdjList) (e : Error),
      addProducers g n ps adj = .error e → e = Error.MalformedGraph := by
  intro ps
  induction ps with
  | nil => intro adj e h; simp [addProducers] at h
  | cons p rest ih =>
    intro adj e h
    unfold addProducers at h
    split at h
    · exact ih _ e h
    · cases h; rfl

theorem addInputs_error (g : Graph) (n : Nat) :
    ∀ (vs : List Nat) (adj : AdjList) (e : Error),
      addInputs g n vs adj = .error e → e = Error.MalformedGraph := by
  intro vs
  induction vs with
  | nil => intro adj e h; simp [addInputs] at h
  | cons v rest ih =>
    intro adj e h
    unfold addInputs at h
    cases hv : addProducers g n (g.node v).inputs adj with
    | error e' =>
      rw [hv] at h
      cases h
      exact addProducers_error g n _ adj e hv
    | ok adj1 =>
      rw [hv] at h
      exact ih adj1 e h

theorem buildLoop_error (g : Graph) :
    ∀ (ns : List Nat) (adj : AdjList) (e : Error),
      buildLoop g ns adj = .error e → e = Error.MalformedGraph := by
  intro ns
  induction ns with
  | nil => intro adj e h; simp [buildLoop] at h
  | cons n rest ih =>
    intro adj e h
    unfold buildLoop at h
    split at h
    · exact ih adj e h
    · cases ha : addInputs g n (g.node n).inputs
          (if (mapFind adj n).isNone then mapSet adj n [] else adj) with
      | error e' =>
        rw [ha] at h
        cases h
        exact addInputs_error g n _ _ e ha
      | ok adj1 =>
        rw [ha] at h
        exact ih adj1 e h

theorem producersAreOps_of_build (g : Graph) (adj : AdjList)
    (h : BuildOperationAdjList g = .ok adj) : ProducersAreOps g := by
  intro n hn hop v hv p hp
  exact (build_ok g adj h).2.2.2 n ⟨hn, hop⟩ p ⟨v, hv, hp⟩

theorem hasNonOpProducer_iff (g : Graph) : HasNonOpProducer g ↔ ¬ ProducersAreOps g := by
  unfold HasNonOpProducer ProducersAreOps
  push_neg
  constructor
  · rintro ⟨n, hn, hop, v, hv, p, hp, hne⟩
    exact ⟨n, hn, hop, v, hv, p, hp, hne⟩
  · rintro ⟨n, hn, hop, v, hv, p, hp, hne⟩
    exact ⟨n, hn, hop, v, hv, p, hp, hne⟩

/-- The function `BuildOperationAdjList` fails, with `MalformedGraph`, exactly
when some producer of an input of an operation node is not an operation. -/
theorem build_error_iff (g : Graph) :
    BuildOperationAdjList g = .error Error.MalformedGraph ↔ ¬ ProducersAreOps g := by
  constructor
  · intro h hp
    obtain ⟨adj, e⟩ := build_total g hp
    rw [e] at h
    cases h
  · intro hp
    cases h : BuildOperationAdjList g with
    | ok adj => exact absurd (producersAreOps_of_build g adj h) hp
    | error e => rw [buildLoop_error g g.nodes [] e h]

theorem precedingLoop_error (g : Graph) (node : Nat) :
    ∀ (ins pre : List Nat) (pend : Nat → List Nat) (e : Error),
      precedingLoop g node ins pre pend = .error e → e = Error.MalformedGraph := by
  intro ins
  induction ins with
  | nil => intro pre pend e h; simp [precedingLoop] at h
  | cons i rest ih =>
    intro pre pend e h
    unfold precedingLoop at h
    split at h
    · split at h
      · exact ih _ _ e h
      · split at h
        · exact ih _ _ e h
        · cases h; rfl
      · cases h; rfl
    · cases h; rfl

theorem setupLoop_error (g : Graph) :
    ∀ (ns : List Nat) (s : SeqState) (e : Error),
      setupLoop g ns s = .error e → e = Error.MalformedGraph := by
  intro ns
  induction ns with
  | nil => intro s e h; simp [setupLoop] at h
  | cons n rest ih =>
    intro s e h
    unfold setupLoop at h
    split at h
    · cases hp : precedingLoop g n (g.node n).inputs [] s.pending_ops with
      | error e' =>
        rw [hp] at h
        cases h
        exact precedingLoop_error g n _ _ _ e hp
      | ok r =>
        rw [hp] at h
        exact ih _ e h
    · exact ih s e h

/-- A graph with a violation of the checks of the setup phase makes the setup
loop fail with `MalformedGraph`. -/
theorem setup_error_of_violation (g : Graph) (hv : HasSetupViolation g) :
    setupLoop g g.nodes initState = .error Error.MalformedGraph := by
  cases h : setupLoop g g.nodes initState with
  | error e => rw [setupLoop_error g g.nodes initState e h]
  | ok s0 =>
    exfalso
    have hinv := setup_inv g s0 h
    obtain ⟨n, hn, hop, i, hi, hviol⟩ := hv
    obtain ⟨h1, h2⟩ := hinv.struct n ((isOpNode_iff g n).mpr ⟨hn, hop⟩) i hi
    rcases hviol with hvar | hlen | ⟨p, hp, hpop⟩
    · rw [hvar] at h1; cases h1
    · rcases h2 with e | ⟨p, e, _⟩
      · rw [e] at hlen; simp at hlen
      · rw [e] at hlen; simp at hlen
    · rcases h2 with e | ⟨q, e, hq⟩
      · rw [e] at hp; cases hp
      · rw [e] at hp
        cases hp
        rw [hq] at hpop
        cases hpop

/-! ## The claims on the failures -/

/-- C12, as stated, fails: in `twoProducerGraph` the input variable 2 of the
operation node 3 has the two producers 0 and 1, both operations, and
`BuildOperationAdjList` returns a map, with both producers in the set of 3. -/
theorem C12_counterexample :
    IsOpNode twoProducerGraph 3 ∧ 2 ∈ (twoProducerGraph.node 3).inputs ∧
    (twoProducerGraph.node 2).inputs = [0, 1] ∧
    (∀ p ∈ (twoProducerGraph.node 2).inputs, IsOpNode twoProducerGraph p) ∧
    BuildOperationAdjList twoProducerGraph = .ok [(0, []), (1, []), (3, [0, 1])] :=
  ⟨by decide, by decide, rfl, by decide, rfl⟩

/-- C12, amended. The function `BuildOperationAdjList` does not look at the
number of producers of a variable: it fails with `MalformedGraph` if and only
if some producer of an input of an operation node is not an operation, and on
every other graph, also one with an input variable that has more than one
producer, it returns a map in which the set of an operation node holds every
producer of its inputs. -/
theorem C12_BuildOperationAdjList_failure (g : Graph) :
    (BuildOperationAdjList g = .error Error.MalformedGraph ↔ HasNonOpProducer g) ∧
    (¬ HasNonOpProducer g → ∃ adj, BuildOperationAdjList g = .ok adj ∧
      ∀ n, IsOpNode g n → ∃ r, mapFind adj n = some r ∧
        ∀ p, p ∈ r ↔ ∃ v ∈ (g.node n).inputs, p ∈ (g.node v).inputs) := by
  refine ⟨(build_error_iff g).trans (hasNonOpProducer_iff g).symm, ?_⟩
  intro hno
  have hp : ProducersAreOps g := by
    by_contra h
    exact hno ((hasNonOpProducer_iff g).mpr h)
  obtain ⟨adj, h⟩ := build_total g hp
  obtain ⟨_, b2, b3, _⟩ := build_ok g adj h
  refine ⟨adj, h, ?_⟩
  intro n hn
  obtain ⟨r, hr⟩ := Option.isSome_iff_exists.mp ((b2 n).mpr hn)
  exact ⟨r, hr, (b3 n r hr).2⟩

/-- C12 amended, at the graph with two producers of one variable. -/
theorem C12_witness :
    ¬ HasNonOpProducer twoProducerGraph ∧
    ∃ adj, BuildOperationAdjList twoProducerGraph = .ok adj ∧
      ∀ n, IsOpNode twoProducerGraph n → ∃ r, mapFind adj n = some r ∧
        ∀ p, p ∈ r ↔ ∃ v ∈ (twoProducerGraph.node n).inputs,
          p ∈ (twoProducerGraph.node v).inputs :=
  ⟨by decide, (C12_BuildOperationAdjList_failure twoProducerGraph).2 (by decide)⟩

/-- C13. On every graph that carries the canonical descriptor list, whatever
the list holds, `SortOperationsInSequence` fails with `MalformedGraph` when
some operation node of the graph has an input neighbour that is not a
variable, or an input with more than one producer, or an input whose single
producer is not an operation; the failure is that of the setup loop, which runs
before any descriptor is matched. -/
theorem C13_setup_failure (g : Graph) (ops : List OpDesc) (hops : g.allOpDescs = some ops)
    (hv : HasSetupViolation g) :
    setupLoop g g.nodes initState = .error Error.MalformedGraph ∧
    SortOperationsInSequence g = .error Error.MalformedGraph := by
  have h := setup_error_of_violation g hv
  refine ⟨h, ?_⟩
  unfold SortOperationsInSequence
  rw [hops]
  simp only [h]

/-- C13, at the graph with two producers of one variable and the empty
canonical list. -/
theorem C13_witness :
    twoProducerGraph.allOpDescs = some [] ∧ HasSetupViolation twoProducerGraph ∧
    (setupLoop twoProducerGraph twoProducerGraph.nodes initState
      = .error Error.MalformedGraph ∧
    SortOperationsInSequence twoProducerGraph = .error Error.MalformedGraph) :=
  ⟨rfl, ⟨3, by decide, by decide, 2, by decide, Or.inr (Or.inl (by decide))⟩,
    C13_setup_failure twoProducerGraph [] rfl
      ⟨3, by decide, by decide, 2, by decide, Or.inr (Or.inl (by decide))⟩⟩

/-- C14. On every graph in which some input neighbour of an operation node has
an input neighbour that is not an operation, `BuildOperationAdjList` fails with
`MalformedGraph`, and so do `HasCircle` and `TopologySortOperations`, which
call it. -/
theorem C14_nonOp_producer (g : Graph) (h : HasNonOpProducer g) :
    BuildOperationAdjList g = .error Error.MalformedGraph ∧
    HasCircle g = .error Error.MalformedGraph ∧
    TopologySortOperations g = .error Error.MalformedGraph := by
  have hb := (build_error_iff g).mpr ((hasNonOpProducer_iff g).mp h)
  refine ⟨hb, ?_, ?_⟩
  · unfold HasCircle
    rw [hb]
  · unfold TopologySortOperations
    rw [hb]

/-- C14, at the graph in which a variable produces a variable. -/
theorem C14_witness :
    HasNonOpProducer varProducerGraph ∧
    (BuildOperationAdjList varProducerGraph = .error Error.MalformedGraph ∧
    HasCircle varProducerGraph = .error Error.MalformedGraph ∧
    TopologySortOperations varProducerGraph = .error Error.MalformedGraph) :=
  ⟨by decide, C14_nonOp_producer varProducerGraph (by decide)⟩

/-! ## The setup phase and the adjacency map -/

theorem precedingLoop_total (g : Graph) (node : Nat) :
    ∀ (ins pre : List Nat) (pend : Nat → List Nat),
      (∀ i ∈ ins, g.IsVar i = true ∧
        ((g.node i).inputs = [] ∨ ∃ p, (g.node i).inputs = [p] ∧ g.IsOp p = true)) →
      ∃ pre' pend', precedingLoop g node ins pre pend = .ok (pre', pend') := by
  intro ins
  induction ins with
  | nil => intro pre pend _; exact ⟨pre, pend, rfl⟩
  | cons i rest ih =>
    intro pre pend h
    obtain ⟨hv, hin⟩ := h i (List.mem_cons_self _ _)
    have hrest := fun j hj => h j (List.mem_cons_of_mem _ hj)
    unfold precedingLoop
    rw [if_pos hv]
    rcases hin with e | ⟨p, e, hp⟩
    · rw [e]
      exact ih pre pend hrest
    · rw [e]
      simp only [if_pos hp]
      exact ih _ _ hrest

/-- After a successful setup the set `preceding_ops` of an operation node and
its entry in the map of `BuildOperationAdjList` have the same members. -/
theorem precOps_eq_entry (g : Graph) (adj : AdjList) (s0 : SeqState)
    (hbuild : BuildOperationAdjList g = .ok adj)
    (hsetup : setupLoop g g.nodes initState = .ok s0) (n : Nat) (hn : IsOpNode g n) :
    ∃ r, mapFind adj n = some r ∧ (∀ p, p ∈ precOps g n ↔ p ∈ r) ∧
      (precOps g n).length = r.length := by
  obtain ⟨_, b2, b3, _⟩ := build_ok g adj hbuild
  obtain ⟨r, hr⟩ := Option.isSome_iff_exists.mp ((b2 n).mpr hn)
  have hinv := setup_inv g s0 hsetup
  have hmem : ∀ p, p ∈ precOps g n ↔ p ∈ r := by
    intro p
    rw [mem_precOps g n p (hinv.struct n hn), (b3 n r hr).2 p]
  refine ⟨r, hr, hmem, ?_⟩
  have hperm : (precOps g n).Perm r :=
    (List.perm_ext_iff_of_nodup (nodup_precFold g _ [] List.nodup_nil) (b3 n r hr).1).mpr hmem
  exact hperm.length_eq

theorem pending_pos (g : Graph) (s : SeqState) (out : List Nat) (f : Nat)
    (hinv : SeqInv g s out) (hf : f ∈ s.ready_ops) :
    ∀ n ∈ s.pending_ops f, ∃ c, s.op_deps n = some c ∧ 1 ≤ c := by
  obtain ⟨_, hfout, _⟩ := (hinv.ready f).mp hf
  intro n hn
  obtain ⟨hnop, hfn⟩ := (hinv.pend f n).mp hn
  refine ⟨_, hinv.deps n hnop, ?_⟩
  have := outstanding_snoc_mem (precOps g n) out f (nodup_precFold g _ [] List.nodup_nil)
    hfn hfout
  omega

/-- A successful run of the main loop passes, before the `k`-th descriptor,
through a state that satisfies the invariant, with the first `k` nodes of the
result as output, and finds the `k`-th node of the result in its ready set. -/
theorem seqLoop_prefix (g : Graph) (ops : List OpDesc) (s0 s' : SeqState) (ret : List Nat)
    (hinv0 : SeqInv g s0 []) (h : seqLoop g ops s0 [] = .ok (s', ret)) (k : Nat)
    (hk : k < ops.length) :
    ∃ s f, seqLoop g (ops.take k) s0 [] = .ok (s, ret.take k) ∧ SeqInv g s (ret.take k) ∧
      ret[k]? = some f ∧ f ∈ s.ready_ops := by
  have hsplit : ops.take k ++ ops.drop k = ops := List.take_append_drop k ops
  rw [← hsplit, seqLoop_append] at h
  cases hp : seqLoop g (ops.take k) s0 [] with
  | error e => rw [hp] at h; cases h
  | ok r =>
    obtain ⟨s, out⟩ := r
    rw [hp] at h
    simp only at h
    obtain ⟨hinv, found, e1, hall⟩ := seqLoop_inv g _ s0 s [] out hinv0 hp
    simp only [List.nil_append] at e1
    have hlen : out.length = k := by
      rw [e1, ← hall.length_eq, List.length_take]
      omega
    rw [List.drop_eq_getElem_cons hk] at h
    unfold seqLoop at h
    cases hs : seqStep g ops[k] s with
    | error e => rw [hs] at h; cases h
    | ok r1 =>
      obtain ⟨s1, f⟩ := r1
      rw [hs] at h
      simp only at h
      obtain ⟨hm, hinv1⟩ := seqStep_ok g _ s s1 out f hinv hs
      obtain ⟨_, found2, e2, _⟩ := seqLoop_inv g _ s1 s' (out ++ [f]) ret hinv1 h
      have hret : ret = out ++ f :: found2 := by rw [e2]; simp
      have htake : ret.take k = out := by
        rw [hret, ← hlen, List.take_left']
        rfl
      have hfr : f ∈ s.ready_ops := by
        have : f ∈ matching g ops[k] s.ready_ops := by rw [hm]; simp
        exact (List.mem_filter.mp this).1
      refine ⟨s, f, by rw [htake], by rw [htake]; exact hinv, ?_, hfr⟩
      rw [hret, ← hlen, List.getElem?_append_right (le_refl _)]
      simp

/-- The state in which the release loop reaches a node of a duplicate-free list
whose counters are all at least one: the nodes before it have been processed,
its own counter is untouched, and the ready set has grown by processed nodes
only. -/
theorem releaseLoop_prefix (L : List Nat) (deps : Nat → Option Nat) (ready : List Nat)
    (hn : L.Nodup) (hc : ∀ n ∈ L, ∃ c, deps n = some c ∧ 1 ≤ c)
    (pre : List Nat) (n : Nat) (post : List Nat) (hL : L = pre ++ n :: post) :
    ∃ dp r c, releaseLoop pre deps ready = .ok (dp, r) ∧ dp n = some c ∧ 1 ≤ c ∧
      dp n = deps n ∧ ∀ x ∈ r, x ∈ ready ∨ x ∈ pre := by
  subst hL
  have hpre : pre.Nodup := (List.nodup_append.mp hn).1
  have hnpre : n ∉ pre := by
    intro hmem
    exact (List.nodup_append.mp hn).2.2 hmem (List.mem_cons_self _ _)
  obtain ⟨dp, r, e, _, a2, a3, _⟩ := releaseLoop_ok pre deps ready hpre
    (fun m hm => hc m (List.mem_append_left _ hm))
  obtain ⟨c, hdc, hc1⟩ := hc n (List.mem_append_right _ (List.mem_cons_self _ _))
  refine ⟨dp, r, c, e, by rw [a2 n hnpre]; exact hdc, hc1, a2 n hnpre, ?_⟩
  intro x hx
  rcases (a3 x).mp hx with h | h
  · exact Or.inl h
  · exact Or.inr h.1

/-- A successful step of the main loop is the release loop on the pending list
of the node found, then the erasure of that node from the ready set. -/
theorem seqStep_release (g : Graph) (d : OpDesc) (s s1 : SeqState) (f : Nat)
    (h : seqStep g d s = .ok (s1, f)) :
    ∃ deps ready, releaseLoop (s.pending_ops f) s.op_deps s.ready_ops = .ok (deps, ready) ∧
      s1 = { op_deps := deps, pending_ops := s.pending_ops, ready_ops := ready.erase f } := by
  unfold seqStep at h
  cases hf : findLoop g d s.ready_ops none with
  | error e => rw [hf] at h; cases h
  | ok o =>
    rw [hf] at h
    cases o with
    | none => cases h
    | some fn =>
      simp only at h
      cases hr : releaseLoop (s.pending_ops fn) s.op_deps s.ready_ops with
      | error e => rw [hr] at h; cases h
      | ok p =>
        obtain ⟨deps, ready⟩ := p
        rw [hr] at h
        simp only [Except.ok.injEq, Prod.mk.injEq] at h
        obtain ⟨h1, h2⟩ := h
        subst h2
        exact ⟨deps, ready, hr, h1.symm⟩

/-- A successful run of the main loop, at its `k`-th descriptor: the state
before the step and the state after it both satisfy the invariant, and the step
finds the `k`-th node of the result. -/
theorem seqLoop_prefix_step (g : Graph) (ops : List OpDesc) (s0 s' : SeqState) (ret : List Nat)
    (hinv0 : SeqInv g s0 []) (h : seqLoop g ops s0 [] = .ok (s', ret)) (k : Nat)
    (hk : k < ops.length) :
    ∃ s f s1 d, ops[k]? = some d ∧
      seqLoop g (ops.take k) s0 [] = .ok (s, ret.take k) ∧ SeqInv g s (ret.take k) ∧
      ret[k]? = some f ∧ f ∈ s.ready_ops ∧ seqStep g d s = .ok (s1, f) ∧
      ret.take (k + 1) = ret.take k ++ [f] ∧
      seqLoop g (ops.take (k + 1)) s0 [] = .ok (s1, ret.take (k + 1)) ∧
      SeqInv g s1 (ret.take (k + 1)) := by
  have hsplit : ops.take k ++ ops.drop k = ops := List.take_append_drop k ops
  have h0 := h
  rw [← hsplit, seqLoop_append] at h
  cases hp : seqLoop g (ops.take k) s0 [] with
  | error e => rw [hp] at h; cases h
  | ok r =>
    obtain ⟨s, out⟩ := r
    rw [hp] at h
    simp only at h
    obtain ⟨hinv, found, e1, hall⟩ := seqLoop_inv g _ s0 s [] out hinv0 hp
    simp only [List.nil_append] at e1
    have hlen : out.length = k := by
      rw [e1, ← hall.length_eq, List.length_take]
      omega
    rw [List.drop_eq_getElem_cons hk] at h
    unfold seqLoop at h
    generalize hd : ops[k] = d at h
    have hdk : ops[k]? = some d := by
      rw [List.getElem?_eq_getElem hk, hd]
    cases hs : seqStep g d s with
    | error e => rw [hs] at h; cases h
    | ok r1 =>
      obtain ⟨s1, f⟩ := r1
      rw [hs] at h
      simp only at h
      obtain ⟨hm, hinv1⟩ := seqStep_ok g _ s s1 out f hinv hs
      obtain ⟨_, found2, e2, _⟩ := seqLoop_inv g _ s1 s' (out ++ [f]) ret hinv1 h
      have hret : ret = out ++ f :: found2 := by rw [e2]; simp
      have htake : ret.take k = out := by
        rw [hret, ← hlen, List.take_left']
        rfl
      have hfk : ret[k]? = some f := by
        rw [hret, ← hlen, List.getElem?_append_right (le_refl _)]
        simp
      have htake1 : ret.take (k + 1) = ret.take k ++ [f] := by
        rw [List.take_succ, hfk]
        rfl
      have hfr : f ∈ s.ready_ops := by
        have : f ∈ matching g d s.ready_ops := by rw [hm]; simp
        exact (List.mem_filter.mp this).1
      have hrun1 : seqLoop g (ops.take (k + 1)) s0 [] = .ok (s1, out ++ [f]) := by
        have : ops.take (k + 1) = ops.take k ++ [d] := by
          rw [List.take_succ, hdk]
          rfl
        rw [this, seqLoop_append, hp]
        simp only [seqLoop, hs]
      refine ⟨s, f, s1, d, hdk, by rw [htake], by rw [htake]; exact hinv, hfk, hfr, hs,
        htake1, ?_, ?_⟩
      · rw [htake1, htake]; exact hrun1
      · rw [htake1, htake]; exact hinv1

/-! ## The claims on the setup phase and on the counters -/

/-- C18. When `BuildOperationAdjList` and the setup phase of
`SortOperationsInSequence` both succeed, for every operation node the set
`preceding_ops` that the setup computes is duplicate-free and has the members
of the node's entry in the map, the counter `op_deps` of the node is the size
of that entry, and the initial ready set holds exactly the keys of the map
whose set is empty. -/
theorem C18_setup_refines_adjList (g : Graph) (adj : AdjList) (s0 : SeqState)
    (hbuild : BuildOperationAdjList g = .ok adj)
    (hsetup : setupLoop g g.nodes initState = .ok s0) :
    (∀ n, IsOpNode g n → ∃ r, mapFind adj n = some r ∧
      (∀ pend, ∃ pre pend',
        precedingLoop g n (g.node n).inputs [] pend = .ok (pre, pend') ∧
        pre.Nodup ∧ (∀ p, p ∈ pre ↔ p ∈ r) ∧ pre.length = r.length) ∧
      s0.op_deps n = some r.length) ∧
    (∀ x, x ∈ s0.ready_ops ↔ mapFind adj x = some []) := by
  have hinv := setup_inv g s0 hsetup
  obtain ⟨_, b2, _, _⟩ := build_ok g adj hbuild
  constructor
  · intro n hn
    obtain ⟨r, hr, hmem, hlen⟩ := precOps_eq_entry g adj s0 hbuild hsetup n hn
    refine ⟨r, hr, ?_, ?_⟩
    · intro pend
      obtain ⟨pre, pend', e⟩ := precedingLoop_total g n (g.node n).inputs [] pend
        (hinv.struct n hn)
      have hpre : pre = precOps g n := (precedingLoop_ok g n _ _ _ _ _ e).2.1
      subst hpre
      exact ⟨_, pend', e, nodup_precFold g _ [] List.nodup_nil, hmem, hlen⟩
    · rw [hinv.deps n hn, outstanding_nil, hlen]
  · intro x
    rw [hinv.ready x]
    constructor
    · rintro ⟨hx, _, hP⟩
      obtain ⟨r, hr, hmem, _⟩ := precOps_eq_entry g adj s0 hbuild hsetup x hx
      rw [hr]
      congr 1
      apply List.eq_nil_iff_forall_not_mem.mpr
      intro p hp
      have := hP p ((hmem p).mpr hp)
      simp at this
    · intro hx
      have hxop : IsOpNode g x := (b2 x).mp (by simp [hx])
      obtain ⟨r, hr, hmem, _⟩ := precOps_eq_entry g adj s0 hbuild hsetup x hxop
      rw [hx] at hr
      cases hr
      refine ⟨hxop, by simp, ?_⟩
      intro p hp
      exact absurd ((hmem p).mp hp) (by simp)

/-- C18, at the chain of three operations. -/
theorem C18_witness :
    BuildOperationAdjList (chainGraph []) = .ok [(0, []), (2, [0]), (4, [2])] ∧
    setupLoop (chainGraph []) (chainGraph []).nodes initState
      = .ok (setupState (chainGraph [])) ∧
    ∀ x, x ∈ (setupState (chainGraph [])).ready_ops ↔
      mapFind [(0, []), (2, [0]), (4, [2])] x = some [] :=
  ⟨rfl, rfl, (C18_setup_refines_adjList (chainGraph []) [(0, []), (2, [0]), (4, [2])]
    (setupState (chainGraph [])) rfl rfl).2⟩

/-- C19. When `SortOperationsInSequence` succeeds the returned nodes are
pairwise distinct.  At the `k`-th descriptor the main loop is in a state `s`
whose ready set holds the `k`-th returned node `f` and none of the nodes output
before; the step on that descriptor succeeds and leaves a state `s1` whose ready
set holds none of the nodes output so far, so a node that was matched and
erased is not inserted again.  The pending list of `f`, over which the step
decrements, has no node twice and none of the nodes output so far; when the
release loop reaches a node of that list, after the nodes before it, the
counter it reads is at least one, so no decrement wraps around, and the ready
set still holds no node output before; after the step the counter of every node
of the list is one less than before it and every other counter is unchanged.
Before and after the step the counter of an operation node is the number of
its distinct preceding operations not yet output, which is at most their
number. -/
theorem C19_SortInSequence_distinct (g : Graph) (ops : List OpDesc) (s0 : SeqState)
    (ret : List Nat) (hops : g.allOpDescs = some ops)
    (hsetup : setupLoop g g.nodes initState = .ok s0)
    (h : SortOperationsInSequence g = .ok ret) :
    ret.Nodup ∧
    ∀ k, k < ops.length → ∃ s f s1 d,
      seqLoop g (ops.take k) s0 [] = .ok (s, ret.take k) ∧ ret[k]? = some f ∧
      f ∈ s.ready_ops ∧ (∀ x ∈ ret.take k, x ∉ s.ready_ops) ∧
      (∀ n ∈ s.pending_ops f, ∃ c, s.op_deps n = some c ∧ 1 ≤ c ∧ decr c = c - 1 ∧
        s1.op_deps n = some (c - 1)) ∧
      ops[k]? = some d ∧ seqStep g d s = .ok (s1, f) ∧
      seqLoop g (ops.take (k + 1)) s0 [] = .ok (s1, ret.take (k + 1)) ∧
      (s.pending_ops f).Nodup ∧
      (∀ n ∈ s.pending_ops f, n ∉ ret.take (k + 1)) ∧
      (∀ pre n post, s.pending_ops f = pre ++ n :: post →
        ∃ dp r c, releaseLoop pre s.op_deps s.ready_ops = .ok (dp, r) ∧
          dp n = some c ∧ 1 ≤ c ∧ decr c = c - 1 ∧
          ∀ x ∈ r, x ∉ ret.take k) ∧
      (∀ n, n ∉ s.pending_ops f → s1.op_deps n = s.op_deps n) ∧
      (∀ x ∈ ret.take (k + 1), x ∉ s1.ready_ops) ∧
      (∀ n, IsOpNode g n →
        s.op_deps n = some (outstanding (precOps g n) (ret.take k)) ∧
        s1.op_deps n = some (outstanding (precOps g n) (ret.take (k + 1))) ∧
        outstanding (precOps g n) (ret.take (k + 1)) ≤ (precOps g n).length) := by
  obtain ⟨ops', s0', s', e1, e2, e3⟩ := sortSeq_ok g ret h
  rw [hops] at e1
  cases e1
  rw [hsetup] at e2
  cases e2
  have hinv0 := setup_inv g s0 hsetup
  obtain ⟨hfin, _⟩ := seqLoop_inv g ops s0 s' [] ret hinv0 e3
  refine ⟨hfin.outNodup, ?_⟩
  intro k hk
  obtain ⟨s, f, s1, d, hdk, hrun, hinv, hf, hfr, hstep, htake1, hrun1, hinv1⟩ :=
    seqLoop_prefix_step g ops s0 s' ret hinv0 e3 k hk
  obtain ⟨deps, ready, hrel, hs1⟩ := seqStep_release g d s s1 f hstep
  have hpos := pending_pos g s (ret.take k) f hinv hfr
  have hnd := hinv.pendNodup f
  obtain ⟨deps', ready', hrel', b1, b2, _, _⟩ :=
    releaseLoop_ok (s.pending_ops f) s.op_deps s.ready_ops hnd hpos
  rw [hrel] at hrel'
  simp only [Except.ok.injEq, Prod.mk.injEq] at hrel'
  obtain ⟨hd1, hd2⟩ := hrel'
  subst hd1 hd2
  have hs1d : s1.op_deps = deps := by rw [hs1]
  have hready : ∀ x ∈ ret.take k, x ∉ s.ready_ops := by
    intro x hx hxr
    exact ((hinv.ready x).mp hxr).2.1 hx
  have hfout : f ∉ ret.take k := ((hinv.ready f).mp hfr).2.1
  have hpendout : ∀ n ∈ s.pending_ops f, n ∉ ret.take k := by
    intro n hn hmem
    obtain ⟨_, hfn⟩ := (hinv.pend f n).mp hn
    obtain ⟨i, hi, hget⟩ := List.getElem_of_mem hmem
    rw [← hget] at hfn
    obtain ⟨j, _, hj⟩ := hinv.ordered i hi f hfn
    exact hfout (List.mem_iff_getElem?.mpr ⟨j, hj⟩)
  have hpendf : ∀ n ∈ s.pending_ops f, n ≠ f := by
    intro n hn hnf
    rw [hnf] at hn
    obtain ⟨c, hc, hc1⟩ := hpos f hn
    obtain ⟨hfop, _, hfP⟩ := (hinv.ready f).mp hfr
    rw [hinv.deps f hfop] at hc
    have hz := (outstanding_eq_zero (precOps g f) (ret.take k)).mpr hfP
    simp only [Option.some.injEq] at hc
    omega
  refine ⟨s, f, s1, d, hrun, hf, hfr, hready, ?_, hdk, hstep, hrun1, hnd, ?_, ?_, ?_, ?_, ?_⟩
  · intro n hn
    obtain ⟨c, hc, hc1⟩ := hpos n hn
    exact ⟨c, hc, hc1, decr_pos c hc1, by rw [hs1d]; exact b1 n hn c hc⟩
  · intro n hn
    rw [htake1, List.mem_append, List.mem_singleton]
    rintro (h1 | h1)
    · exact hpendout n hn h1
    · exact hpendf n hn h1
  · intro pre n post hL
    obtain ⟨dp, r, c, e, a1, a2, _, a4⟩ :=
      releaseLoop_prefix (s.pending_ops f) s.op_deps s.ready_ops hnd hpos pre n post hL
    refine ⟨dp, r, c, e, a1, a2, decr_pos c a2, ?_⟩
    intro x hx
    rcases a4 x hx with h1 | h1
    · exact fun hmem => hready x hmem h1
    · exact hpendout x (by rw [hL]; exact List.mem_append_left _ h1)
  · intro n hn
    rw [hs1d]
    exact b2 n hn
  · intro x hx hxr
    exact ((hinv1.ready x).mp hxr).2.1 hx
  · intro n hn
    refine ⟨hinv.deps n hn, hinv1.deps n hn, ?_⟩
    unfold outstanding
    exact List.length_filter_le _ _

/-- C19, at the chain of scenario C. -/
theorem C19_witness :
    (chainGraph [descD 1, descD 2, descD 3]).allOpDescs = some [descD 1, descD 2, descD 3] ∧
    setupLoop (chainGraph [descD 1, descD 2, descD 3])
      (chainGraph [descD 1, descD 2, descD 3]).nodes initState
      = .ok (setupState (chainGraph [descD 1, descD 2, descD 3])) ∧
    SortOperationsInSequence (chainGraph [descD 1, descD 2, descD 3]) = .ok [0, 2, 4] ∧
    [0, 2, 4].Nodup ∧
    ∀ k, k < [descD 1, descD 2, descD 3].length → ∃ s f s1 d,
      seqLoop (chainGraph [descD 1, descD 2, descD 3]) ([descD 1, descD 2, descD 3].take k) (setupState (chainGraph [descD 1, descD 2, descD 3])) [] = .ok (s, [0, 2, 4].take k) ∧ [0, 2, 4][k]? = some f ∧
      f ∈ s.ready_ops ∧ (∀ x ∈ [0, 2, 4].take k, x ∉ s.ready_ops) ∧
      (∀ n ∈ s.pending_ops f, ∃ c, s.op_deps n = some c ∧ 1 ≤ c ∧ decr c = c - 1 ∧
        s1.op_deps n = some (c - 1)) ∧
      [descD 1, descD 2, descD 3][k]? = some d ∧ seqStep (chainGraph [descD 1, descD 2, descD 3]) d s = .ok (s1, f) ∧
      seqLoop (chainGraph [descD 1, descD 2, descD 3]) ([descD 1, descD 2, descD 3].take (k + 1)) (setupState (chainGraph [descD 1, descD 2, descD 3])) [] = .ok (s1, [0, 2, 4].take (k + 1)) ∧
      (s.pending_ops f).Nodup ∧
      (∀ n ∈ s.pending_ops f, n ∉ [0, 2, 4].take (k + 1)) ∧
      (∀ pre n post, s.pending_ops f = pre ++ n :: post →
        ∃ dp r c, releaseLoop pre s.op_deps s.ready_ops = .ok (dp, r) ∧
          dp n = some c ∧ 1 ≤ c ∧ decr c = c - 1 ∧
          ∀ x ∈ r, x ∉ [0, 2, 4].take k) ∧
      (∀ n, n ∉ s.pending_ops f → s1.op_deps n = s.op_deps n) ∧
      (∀ x ∈ [0, 2, 4].take (k + 1), x ∉ s1.ready_ops) ∧
      (∀ n, IsOpNode (chainGraph [descD 1, descD 2, descD 3]) n →
        s.op_deps n = some (outstanding (precOps (chainGraph [descD 1, descD 2, descD 3]) n) ([0, 2, 4].take k)) ∧
        s1.op_deps n = some (outstanding (precOps (chainGraph [descD 1, descD 2, descD 3]) n) ([0, 2, 4].take (k + 1))) ∧
        outstanding (precOps (chainGraph [descD 1, descD 2, descD 3]) n) ([0, 2, 4].take (k + 1)) ≤ (precOps (chainGraph [descD 1, descD 2, descD 3]) n).length) :=
  ⟨rfl, rfl, rfl, C19_SortInSequence_distinct (chainGraph [descD 1, descD 2, descD 3])
    [descD 1, descD 2, descD 3] (setupState (chainGraph [descD 1, descD 2, descD 3]))
    [0, 2, 4] rfl rfl rfl⟩

/-! ## Termination of the depth-first searches -/

/-- The loop of `HasCircleHelper` makes its recursive calls on unvisited nodes
only: two functions that agree on them give the same loop. -/
theorem hasCircleLoop_congr
    (call1 call2 : Nat → List Nat → List Nat → Except Error (Bool × List Nat × List Nat))
    (hcall : ∀ i V T, i ∉ V → call1 i V T = call2 i V T) :
    ∀ (ins V T : List Nat), hasCircleLoop call1 ins V T = hasCircleLoop call2 ins V T := by
  intro ins
  induction ins with
  | nil => intro V T; rfl
  | cons i rest ih =>
    intro V T
    unfold hasCircleLoop
    by_cases hv : i ∈ V
    · rw [if_neg (not_not.mpr hv), if_neg (not_not.mpr hv), ih]
    · rw [if_pos hv, if_pos hv, hcall i V T hv]
      cases call2 i V T with
      | error e => rfl
      | ok r =>
        obtain ⟨b, v, t⟩ := r
        cases b with
        | true => rfl
        | false => simp only [ih]

theorem hasCircleLoop_mono
    (call1 call2 : Nat → List Nat → List Nat → Except Error (Bool × List Nat × List Nat))
    (hcall : ∀ i V T r, call1 i V T = .ok r → call2 i V T = .ok r) :
    ∀ (ins V T : List Nat) (r : Bool × List Nat × List Nat),
      hasCircleLoop call1 ins V T = .ok r → hasCircleLoop call2 ins V T = .ok r := by
  intro ins
  induction ins with
  | nil => intro V T r h; exact h
  | cons i rest ih =>
    intro V T r h
    unfold hasCircleLoop at h ⊢
    by_cases hv : i ∈ V
    · rw [if_neg (not_not.mpr hv)] at h ⊢
      by_cases ht : i ∈ T
      · rw [if_pos ht] at h ⊢
        exact h
      · rw [if_neg ht] at h ⊢
        exact ih V T r h
    · rw [if_pos hv] at h ⊢
      cases hc : call1 i V T with
      | error e => rw [hc] at h; cases h
      | ok r1 =>
        rw [hc] at h
        rw [hcall i V T r1 hc]
        obtain ⟨b, v, t⟩ := r1
        cases b with
        | true => exact h
        | false =>
          simp only at h ⊢
          by_cases ht : i ∈ t
          · rw [if_pos ht] at h ⊢
            exact h
          · rw [if_neg ht] at h ⊢
            exact ih v t r h

/-- More fuel does not change a result of `HasCircleHelper`. -/
theorem HasCircleHelper_fuel_succ (adj : AdjList) :
    ∀ (fuel node : Nat) (V T : List Nat) (r : Bool × List Nat × List Nat),
      HasCircleHelper adj fuel node V T = .ok r →
      HasCircleHelper adj (fuel + 1) node V T = .ok r := by
  intro fuel
  induction fuel with
  | zero => intro node V T r h; simp [HasCircleHelper] at h
  | succ fuel ih =>
    intro node V T r h
    unfold HasCircleHelper at h ⊢
    by_cases hv : node ∈ V
    · rw [if_neg (not_not.mpr hv)] at h ⊢
      exact h
    · rw [if_pos hv] at h ⊢
      cases hm : mapFind adj node with
      | none => rw [hm] at h; cases h
      | some ins =>
        rw [hm] at h
        simp only at h ⊢
        cases hl : hasCircleLoop (HasCircleHelper adj fuel) ins (setInsert V node)
            (setInsert T node) with
        | error e => rw [hl] at h; cases h
        | ok r1 =>
          rw [hl] at h
          rw [hasCircleLoop_mono _ _ ih ins _ _ r1 hl]
          exact h

theorem HasCircleHelper_fuel_le (adj : AdjList) (fuel fuel' node : Nat) (V T : List Nat)
    (r : Bool × List Nat × List Nat) (hle : fuel ≤ fuel')
    (h : HasCircleHelper adj fuel node V T = .ok r) :
    HasCircleHelper adj fuel' node V T = .ok r := by
  induction hle with
  | refl => exact h
  | step _ ih => exact HasCircleHelper_fuel_succ adj _ node V T r ih

theorem hasCircleLoop_total (adj : AdjList)
    (call : Nat → List Nat → List Nat → Except Error (Bool × List Nat × List Nat))
    (bound : Nat)
    (hcall : ∀ node V T, node ∉ V → (mapFind adj node).isSome → unvisited adj V ≤ bound →
      ∃ b V' T', call node V T = .ok (b, V', T') ∧ (∀ x ∈ V, x ∈ V') ∧ node ∈ V') :
    ∀ (ins V T : List Nat), (∀ p ∈ ins, (mapFind adj p).isSome) → unvisited adj V ≤ bound →
      ∃ b V' T', hasCircleLoop call ins V T = .ok (b, V', T') ∧ ∀ x ∈ V, x ∈ V' := by
  intro ins
  induction ins with
  | nil => intro V T _ _; exact ⟨false, V, T, rfl, fun _ h => h⟩
  | cons i rest ih =>
    intro V T hk hb
    have hrest := fun p hp => hk p (List.mem_cons_of_mem _ hp)
    unfold hasCircleLoop
    by_cases hv : i ∈ V
    · rw [if_neg (not_not.mpr hv)]
      split
      · exact ⟨true, V, T, rfl, fun _ h => h⟩
      · exact ih V T hrest hb
    · rw [if_pos hv]
      obtain ⟨b, V1, T1, e, h1, _⟩ := hcall i V T hv (hk i (List.mem_cons_self _ _)) hb
      rw [e]
      cases b with
      | true => exact ⟨true, V1, T1, rfl, h1⟩
      | false =>
        simp only
        split
        · exact ⟨true, V1, T1, rfl, h1⟩
        · obtain ⟨b', V', T', e', h2⟩ := ih V1 T1 hrest
            (le_trans (unvisited_mono adj V V1 h1) hb)
          exact ⟨b', V', T', e', fun x hx => h2 x (h1 x hx)⟩

/-- On a map whose sets contain only keys, a call of `HasCircleHelper` on an
unvisited key returns as soon as the fuel is the number of unvisited keys. -/
theorem HasCircleHelper_total (adj : AdjList) (hc : AdjClosed adj) :
    ∀ (fuel node : Nat) (V T : List Nat), node ∉ V → (mapFind adj node).isSome →
      unvisited adj V ≤ fuel →
      ∃ b V' T', HasCircleHelper adj fuel node V T = .ok (b, V', T') ∧
        (∀ x ∈ V, x ∈ V') ∧ node ∈ V' := by
  intro fuel
  induction fuel with
  | zero =>
    intro node V T hv hk hb
    have := unvisited_insert adj V node hk hv
    omega
  | succ fuel ih =>
    intro node V T hv hk hb
    obtain ⟨ins, hins⟩ := Option.isSome_iff_exists.mp hk
    have hb1 : unvisited adj (setInsert V node) ≤ fuel := by
      have := unvisited_insert adj V node hk hv
      omega
    obtain ⟨b, V', T', e, h1⟩ := hasCircleLoop_total adj (HasCircleHelper adj fuel) fuel ih
      ins (setInsert V node) (setInsert T node) (fun p hp => hc node p ⟨ins, hins, hp⟩) hb1
    have hsub : ∀ x ∈ V, x ∈ V' := fun x hx => h1 x ((mem_setInsert V node x).mpr (Or.inl hx))
    have hnode : node ∈ V' := h1 node ((mem_setInsert V node node).mpr (Or.inr rfl))
    unfold HasCircleHelper
    rw [if_pos hv, hins]
    simp only [e]
    cases b with
    | true => exact ⟨true, V', T', rfl, hsub, hnode⟩
    | false => exact ⟨false, V', T'.erase node, rfl, hsub, hnode⟩

theorem sortLoop_total (adj : AdjList)
    (call : Nat → List Nat → List Nat → Except Error (List Nat × List Nat)) (bound : Nat)
    (hcall : ∀ node V ret, node ∉ V → (mapFind adj node).isSome → unvisited adj V ≤ bound →
      ∃ V' ret', call node V ret = .ok (V', ret') ∧ ∀ x ∈ V, x ∈ V') :
    ∀ (ins V ret : List Nat), (∀ p ∈ ins, (mapFind adj p).isSome) → unvisited adj V ≤ bound →
      ∃ V' ret', sortLoop call ins V ret = .ok (V', ret') ∧ ∀ x ∈ V, x ∈ V' := by
  intro ins
  induction ins with
  | nil => intro V ret _ _; exact ⟨V, ret, rfl, fun _ h => h⟩
  | cons a rest ih =>
    intro V ret hk hb
    have hrest := fun p hp => hk p (List.mem_cons_of_mem _ hp)
    unfold sortLoop
    by_cases hv : a ∈ V
    · rw [if_neg (not_not.mpr hv)]
      exact ih V ret hrest hb
    · rw [if_pos hv]
      obtain ⟨V1, r1, e, h1⟩ := hcall a V ret hv (hk a (List.mem_cons_self _ _)) hb
      rw [e]
      simp only
      obtain ⟨V', ret', e', h2⟩ := ih V1 r1 hrest (le_trans (unvisited_mono adj V V1 h1) hb)
      exact ⟨V', ret', e', fun x hx => h2 x (h1 x hx)⟩

/-- On a map whose sets contain only keys, cyclic or not, a call of
`SortHelper` on an unvisited key returns. -/
theorem SortHelper_total (adj : AdjList) (hc : AdjClosed adj) :
    ∀ (fuel node : Nat) (V ret : List Nat), node ∉ V → (mapFind adj node).isSome →
      unvisited adj V ≤ fuel →
      ∃ V' ret', SortHelper adj fuel node V ret = .ok (V', ret') ∧ ∀ x ∈ V, x ∈ V' := by
  intro fuel
  induction fuel with
  | zero =>
    intro node V ret hv hk hb
    have := unvisited_insert adj V node hk hv
    omega
  | succ fuel ih =>
    intro node V ret hv hk hb
    obtain ⟨ins, hins⟩ := Option.isSome_iff_exists.mp hk
    have hb1 : unvisited adj (setInsert V node) ≤ fuel := by
      have := unvisited_insert adj V node hk hv
      omega
    obtain ⟨V', r', e, h1⟩ := sortLoop_total adj (SortHelper adj fuel) fuel ih
      ins (setInsert V node) ret (fun p hp => hc node p ⟨ins, hins, hp⟩) hb1
    unfold SortHelper
    rw [hins]
    simp only [e]
    exact ⟨V', r' ++ [node], rfl,
      fun x hx => h1 x ((mem_setInsert V node x).mpr (Or.inl hx))⟩

theorem sortRoots_total (adj : AdjList) (hc : AdjClosed adj) :
    ∀ (roots : List (Nat × List Nat)) (V ret : List Nat),
      (∀ kv ∈ roots, (mapFind adj kv.1).isSome) →
      ∃ ret', sortRoots adj (adj.length + 1) roots V ret = .ok ret' := by
  intro roots
  induction roots with
  | nil => intro V ret _; exact ⟨ret, rfl⟩
  | cons kv rest ih =>
    intro V ret hk
    have hrest := fun x hx => hk x (List.mem_cons_of_mem _ hx)
    unfold sortRoots
    by_cases hv : kv.1 ∈ V
    · rw [if_neg (not_not.mpr hv)]
      exact ih V ret hrest
    · rw [if_pos hv]
      obtain ⟨V1, r1, e, _⟩ := SortHelper_total adj hc (adj.length + 1) kv.1 V ret hv
        (hk kv (List.mem_cons_self _ _)) (le_trans (unvisited_le_length adj V) (Nat.le_succ _))
      rw [e]
      exact ih V1 r1 hrest

theorem keys_isSome (adj : AdjList) : ∀ kv ∈ adj, (mapFind adj kv.1).isSome := by
  intro kv hkv
  rw [mapFind_isSome_iff]
  exact List.mem_map_of_mem _ hkv

/-! ## The claims on termination and on the lookups -/

/-- C15. On a map whose sets contain only keys, with or without a cycle, the
recursion of `HasCircleHelper` ends: a call on a key returns the same result
for every fuel above the number of unvisited keys, its visited set contains
the old one and the node, so that the number of unvisited keys does not grow
and drops when the node was unvisited; the loop calls the function on
unvisited nodes only; and `HasCircleInternal` returns, and with it `HasCircle`
on a graph with this map. -/
theorem C15_HasCircle_terminates (adj : AdjList) (hc : AdjClosed adj) :
    (∀ node V T, (mapFind adj node).isSome →
      ∃ b V' T', (∀ fuel, unvisited adj V < fuel →
          HasCircleHelper adj fuel node V T = .ok (b, V', T')) ∧
        (∀ x ∈ V, x ∈ V') ∧ node ∈ V' ∧ unvisited adj V' ≤ unvisited adj V ∧
        (node ∉ V → unvisited adj V' < unvisited adj V)) ∧
    (∀ call1 call2 : Nat → List Nat → List Nat → Except Error (Bool × List Nat × List Nat),
      (∀ i V T, i ∉ V → call1 i V T = call2 i V T) →
      ∀ ins V T, hasCircleLoop call1 ins V T = hasCircleLoop call2 ins V T) ∧
    (∃ b, HasCircleInternal adj = .ok b ∧
      ∀ g, BuildOperationAdjList g = .ok adj → HasCircle g = .ok b) := by
  refine ⟨?_, hasCircleLoop_congr, ?_⟩
  · intro node V T hk
    by_cases hv : node ∈ V
    · refine ⟨false, V, T.erase node, ?_, fun _ h => h, hv, le_refl _, fun h => absurd hv h⟩
      intro fuel hf
      obtain ⟨f, rfl⟩ : ∃ f, fuel = f + 1 := ⟨fuel - 1, by omega⟩
      unfold HasCircleHelper
      rw [if_neg (not_not.mpr hv)]
    · have hlt := unvisited_insert adj V node hk hv
      obtain ⟨b, V', T', e, h1, h2⟩ := HasCircleHelper_total adj hc (unvisited adj V) node V T
        hv hk (le_refl _)
      have hmono : unvisited adj V' ≤ unvisited adj (setInsert V node) := by
        apply unvisited_mono
        intro x hx
        rcases (mem_setInsert V node x).mp hx with h | h
        · exact h1 x h
        · subst h; exact h2
      refine ⟨b, V', T', ?_, h1, h2, by omega, fun _ => by omega⟩
      intro fuel hf
      exact HasCircleHelper_fuel_le adj _ fuel node V T _ (by omega) e
  · obtain ⟨b, e, _⟩ := HasCircleInternal_spec adj hc
    refine ⟨b, e, ?_⟩
    intro g hg
    unfold HasCircle
    rw [hg]
    exact e

/-- C15, at a map with a cycle. -/
theorem C15_witness :
    AdjClosed loopAdj ∧ ∃ b, HasCircleInternal loopAdj = .ok b ∧
      ∀ g, BuildOperationAdjList g = .ok loopAdj → HasCircle g = .ok b :=
  have hc : AdjClosed loopAdj := by
    rintro n p ⟨ins, hi, hp⟩
    unfold loopAdj at hi ⊢
    by_cases h0 : n = 0
    · subst h0
      simp only [mapFind, if_true, Option.some.injEq] at hi
      subst hi
      simp only [List.mem_singleton] at hp
      subst hp
      rfl
    · by_cases h2 : n = 2
      · subst h2
        simp only [mapFind] at hi
        simp only [OfNat.zero_ne_ofNat, if_false, if_true, Option.some.injEq] at hi
        subst hi
        simp only [List.mem_singleton] at hp
        subst hp
        rfl
      · have h0' : ¬ 0 = n := fun e => h0 e.symm
        have h2' : ¬ 2 = n := fun e => h2 e.symm
        simp [mapFind, h0', h2'] at hi
  ⟨hc, (C15_HasCircle_terminates loopAdj hc).2.2⟩

/-- C20. When every neighbour of a graph node is a graph node and
`BuildOperationAdjList` succeeds, every member of every set of the map is a key
of the map, and the lookups `adj_list.at` of `HasCircleHelper` and of
`SortHelper` find their key: the two traversals of the map return, and
`HasCircle` and `TopologySortOperations` do not fail with the
`std::out_of_range` of a missing key. -/
theorem C20_lookups_hit (g : Graph) (adj : AdjList) (hcl : NeighboursClosed g)
    (h : BuildOperationAdjList g = .ok adj) :
    (∀ n r p, mapFind adj n = some r → p ∈ r → p ∈ mapKeys adj) ∧
    (∃ b, HasCircleInternal adj = .ok b) ∧
    (∃ ret, sortRoots adj (adj.length + 1) adj [] [] = .ok ret) ∧
    (∃ b, HasCircle g = .ok b) ∧
    TopologySortOperations g ≠ .error Error.OutOfRange := by
  have hc := adjClosed_of_build g adj h (producersInGraph_of_closed g hcl)
  obtain ⟨b, e, _⟩ := HasCircleInternal_spec adj hc
  obtain ⟨ret, er⟩ := sortRoots_total adj hc adj [] [] (keys_isSome adj)
  refine ⟨?_, ⟨b, e⟩, ⟨ret, er⟩, ⟨b, ?_⟩, ?_⟩
  · intro n r p hr hp
    rw [← mapFind_isSome_iff]
    exact hc n p ⟨r, hr, hp⟩
  · unfold HasCircle
    rw [h]
    exact e
  · unfold TopologySortOperations
    rw [h]
    simp only [e]
    cases b with
    | true => simp
    | false => simp only [er]; simp

/-- C20, at the graph with a cycle. -/
theorem C20_witness :
    NeighboursClosed loopGraph ∧ BuildOperationAdjList loopGraph = .ok loopAdj ∧
    ∀ n r p, mapFind loopAdj n = some r → p ∈ r → p ∈ mapKeys loopAdj :=
  ⟨by decide, rfl, (C20_lookups_hit loopGraph loopAdj (by decide) rfl).1⟩

/-! ## GraphNum: the work queue and termination -/

theorem traverse_nodes_spec (V : List Nat) :
    ∀ (l q qs : List Nat), (∀ x, x ∈ qs ↔ x ∈ q) → q.Nodup → qs.Nodup →
      (∀ x, x ∈ (traverse_nodes V l (q, qs)).2 ↔ x ∈ (traverse_nodes V l (q, qs)).1) ∧
      (traverse_nodes V l (q, qs)).1.Nodup ∧ (traverse_nodes V l (q, qs)).2.Nodup ∧
      (∀ x, x ∈ (traverse_nodes V l (q, qs)).1 ↔ x ∈ q ∨ (x ∈ l ∧ x ∉ V)) := by
  intro l
  induction l with
  | nil =>
    intro q qs h1 h2 h3
    exact ⟨h1, h2, h3, by simp [traverse_nodes]⟩
  | cons n rest ih =>
    intro q qs h1 h2 h3
    unfold traverse_nodes
    by_cases hn : n ∉ V ∧ n ∉ qs
    · rw [if_pos hn]
      have hnq : n ∉ q := fun h => hn.2 ((h1 n).mpr h)
      have h1' : ∀ x, x ∈ setInsert qs n ↔ x ∈ q ++ [n] := by
        intro x
        rw [mem_setInsert, List.mem_append, List.mem_singleton, h1]
      have h2' : (q ++ [n]).Nodup := by
        rw [List.nodup_append]
        refine ⟨h2, List.nodup_singleton _, ?_⟩
        intro a ha hb
        have : a = n := by simpa using hb
        subst this
        exact hnq ha
      obtain ⟨a1, a2, a3, a4⟩ := ih (q ++ [n]) (setInsert qs n) h1' h2' (nodup_setInsert _ _ h3)
      refine ⟨a1, a2, a3, ?_⟩
      intro x
      rw [a4, List.mem_append, List.mem_singleton, List.mem_cons]
      constructor
      · rintro ((h | h) | h)
        · exact Or.inl h
        · subst h; exact Or.inr ⟨Or.inl rfl, hn.1⟩
        · exact Or.inr ⟨Or.inr h.1, h.2⟩
      · rintro (h | ⟨h | h, hv⟩)
        · exact Or.inl (Or.inl h)
        · exact Or.inl (Or.inr h)
        · exact Or.inr ⟨h, hv⟩
    · rw [if_neg hn]
      obtain ⟨a1, a2, a3, a4⟩ := ih q qs h1 h2 h3
      refine ⟨a1, a2, a3, ?_⟩
      intro x
      rw [a4, List.mem_cons]
      constructor
      · rintro (h | h)
        · exact Or.inl h
        · exact Or.inr ⟨Or.inr h.1, h.2⟩
      · rintro (h | ⟨h | h, hv⟩)
        · exact Or.inl h
        · subst h
          have : x ∈ qs := by
            by_contra hq
            exact hn ⟨hv, hq⟩
          exact Or.inl ((h1 x).mp this)
        · exact Or.inr ⟨h, hv⟩

theorem seedLoop_some (V : List Nat) :
    ∀ (nodes : List Nat) (n : Nat), seedLoop V nodes = some n → n ∈ nodes ∧ n ∉ V := by
  intro nodes
  induction nodes with
  | nil => intro n h; simp [seedLoop] at h
  | cons a rest ih =>
    intro n h
    unfold seedLoop at h
    by_cases ha : a ∉ V
    · rw [if_pos ha] at h
      cases h
      exact ⟨List.mem_cons_self _ _, ha⟩
    · rw [if_neg ha] at h
      obtain ⟨h1, h2⟩ := ih n h
      exact ⟨List.mem_cons_of_mem _ h1, h2⟩

theorem seedLoop_none (V : List Nat) :
    ∀ (nodes : List Nat), seedLoop V nodes = none → ∀ x ∈ nodes, x ∈ V := by
  intro nodes
  induction nodes with
  | nil => intro _ x hx; simp at hx
  | cons a rest ih =>
    intro h x hx
    unfold seedLoop at h
    by_cases ha : a ∉ V
    · rw [if_pos ha] at h; cases h
    · rw [if_neg ha] at h
      rcases List.mem_cons.mp hx with e | e
      · subst e; exact not_not.mp ha
      · exact ih h x e

/-- While the visited set is smaller than the node set, the seeding loop finds
an unvisited node of the node set. -/
theorem seedLoop_finds (nodes V : List Nat) (hn : nodes.Nodup)
    (hlt : V.length < nodes.length) :
    ∃ n, seedLoop V nodes = some n ∧ n ∈ nodes ∧ n ∉ V := by
  cases h : seedLoop V nodes with
  | some n => exact ⟨n, rfl, seedLoop_some V nodes n h⟩
  | none =>
    exfalso
    have hsub : nodes ⊆ V := seedLoop_none V nodes h
    have := (List.subperm_of_subset hn hsub).length_le
    omega

theorem graphNumStep_cons (g : Graph) (nodes : List Nat) (s : GraphNumState) (cur : Nat)
    (q : List Nat) (h : s.q_nodes = cur :: q) :
    graphNumStep g nodes s =
      { visited_nodes := setInsert s.visited_nodes cur
        q_nodes := (traverse_nodes (setInsert s.visited_nodes cur) (g.node cur).outputs
          (traverse_nodes (setInsert s.visited_nodes cur) (g.node cur).inputs
            (q, s.q_set.erase cur))).1
        graph_nodes := s.graph_nodes
        g_nodes := setInsert s.g_nodes cur
        q_set := (traverse_nodes (setInsert s.visited_nodes cur) (g.node cur).outputs
          (traverse_nodes (setInsert s.visited_nodes cur) (g.node cur).inputs
            (q, s.q_set.erase cur))).2
        graph_count := s.graph_count } := by
  unfold graphNumStep
  rw [h]

theorem graphNumStep_nil (g : Graph) (nodes : List Nat) (s : GraphNumState) (n : Nat)
    (h : s.q_nodes = []) (hseed : seedLoop s.visited_nodes nodes = some n) :
    graphNumStep g nodes s =
      { visited_nodes := s.visited_nodes
        q_nodes := [n]
        graph_nodes := recordComponent s.graph_nodes s.g_nodes
        g_nodes := []
        q_set := setInsert s.q_set n
        graph_count := s.graph_count + 1 } := by
  unfold graphNumStep
  rw [h]
  simp only [hseed]

/-- What an iteration that dequeues a node does to the queue and to the
visited set. -/
theorem step_dequeue (g : Graph) (nodes : List Nat) (s : GraphNumState) (cur : Nat)
    (q : List Nat) (h : s.q_nodes = cur :: q) (hinv : QueueInv nodes s)
    (hne : s.visited_nodes.length ≠ nodes.length) :
    (graphNumStep g nodes s).visited_nodes = s.visited_nodes ++ [cur] ∧
    (graphNumStep g nodes s).g_nodes = setInsert s.g_nodes cur ∧
    (graphNumStep g nodes s).graph_nodes = s.graph_nodes ∧
    (graphNumStep g nodes s).graph_count = s.graph_count ∧
    (∀ x, x ∈ (graphNumStep g nodes s).q_nodes ↔
      x ∈ q ∨ ((x ∈ (g.node cur).inputs ∨ x ∈ (g.node cur).outputs) ∧
        x ∉ s.visited_nodes ∧ x ≠ cur)) ∧
    QueueInv nodes (graphNumStep g nodes s) := by
  have hcur : cur ∉ s.visited_nodes := hinv.disjoint cur (by rw [h]; exact List.mem_cons_self _ _)
  have hqn : (cur :: q).Nodup := by rw [← h]; exact hinv.queueNodup
  rw [List.nodup_cons] at hqn
  have hV : setInsert s.visited_nodes cur = s.visited_nodes ++ [cur] :=
    setInsert_of_not_mem _ _ hcur
  have hmemV : ∀ x, x ∈ s.visited_nodes ++ [cur] ↔ x ∈ s.visited_nodes ∨ x = cur := by
    intro x; simp
  have hqs : ∀ x, x ∈ s.q_set.erase cur ↔ x ∈ q := by
    intro x
    rw [hinv.qsetNodup.mem_erase_iff, hinv.qset, h, List.mem_cons]
    constructor
    · rintro ⟨h1, h2 | h2⟩
      · exact absurd h2 h1
      · exact h2
    · intro h2
      exact ⟨fun e => hqn.1 (e ▸ h2), Or.inr h2⟩
  obtain ⟨a1, a2, a3, a4⟩ := traverse_nodes_spec (s.visited_nodes ++ [cur])
    (g.node cur).inputs q (s.q_set.erase cur) hqs hqn.2 (hinv.qsetNodup.erase cur)
  obtain ⟨b1, b2, b3, b4⟩ := traverse_nodes_spec (s.visited_nodes ++ [cur])
    (g.node cur).outputs _ _ a1 a2 a3
  rw [graphNumStep_cons g nodes s cur q h, hV]
  have hmemq : ∀ x, x ∈ (traverse_nodes (s.visited_nodes ++ [cur]) (g.node cur).outputs
      (traverse_nodes (s.visited_nodes ++ [cur]) (g.node cur).inputs
        (q, s.q_set.erase cur))).1 ↔
      x ∈ q ∨ ((x ∈ (g.node cur).inputs ∨ x ∈ (g.node cur).outputs) ∧
        x ∉ s.visited_nodes ∧ x ≠ cur) := by
    intro x
    rw [b4, a4, hmemV]
    tauto
  refine ⟨rfl, rfl, rfl, rfl, hmemq, ?_⟩
  refine ⟨?_, b2, ?_, b1, b3, ?_⟩
  · show (s.visited_nodes ++ [cur]).Nodup
    rw [List.nodup_append]
    refine ⟨hinv.visitedNodup, List.nodup_singleton _, ?_⟩
    intro a ha hb
    have : a = cur := by simpa using hb
    subst this
    exact hcur ha
  · intro x hx
    show x ∉ s.visited_nodes ++ [cur]
    rw [hmemV]
    rcases (hmemq x).mp hx with hq | ⟨_, h2, h3⟩
    · rintro (hv | hv)
      · exact hinv.disjoint x (by rw [h]; exact List.mem_cons_of_mem _ hq) hv
      · exact hqn.1 (hv ▸ hq)
    · rintro (hv | hv)
      · exact h2 hv
      · exact h3 hv
  · show (s.visited_nodes ++ [cur]).length ≤ nodes.length
    have := hinv.bound
    simp only [List.length_append, List.length_singleton]
    omega

/-- What an iteration that finds the queue empty does. -/
theorem step_seed (g : Graph) (nodes : List Nat) (s : GraphNumState) (hn : nodes.Nodup)
    (h : s.q_nodes = []) (hinv : QueueInv nodes s)
    (hne : s.visited_nodes.length ≠ nodes.length) :
    ∃ n, n ∈ nodes ∧ n ∉ s.visited_nodes ∧
      (graphNumStep g nodes s).q_nodes = [n] ∧
      (graphNumStep g nodes s).visited_nodes = s.visited_nodes ∧
      (graphNumStep g nodes s).g_nodes = [] ∧
      (graphNumStep g nodes s).graph_nodes = recordComponent s.graph_nodes s.g_nodes ∧
      (graphNumStep g nodes s).graph_count = s.graph_count + 1 ∧
      QueueInv nodes (graphNumStep g nodes s) := by
  have hlt : s.visited_nodes.length < nodes.length := by
    have := hinv.bound
    omega
  obtain ⟨n, hseed, hn1, hn2⟩ := seedLoop_finds nodes s.visited_nodes hn hlt
  have hqs : s.q_set = [] := by
    apply List.eq_nil_iff_forall_not_mem.mpr
    intro x hx
    have := (hinv.qset x).mp hx
    rw [h] at this
    simp at this
  rw [graphNumStep_nil g nodes s n h hseed]
  refine ⟨n, hn1, hn2, rfl, rfl, rfl, rfl, rfl, ?_⟩
  refine ⟨hinv.visitedNodup, List.nodup_singleton _, ?_, ?_, ?_, hinv.bound⟩
  · intro x hx
    have : x = n := by simpa using hx
    subst this
    exact hn2
  · intro x
    show x ∈ setInsert s.q_set n ↔ x ∈ [n]
    rw [hqs, mem_setInsert]
    simp
  · show (setInsert s.q_set n).Nodup
    exact nodup_setInsert _ _ hinv.qsetNodup

theorem step_measure (g : Graph) (nodes : List Nat) (s : GraphNumState) (hn : nodes.Nodup)
    (hinv : QueueInv nodes s) (hne : s.visited_nodes.length ≠ nodes.length) :
    graphNumMeasure nodes (graphNumStep g nodes s) < graphNumMeasure nodes s := by
  have hb := hinv.bound
  unfold graphNumMeasure
  cases hq : s.q_nodes with
  | nil =>
    obtain ⟨n, _, _, e1, e2, _⟩ := step_seed g nodes s hn hq hinv hne
    rw [e1, e2]
    simp
  | cons cur q =>
    obtain ⟨e1, _⟩ := step_dequeue g nodes s cur q hq hinv hne
    rw [e1]
    simp only [List.length_append, List.length_singleton]
    split <;> simp <;> omega

theorem step_queueInv (g : Graph) (nodes : List Nat) (s : GraphNumState) (hn : nodes.Nodup)
    (hinv : QueueInv nodes s) (hne : s.visited_nodes.length ≠ nodes.length) :
    QueueInv nodes (graphNumStep g nodes s) := by
  cases hq : s.q_nodes with
  | nil =>
    obtain ⟨n, _, _, _, _, _, _, _, h⟩ := step_seed g nodes s hn hq hinv hne
    exact h
  | cons cur q => exact (step_dequeue g nodes s cur q hq hinv hne).2.2.2.2.2

theorem iterState_succ (g : Graph) (nodes : List Nat) (s : GraphNumState) (k : Nat) :
    iterState g nodes s (k + 1) = iterState g nodes (graphNumStep g nodes s) k := by
  unfold iterState
  rw [Function.iterate_succ_apply]

theorem iterState_succ' (g : Graph) (nodes : List Nat) (s : GraphNumState) (k : Nat) :
    iterState g nodes s (k + 1) = graphNumStep g nodes (iterState g nodes s k) := by
  unfold iterState
  rw [Function.iterate_succ_apply']

theorem dequeues_succ (g : Graph) (nodes : List Nat) (s : GraphNumState) :
    ∀ K, dequeues g nodes s (K + 1) =
      (if s.q_nodes = [] then 0 else 1) + dequeues g nodes (graphNumStep g nodes s) K := by
  intro K
  induction K with
  | zero => simp [dequeues, iterState]
  | succ K ih =>
    rw [dequeues, ih, dequeues, iterState_succ]
    omega

/-- The loop of `GraphNum` ends within the fuel given by the measure, the
invariant of the queue and any property kept by the loop body hold after every
iteration, and the iterations that dequeue a node are as many as the nodes still
to visit. -/
theorem graphNumLoop_run (g : Graph) (nodes : List Nat) (hn : nodes.Nodup)
    (P : GraphNumState → Prop)
    (hstep : ∀ s, QueueInv nodes s → P s → s.visited_nodes.length ≠ nodes.length →
      P (graphNumStep g nodes s)) :
    ∀ (fuel : Nat) (s : GraphNumState), QueueInv nodes s → P s →
      graphNumMeasure nodes s ≤ fuel →
      ∃ K, graphNumLoop g nodes fuel s = .ok (iterState g nodes s K) ∧
        (iterState g nodes s K).visited_nodes.length = nodes.length ∧
        (∀ j, j < K → (iterState g nodes s j).visited_nodes.length ≠ nodes.length) ∧
        (∀ j, j ≤ K → QueueInv nodes (iterState g nodes s j) ∧ P (iterState g nodes s j)) ∧
        dequeues g nodes s K + s.visited_nodes.length = nodes.length := by
  intro fuel
  induction fuel with
  | zero =>
    intro s hinv hP hm
    have hb := hinv.bound
    have he : s.visited_nodes.length = nodes.length := by
      unfold graphNumMeasure at hm
      omega
    refine ⟨0, ?_, he, by simp, ?_, by simp [dequeues, he]⟩
    · unfold graphNumLoop
      rw [if_neg (not_not.mpr he)]
      rfl
    · intro j hj
      have : j = 0 := by omega
      subst this
      exact ⟨hinv, hP⟩
  | succ fuel ih =>
    intro s hinv hP hm
    by_cases he : s.visited_nodes.length = nodes.length
    · refine ⟨0, ?_, he, by simp, ?_, by simp [dequeues, he]⟩
      · unfold graphNumLoop
        rw [if_neg (not_not.mpr he)]
        rfl
      · intro j hj
        have : j = 0 := by omega
        subst this
        exact ⟨hinv, hP⟩
    · have hinv1 := step_queueInv g nodes s hn hinv he
      have hP1 := hstep s hinv hP he
      have hm1 := step_measure g nodes s hn hinv he
      obtain ⟨K, e, h1, h2, h3, h4⟩ := ih (graphNumStep g nodes s) hinv1 hP1 (by omega)
      refine ⟨K + 1, ?_, ?_, ?_, ?_, ?_⟩
      · unfold graphNumLoop
        rw [if_pos he, iterState_succ]
        exact e
      · rw [iterState_succ]; exact h1
      · intro j hj
        cases j with
        | zero => exact he
        | succ j => rw [iterState_succ]; exact h2 j (by omega)
      · intro j hj
        cases j with
        | zero => exact ⟨hinv, hP⟩
        | succ j => rw [iterState_succ]; exact h3 j (by omega)
      · rw [dequeues_succ]
        cases hq : s.q_nodes with
        | nil =>
          obtain ⟨n, _, _, _, e2, _⟩ := step_seed g nodes s hn hq hinv he
          rw [e2] at h4
          simp only [if_true]
          omega
        | cons cur q =>
          obtain ⟨e1, _⟩ := step_dequeue g nodes s cur q hq hinv he
          rw [e1] at h4
          simp only [List.length_append, List.length_singleton] at h4
          simp only [reduceCtorEq, if_false]
          omega

theorem nodeSet_fold (l : List Nat) :
    ∀ acc : List Nat, acc.Nodup →
      (l.foldl setInsert acc).Nodup ∧ ∀ x, x ∈ l.foldl setInsert acc ↔ x ∈ acc ∨ x ∈ l := by
  induction l with
  | nil => intro acc h; exact ⟨h, by simp⟩
  | cons a rest ih =>
    intro acc h
    obtain ⟨h1, h2⟩ := ih (setInsert acc a) (nodup_setInsert acc a h)
    refine ⟨h1, ?_⟩
    intro x
    simp only [List.foldl_cons]
    rw [h2, mem_setInsert, List.mem_cons]
    tauto

theorem nodeSet_nodup (g : Graph) : (nodeSet g).Nodup :=
  (nodeSet_fold g.nodes [] List.nodup_nil).1

theorem mem_nodeSet (g : Graph) (x : Nat) : x ∈ nodeSet g ↔ x ∈ g.nodes := by
  unfold nodeSet
  rw [(nodeSet_fold g.nodes [] List.nodup_nil).2]
  simp

theorem queueInv_init (nodes : List Nat) : QueueInv nodes graphNumInit :=
  ⟨List.nodup_nil, List.nodup_nil, by simp [graphNumInit], by simp [graphNumInit],
    List.nodup_nil, by simp [graphNumInit]⟩

theorem measure_init (nodes : List Nat) :
    graphNumMeasure nodes graphNumInit ≤ 2 * nodes.length + 1 := by
  simp [graphNumMeasure, graphNumInit]

/-! ## GraphNum: the recorded components -/

theorem mem_recordComponent (gn : List (List Nat)) (g_nodes c : List Nat) :
    c ∈ recordComponent gn g_nodes ↔ c ∈ gn ∨ (c = g_nodes ∧ g_nodes ≠ []) := by
  unfold recordComponent
  cases g_nodes with
  | nil => simp
  | cons a t => simp

theorem length_recordComponent (gn : List (List Nat)) (g_nodes : List Nat) :
    (recordComponent gn g_nodes).length = gn.length + (if g_nodes = [] then 0 else 1) := by
  unfold recordComponent
  cases g_nodes with
  | nil => simp
  | cons a t => simp

theorem pairwise_recordComponent (gn : List (List Nat)) (g_nodes : List Nat)
    (h1 : gn.Pairwise (fun a b => ∀ x ∈ a, x ∉ b))
    (h2 : ∀ c ∈ gn, ∀ x ∈ c, x ∉ g_nodes) :
    (recordComponent gn g_nodes).Pairwise (fun a b => ∀ x ∈ a, x ∉ b) := by
  unfold recordComponent
  split
  · rw [List.pairwise_append]
    refine ⟨h1, List.pairwise_singleton _ _, ?_⟩
    intro a ha b hb
    have : b = g_nodes := by simpa using hb
    subst this
    exact h2 a ha
  · exact h1

theorem compInv_init (nodes : List Nat) : CompInv nodes graphNumInit :=
  ⟨by simp [graphNumInit], by simp [graphNumInit], by simp [graphNumInit],
    by simp [graphNumInit], by simp [graphNumInit], by simp [graphNumInit],
    by simp [graphNumInit]⟩

theorem step_compInv (g : Graph) (nodes : List Nat) (hn : nodes.Nodup)
    (hcl : ∀ n ∈ nodes, ∀ m, (m ∈ (g.node n).inputs ∨ m ∈ (g.node n).outputs) → m ∈ nodes)
    (s : GraphNumState) (hinv : QueueInv nodes s) (hc : CompInv nodes s)
    (hne : s.visited_nodes.length ≠ nodes.length) :
    CompInv nodes (graphNumStep g nodes s) := by
  cases hq : s.q_nodes with
  | nil =>
    obtain ⟨n, hn1, _, e1, e2, e3, e4, e5, _⟩ := step_seed g nodes s hn hq hinv hne
    refine ⟨?_, ?_, ?_, ?_, ?_, ?_, ?_⟩
    · rw [e2]; exact hc.visitedSub
    · intro x hx
      rw [e1] at hx
      have : x = n := by simpa using hx
      subst this
      exact hn1
    · intro x
      rw [e2, e3, e4, hc.cover x]
      constructor
      · rintro (h | ⟨c, hc1, hc2⟩)
        · right
          refine ⟨s.g_nodes, (mem_recordComponent _ _ _).mpr (Or.inr ⟨rfl, ?_⟩), h⟩
          intro e
          rw [e] at h
          simp at h
        · exact Or.inr ⟨c, (mem_recordComponent _ _ _).mpr (Or.inl hc1), hc2⟩
      · rintro (h | ⟨c, hc1, hc2⟩)
        · simp at h
        · rcases (mem_recordComponent _ _ _).mp hc1 with h | ⟨h, _⟩
          · exact Or.inr ⟨c, h, hc2⟩
          · subst h; exact Or.inl hc2
    · intro c hc1
      rw [e4] at hc1
      rcases (mem_recordComponent _ _ _).mp hc1 with h | ⟨h, h'⟩
      · exact hc.nonempty c h
      · rw [h]; exact h'
    · rw [e4]
      exact pairwise_recordComponent _ _ hc.pairwise hc.gDisjoint
    · intro c _ x _
      rw [e3]
      simp
    · rw [e5, e4, e1, e3, length_recordComponent, hc.count, hq]
      by_cases hg : s.g_nodes = []
      · simp [hg]
      · simp [hg]
  | cons cur q =>
    obtain ⟨e1, e2, e3, e4, e5, _⟩ := step_dequeue g nodes s cur q hq hinv hne
    have hcurq : cur ∈ s.q_nodes := by rw [hq]; exact List.mem_cons_self _ _
    have hcur : cur ∉ s.visited_nodes := hinv.disjoint cur hcurq
    refine ⟨?_, ?_, ?_, ?_, ?_, ?_, ?_⟩
    · intro x hx
      rw [e1] at hx
      rcases List.mem_append.mp hx with h | h
      · exact hc.visitedSub x h
      · have : x = cur := by simpa using h
        subst this
        exact hc.queueSub x hcurq
    · intro x hx
      rcases (e5 x).mp hx with h | ⟨h, _, _⟩
      · exact hc.queueSub x (by rw [hq]; exact List.mem_cons_of_mem _ h)
      · exact hcl cur (hc.queueSub cur hcurq) x h
    · intro x
      rw [e1, e2, e3, List.mem_append, List.mem_singleton, mem_setInsert, hc.cover x]
      constructor
      · rintro ((h | h) | h)
        · exact Or.inl (Or.inl h)
        · exact Or.inr h
        · exact Or.inl (Or.inr h)
      · rintro ((h | h) | h)
        · exact Or.inl (Or.inl h)
        · exact Or.inr h
        · exact Or.inl (Or.inr h)
    · rw [e3]; exact hc.nonempty
    · rw [e3]; exact hc.pairwise
    · intro c hc1 x hx
      rw [e3] at hc1
      rw [e2, mem_setInsert]
      rintro (h | h)
      · exact hc.gDisjoint c hc1 x hx h
      · subst h
        exact hcur ((hc.cover x).mpr (Or.inr ⟨c, hc1, hx⟩))
    · rw [e4, e3, e2, hc.count, hq]
      have hg : setInsert s.g_nodes cur ≠ [] := by
        intro e
        have : cur ∈ setInsert s.g_nodes cur := (mem_setInsert _ _ _).mpr (Or.inr rfl)
        rw [e] at this
        simp at this
      simp [hg]

/-- When the loop of `GraphNum` has ended on a graph whose neighbour lists
mention only graph nodes, the visited nodes are the graph nodes and the queue
is empty. -/
theorem final_visited (nodes : List Nat) (s : GraphNumState)
    (hinv : QueueInv nodes s) (hc : CompInv nodes s)
    (he : s.visited_nodes.length = nodes.length) :
    (∀ x, x ∈ s.visited_nodes ↔ x ∈ nodes) ∧ s.q_nodes = [] := by
  have hperm : s.visited_nodes.Perm nodes :=
    (List.subperm_of_subset hinv.visitedNodup hc.visitedSub).perm_of_length_le (by omega)
  refine ⟨fun x => hperm.mem_iff, ?_⟩
  apply List.eq_nil_iff_forall_not_mem.mpr
  intro x hx
  exact hinv.disjoint x hx (hperm.mem_iff.mpr (hc.queueSub x hx))

/-- The components that `GraphNum` has recorded when it returns, on a graph
whose neighbour lists mention only graph nodes. -/
theorem final_components (nodes : List Nat) (s : GraphNumState)
    (hinv : QueueInv nodes s) (hc : CompInv nodes s)
    (he : s.visited_nodes.length = nodes.length) :
    (recordComponent s.graph_nodes s.g_nodes).length = s.graph_count ∧
    (∀ c ∈ recordComponent s.graph_nodes s.g_nodes, c ≠ []) ∧
    (recordComponent s.graph_nodes s.g_nodes).Pairwise (fun a b => ∀ x ∈ a, x ∉ b) ∧
    (∀ x, (∃ c ∈ recordComponent s.graph_nodes s.g_nodes, x ∈ c) ↔ x ∈ nodes) := by
  obtain ⟨hv, hq⟩ := final_visited nodes s hinv hc he
  refine ⟨?_, ?_, pairwise_recordComponent _ _ hc.pairwise hc.gDisjoint, ?_⟩
  · rw [length_recordComponent, hc.count, hq]
    by_cases hg : s.g_nodes = []
    · simp [hg]
    · simp [hg]
  · intro c hc1
    rcases (mem_recordComponent _ _ _).mp hc1 with h | ⟨h, h'⟩
    · exact hc.nonempty c h
    · rw [h]; exact h'
  · intro x
    rw [← hv x, hc.cover x]
    constructor
    · rintro ⟨c, hc1, hc2⟩
      rcases (mem_recordComponent _ _ _).mp hc1 with h | ⟨h, _⟩
      · exact Or.inr ⟨c, h, hc2⟩
      · subst h; exact Or.inl hc2
    · rintro (h | ⟨c, hc1, hc2⟩)
      · refine ⟨s.g_nodes, (mem_recordComponent _ _ _).mpr (Or.inr ⟨rfl, ?_⟩), h⟩
        intro e
        rw [e] at h
        simp at h
      · exact ⟨c, (mem_recordComponent _ _ _).mpr (Or.inl hc1), hc2⟩

theorem nodeSet_closed (g : Graph) (hcl : NeighboursClosed g) :
    ∀ n ∈ nodeSet g, ∀ m, (m ∈ (g.node n).inputs ∨ m ∈ (g.node n).outputs) →
      m ∈ nodeSet g := by
  intro n hn m hm
  rw [mem_nodeSet] at hn ⊢
  exact hcl n hn m (List.mem_append.mpr hm)

theorem graphNumRun_of_loop (g : Graph) (s : GraphNumState)
    (h : graphNumLoop g (nodeSet g) (2 * (nodeSet g).length + 1) graphNumInit = .ok s) :
    graphNumRun g = .ok { s with graph_nodes := recordComponent s.graph_nodes s.g_nodes } := by
  unfold graphNumRun
  rw [h]

/-- The dump succeeds unless the flag is set, more than one component is
recorded and the stream is not good; it writes the text when the flag is set and
more than one component is recorded. -/
theorem graphNumDump_ok (g : Graph) (s : GraphNumState) (fl : String) (good : Bool)
    (hd : ¬ (fl.length ≠ 0 ∧ 1 < s.graph_nodes.length ∧ good = false)) :
    graphNumDump g s fl good = .ok
      (if fl.length ≠ 0 ∧ 1 < s.graph_nodes.length then some (dumpText g s.graph_nodes)
      else none) := by
  unfold graphNumDump
  by_cases h1 : fl.length ≠ 0
  · by_cases h2 : 1 < s.graph_nodes.length
    · have h3 : good = true := by
        cases good
        · exact absurd ⟨h1, h2, rfl⟩ hd
        · rfl
      simp [h1, h2, h3]
    · simp [h1, h2]
  · simp [h1]

/-- The dump fails when the flag is set, more than one component is recorded
and the stream is not good. -/
theorem graphNumDump_error (g : Graph) (s : GraphNumState) (fl : String)
    (h1 : fl.length ≠ 0) (h2 : 1 < s.graph_nodes.length) :
    graphNumDump g s fl false = .error Error.DiagnosticIoFailure := by
  unfold graphNumDump
  simp [h1, h2]

/-- When the traversal of `GraphNum` ends in the state `s`, the call returns
the count of `s` unless the flag is set, more than one component is recorded
and the stream is not good; the text is written when the flag is set and more
than one component is recorded. -/
theorem graphNum_ok_of_run (g : Graph) (s : GraphNumState) (fl : String) (good : Bool)
    (h : graphNumRun g = .ok s)
    (hd : ¬ (fl.length ≠ 0 ∧ 1 < s.graph_nodes.length ∧ good = false)) :
    GraphNum g fl good = .ok (s.graph_count,
      if fl.length ≠ 0 ∧ 1 < s.graph_nodes.length then some (dumpText g s.graph_nodes)
      else none) := by
  unfold GraphNum
  rw [h]
  simp only [graphNumDump_ok g s fl good hd]

/-- When the traversal of `GraphNum` ends in the state `s`, the flag is set,
more than one component is recorded and the stream is not good, the call
fails. -/
theorem graphNum_error_of_run (g : Graph) (s : GraphNumState) (fl : String)
    (h : graphNumRun g = .ok s) (h1 : fl.length ≠ 0) (h2 : 1 < s.graph_nodes.length) :
    GraphNum g fl false = .error Error.DiagnosticIoFailure := by
  unfold GraphNum
  rw [h]
  simp only [graphNumDump_error g s fl h1 h2]

/-- The dump of `GraphNum` on the graph with named nodes: with the flag set and
a good stream the call returns 2 and writes the sizes of the two components,
then each component with its nodes and the names of their neighbours. -/
theorem graphNum_namedGraph :
    GraphNum namedGraph "sub_graphs" true = .ok (2, some
      ("graph_nodes: 2\ngraph_nodes: 1\n\n\n"
        ++ "graph_nodes: 2\nNode: a in [], out[x, ]\nNode: x in [a, ], out[]\n\n\n"
        ++ "graph_nodes: 1\nNode: c in [], out[]\n\n\n")) ∧
    GraphNum namedGraph "" true = .ok (2, none) ∧
    GraphNum namedGraph "sub_graphs" false = .error Error.DiagnosticIoFailure := by
  refine ⟨?_, rfl, rfl⟩
  have h : dumpText namedGraph [[0, 1], [2]]
      = "graph_nodes: 2\ngraph_nodes: 1\n\n\n"
        ++ "graph_nodes: 2\nNode: a in [], out[x, ]\nNode: x in [a, ], out[]\n\n\n"
        ++ "graph_nodes: 1\nNode: c in [], out[]\n\n\n" := by decide
  rw [← h]
  rfl

/-! ## The claims on the loop of GraphNum -/

/-- C16. On every graph, whatever its neighbour lists, the loop of `GraphNum`
ends: after some number `K` of iterations the visited set has the size of the
node set, and not before; after every iteration the queue holds no visited node
and no node twice; an iteration with a non-empty queue adds its front node, a
new one, to the visited set; an iteration with an empty queue finds an
unvisited graph node and puts it in the queue; and the iterations that dequeue
a node are exactly as many as the nodes.  After the loop the call returns a
count, the same whatever the flag, and writes nothing when the flag is empty;
it fails only in the dump, on a stream that is not good. -/
theorem C16_GraphNum_terminates (g : Graph) :
    ∃ K, graphNumLoop g (nodeSet g) (2 * (nodeSet g).length + 1) graphNumInit
        = .ok (iterState g (nodeSet g) graphNumInit K) ∧
      (iterState g (nodeSet g) graphNumInit K).visited_nodes.length = (nodeSet g).length ∧
      (∀ j, j < K →
        (iterState g (nodeSet g) graphNumInit j).visited_nodes.length ≠ (nodeSet g).length) ∧
      (∀ j, j ≤ K → (iterState g (nodeSet g) graphNumInit j).q_nodes.Nodup ∧
        ∀ x ∈ (iterState g (nodeSet g) graphNumInit j).q_nodes,
          x ∉ (iterState g (nodeSet g) graphNumInit j).visited_nodes) ∧
      (∀ j, j < K → ∀ cur q, (iterState g (nodeSet g) graphNumInit j).q_nodes = cur :: q →
        cur ∉ (iterState g (nodeSet g) graphNumInit j).visited_nodes ∧
        (iterState g (nodeSet g) graphNumInit (j + 1)).visited_nodes
          = (iterState g (nodeSet g) graphNumInit j).visited_nodes ++ [cur]) ∧
      (∀ j, j < K → (iterState g (nodeSet g) graphNumInit j).q_nodes = [] →
        ∃ n ∈ g.nodes, n ∉ (iterState g (nodeSet g) graphNumInit j).visited_nodes ∧
          (iterState g (nodeSet g) graphNumInit (j + 1)).q_nodes = [n] ∧
          (iterState g (nodeSet g) graphNumInit (j + 1)).visited_nodes
            = (iterState g (nodeSet g) graphNumInit j).visited_nodes) ∧
      dequeues g (nodeSet g) graphNumInit K = (nodeSet g).length ∧
      ∃ c, (∀ good, GraphNum g "" good = .ok (c, none)) ∧
        ∀ fl good, (∃ w, GraphNum g fl good = .ok (c, w)) ∨
          GraphNum g fl good = .error Error.DiagnosticIoFailure := by
  obtain ⟨K, e, h1, h2, h3, h4⟩ := graphNumLoop_run g (nodeSet g) (nodeSet_nodup g)
    (fun _ => True) (fun _ _ _ _ => trivial) (2 * (nodeSet g).length + 1) graphNumInit
    (queueInv_init _) trivial (measure_init _)
  have hrun := graphNumRun_of_loop g _ e
  refine ⟨K, e, h1, h2, ?_, ?_, ?_, ?_,
    ⟨(iterState g (nodeSet g) graphNumInit K).graph_count, ?_, ?_⟩⟩
  rotate_left 4
  · intro good
    have hok := graphNum_ok_of_run g _ "" good hrun (fun hh => hh.1 rfl)
    exact hok
  · intro fl good
    by_cases hd : fl.length ≠ 0 ∧ 1 < (recordComponent
        (iterState g (nodeSet g) graphNumInit K).graph_nodes
        (iterState g (nodeSet g) graphNumInit K).g_nodes).length ∧ good = false
    · right
      rw [hd.2.2]
      exact graphNum_error_of_run g _ fl hrun hd.1 hd.2.1
    · left
      have hok := graphNum_ok_of_run g _ fl good hrun hd
      exact ⟨_, hok⟩
  · intro j hj
    exact ⟨(h3 j hj).1.queueNodup, (h3 j hj).1.disjoint⟩
  · intro j hj cur q hq
    have hinv := (h3 j (by omega)).1
    refine ⟨hinv.disjoint cur (by rw [hq]; exact List.mem_cons_self _ _), ?_⟩
    rw [iterState_succ']
    exact (step_dequeue g _ _ cur q hq hinv (h2 j hj)).1
  · intro j hj hq
    have hinv := (h3 j (by omega)).1
    obtain ⟨n, a1, a2, a3, a4, _⟩ := step_seed g _ _ (nodeSet_nodup g) hq hinv (h2 j hj)
    refine ⟨n, (mem_nodeSet g n).mp a1, a2, ?_, ?_⟩
    · rw [iterState_succ']; exact a3
    · rw [iterState_succ']; exact a4
  · simpa [graphNumInit] using h4

/-- C17. On every graph whose neighbour lists mention only graph nodes, the
traversal of `GraphNum` ends, and the list `graph_nodes` it has recorded has as
many entries as the count; every entry is non-empty, the entries are pairwise
disjoint and their union is the node set of the graph; so the list has more
than one entry, the condition of the dump, exactly when the count is greater
than one.  The call returns that count, and writes the text of the dump exactly
when the flag is set and the condition holds, unless the flag is set, the
condition holds and the stream is not good: then it fails. -/
theorem C17_GraphNum_components (g : Graph) (hcl : NeighboursClosed g) :
    ∃ s, graphNumRun g = .ok s ∧
      (∀ fl good, ¬ (fl.length ≠ 0 ∧ dumpCondition s = true ∧ good = false) →
        GraphNum g fl good = .ok (s.graph_count,
          if fl.length ≠ 0 ∧ dumpCondition s = true then some (dumpText g s.graph_nodes)
          else none)) ∧
      (∀ fl, fl.length ≠ 0 → dumpCondition s = true →
        GraphNum g fl false = .error Error.DiagnosticIoFailure) ∧
      s.graph_nodes.length = s.graph_count ∧
      (∀ c ∈ s.graph_nodes, c ≠ []) ∧
      s.graph_nodes.Pairwise (fun a b => ∀ x ∈ a, x ∉ b) ∧
      (∀ x, (∃ c ∈ s.graph_nodes, x ∈ c) ↔ x ∈ g.nodes) ∧
      (dumpCondition s = true ↔ 1 < s.graph_count) := by
  obtain ⟨K, e, h1, _, h3, _⟩ := graphNumLoop_run g (nodeSet g) (nodeSet_nodup g)
    (CompInv (nodeSet g))
    (fun s hinv hc hne => step_compInv g _ (nodeSet_nodup g) (nodeSet_closed g hcl) s hinv hc hne)
    (2 * (nodeSet g).length + 1) graphNumInit (queueInv_init _) (compInv_init _)
    (measure_init _)
  obtain ⟨hinv, hc⟩ := h3 K (le_refl _)
  obtain ⟨a1, a2, a3, a4⟩ := final_components (nodeSet g) _ hinv hc h1
  have r1 := graphNumRun_of_loop g _ e
  refine ⟨_, r1, ?_, ?_, a1, a2, a3, ?_, ?_⟩
  · intro fl good hd
    unfold dumpCondition at hd ⊢
    simp only [decide_eq_true_eq] at hd ⊢
    exact graphNum_ok_of_run g _ fl good r1 hd
  · intro fl h1 h2
    unfold dumpCondition at h2
    simp only [decide_eq_true_eq] at h2
    exact graphNum_error_of_run g _ fl r1 h1 h2
  · intro x
    rw [← mem_nodeSet g x]
    exact a4 x
  · unfold dumpCondition
    simp only [decide_eq_true_eq]
    rw [a1]

/-- C17, at scenario B. -/
theorem C17_witness :
    NeighboursClosed scenarioB ∧
    ∃ s, graphNumRun scenarioB = .ok s ∧
      (∀ fl good, ¬ (fl.length ≠ 0 ∧ dumpCondition s = true ∧ good = false) →
        GraphNum scenarioB fl good = .ok (s.graph_count,
          if fl.length ≠ 0 ∧ dumpCondition s = true then
            some (dumpText scenarioB s.graph_nodes)
          else none)) ∧
      (∀ fl, fl.length ≠ 0 → dumpCondition s = true →
        GraphNum scenarioB fl false = .error Error.DiagnosticIoFailure) ∧
      s.graph_nodes.length = s.graph_count ∧
      (∀ c ∈ s.graph_nodes, c ≠ []) ∧
      s.graph_nodes.Pairwise (fun a b => ∀ x ∈ a, x ∉ b) ∧
      (∀ x, (∃ c ∈ s.graph_nodes, x ∈ c) ↔ x ∈ scenarioB.nodes) ∧
      (dumpCondition s = true ↔ 1 < s.graph_count) :=
  ⟨by decide, C17_GraphNum_components scenarioB (by decide)⟩

/-! ## GraphNum: the components are the classes of connected nodes -/

theorem neighbour_symm (g : Graph) (nodes : List Nat)
    (hcl : ∀ n ∈ nodes, ∀ m, (m ∈ (g.node n).inputs ∨ m ∈ (g.node n).outputs) → m ∈ nodes)
    (hcons : ∀ a ∈ nodes, ∀ b ∈ nodes, (b ∈ (g.node a).outputs ↔ a ∈ (g.node b).inputs))
    (a b : Nat) (ha : a ∈ nodes) (h : Neighbour g a b) : b ∈ nodes ∧ Neighbour g b a := by
  have hb : b ∈ nodes := hcl a ha b h
  refine ⟨hb, ?_⟩
  rcases h with h | h
  · exact Or.inr ((hcons b hb a ha).mpr h)
  · exact Or.inl ((hcons a ha b hb).mp h)

theorem weakConn_symm (g : Graph) (nodes : List Nat)
    (hcl : ∀ n ∈ nodes, ∀ m, (m ∈ (g.node n).inputs ∨ m ∈ (g.node n).outputs) → m ∈ nodes)
    (hcons : ∀ a ∈ nodes, ∀ b ∈ nodes, (b ∈ (g.node a).outputs ↔ a ∈ (g.node b).inputs))
    (a b : Nat) (ha : a ∈ nodes) (h : WeakConn g a b) : b ∈ nodes ∧ WeakConn g b a := by
  induction h with
  | refl => exact ⟨ha, Relation.ReflTransGen.refl⟩
  | tail _ hnb ih =>
    obtain ⟨h1, h2⟩ := neighbour_symm g nodes hcl hcons _ _ ih.1 hnb
    exact ⟨h1, Relation.ReflTransGen.head h2 ih.2⟩

/-- When the queue is empty the current component, if it is recorded, is the
class of each of its nodes. -/
theorem record_classes (g : Graph) (nodes : List Nat)
    (hcl : ∀ n ∈ nodes, ∀ m, (m ∈ (g.node n).inputs ∨ m ∈ (g.node n).outputs) → m ∈ nodes)
    (hcons : ∀ a ∈ nodes, ∀ b ∈ nodes, (b ∈ (g.node a).outputs ↔ a ∈ (g.node b).inputs))
    (s : GraphNumState) (hc : CompInv nodes s) (hk : ConnInv g s) (hq : s.q_nodes = []) :
    ∀ c ∈ recordComponent s.graph_nodes s.g_nodes, ∀ x ∈ c, ∀ y, y ∈ c ↔ WeakConn g x y := by
  intro c hc1 x hx y
  rcases (mem_recordComponent _ _ _).mp hc1 with h | ⟨h, _⟩
  · exact hk.classes c h x hx y
  · rw [h] at hx ⊢
    have hgn : ∀ a ∈ s.g_nodes, a ∈ nodes :=
      fun a ha => hc.visitedSub a ((hc.cover a).mpr (Or.inl ha))
    have hclosed : ∀ a ∈ s.g_nodes, ∀ b, Neighbour g a b → b ∈ s.g_nodes := by
      intro a ha b hab
      have hbv : b ∈ s.visited_nodes := by
        rcases hk.frontier a ha b hab with h | h
        · exact h
        · rw [hq] at h; simp at h
      rcases (hc.cover b).mp hbv with h | ⟨c', hc', hbc'⟩
      · exact h
      · exfalso
        obtain ⟨hbn, hba⟩ := neighbour_symm g nodes hcl hcons a b (hgn a ha) hab
        have hac' : a ∈ c' :=
          (hk.classes c' hc' b hbc' a).mpr (Relation.ReflTransGen.single hba)
        exact hc.gDisjoint c' hc' a hac' ha
    constructor
    · intro hy
      exact hk.current x (Or.inl hx) y (Or.inl hy)
    · intro hxy
      induction hxy with
      | refl => exact hx
      | tail _ hnb ih => exact hclosed _ ih _ hnb

theorem connInv_init (g : Graph) : ConnInv g graphNumInit :=
  ⟨by simp [graphNumInit], by simp [graphNumInit], by simp [graphNumInit]⟩

theorem step_connInv (g : Graph) (nodes : List Nat) (hn : nodes.Nodup)
    (hcl : ∀ n ∈ nodes, ∀ m, (m ∈ (g.node n).inputs ∨ m ∈ (g.node n).outputs) → m ∈ nodes)
    (hcons : ∀ a ∈ nodes, ∀ b ∈ nodes, (b ∈ (g.node a).outputs ↔ a ∈ (g.node b).inputs))
    (s : GraphNumState) (hinv : QueueInv nodes s) (hc : CompInv nodes s) (hk : ConnInv g s)
    (hne : s.visited_nodes.length ≠ nodes.length) :
    ConnInv g (graphNumStep g nodes s) := by
  cases hq : s.q_nodes with
  | nil =>
    obtain ⟨n, _, _, e1, e2, e3, e4, _, _⟩ := step_seed g nodes s hn hq hinv hne
    refine ⟨?_, ?_, ?_⟩
    · rw [e4]
      exact record_classes g nodes hcl hcons s hc hk hq
    · intro x hx y hy
      rw [e3, e1] at hx hy
      have hxn : x = n := by simpa using hx
      have hyn : y = n := by simpa using hy
      rw [hxn, hyn]
      exact Relation.ReflTransGen.refl
    · intro x hx
      rw [e3] at hx
      simp at hx
  | cons cur q =>
    obtain ⟨e1, e2, e3, _, e5, _⟩ := step_dequeue g nodes s cur q hq hinv hne
    have hcurq : cur ∈ s.q_nodes := by rw [hq]; exact List.mem_cons_self _ _
    have hcurn : cur ∈ nodes := hc.queueSub cur hcurq
    -- every node of the new current component or queue is connected with `cur`
    have hvia : ∀ x, (x ∈ (graphNumStep g nodes s).g_nodes ∨
        x ∈ (graphNumStep g nodes s).q_nodes) → WeakConn g cur x ∧ WeakConn g x cur := by
      intro x hx
      rw [e2, mem_setInsert, e5] at hx
      rcases hx with (h | h) | (h | ⟨h, _, _⟩)
      · exact ⟨hk.current cur (Or.inr hcurq) x (Or.inl h),
          hk.current x (Or.inl h) cur (Or.inr hcurq)⟩
      · subst h
        exact ⟨Relation.ReflTransGen.refl, Relation.ReflTransGen.refl⟩
      · have hxq : x ∈ s.q_nodes := by rw [hq]; exact List.mem_cons_of_mem _ h
        exact ⟨hk.current cur (Or.inr hcurq) x (Or.inr hxq),
          hk.current x (Or.inr hxq) cur (Or.inr hcurq)⟩
      · have hnb : Neighbour g cur x := h
        exact ⟨Relation.ReflTransGen.single hnb,
          Relation.ReflTransGen.single (neighbour_symm g nodes hcl hcons cur x hcurn hnb).2⟩
    refine ⟨?_, ?_, ?_⟩
    · rw [e3]; exact hk.classes
    · intro x hx y hy
      exact Relation.ReflTransGen.trans (hvia x hx).2 (hvia y hy).1
    · intro x hx y hxy
      rw [e1, List.mem_append, List.mem_singleton, e5]
      rw [e2, mem_setInsert] at hx
      by_cases hyv : y ∈ s.visited_nodes
      · exact Or.inl (Or.inl hyv)
      · by_cases hyc : y = cur
        · exact Or.inl (Or.inr hyc)
        · right
          rcases hx with h | h
          · rcases hk.frontier x h y hxy with h' | h'
            · exact absurd h' hyv
            · rw [hq] at h'
              rcases List.mem_cons.mp h' with h'' | h''
              · exact absurd h'' hyc
              · exact Or.inl h''
          · subst h
            exact Or.inr ⟨hxy, hyv, hyc⟩

/-- A list of non-empty, pairwise disjoint classes that cover the graph nodes
has as many entries as there are classes of connected graph nodes. -/
theorem card_classes (g : Graph) (comps : List (List Nat))
    (hne : ∀ c ∈ comps, c ≠ [])
    (hpw : comps.Pairwise (fun a b => ∀ x ∈ a, x ∉ b))
    (hcov : ∀ x, (∃ c ∈ comps, x ∈ c) ↔ x ∈ g.nodes)
    (hcls : ∀ c ∈ comps, ∀ x ∈ c, ∀ y, y ∈ c ↔ WeakConn g x y) :
    Nat.card (Quot (fun a b : {n // n ∈ g.nodes} => WeakConn g a.1 b.1)) = comps.length := by
  have hex : ∀ i : Fin comps.length, ∃ v : {n // n ∈ g.nodes}, v.1 ∈ comps.get i := by
    intro i
    have hmem : comps.get i ∈ comps := List.get_mem _ _ _
    obtain ⟨a, ha⟩ := List.exists_mem_of_ne_nil _ (hne _ hmem)
    exact ⟨⟨a, (hcov a).mp ⟨_, hmem, ha⟩⟩, ha⟩
  choose rep hrep using hex
  -- connected graph nodes lie in the same entries
  have hsame : ∀ a b : {n // n ∈ g.nodes},
      Relation.EqvGen (fun a b : {n // n ∈ g.nodes} => WeakConn g a.1 b.1) a b →
      ∀ c ∈ comps, a.1 ∈ c ↔ b.1 ∈ c := by
    intro a b h
    induction h with
    | rel a b hab =>
      intro c hc
      constructor
      · intro ha
        exact (hcls c hc a.1 ha b.1).mpr hab
      · intro hb
        obtain ⟨c', hc', ha'⟩ := (hcov a.1).mpr a.2
        have hb' : b.1 ∈ c' := (hcls c' hc' a.1 ha' b.1).mpr hab
        by_cases e : c' = c
        · rw [← e]; exact ha'
        · exfalso
          have hsym : Symmetric (fun a b : List Nat => ∀ x ∈ a, x ∉ b) :=
            fun a b h x hx hx' => h x hx' hx
          exact hpw.forall hsym hc' hc e b.1 hb' hb
    | refl a => intro c _; exact Iff.rfl
    | symm a b _ ih => intro c hc; exact (ih c hc).symm
    | trans a b d _ _ ih1 ih2 => intro c hc; exact (ih1 c hc).trans (ih2 c hc)
  have hbij : Function.Bijective
      (fun i : Fin comps.length =>
        Quot.mk (fun a b : {n // n ∈ g.nodes} => WeakConn g a.1 b.1) (rep i)) := by
    constructor
    · intro i j hij
      have h1 := hsame _ _ (Quot.eqvGen_exact hij) (comps.get i) (List.get_mem _ _ _)
      have hj : (rep j).1 ∈ comps.get i := h1.mp (hrep i)
      by_contra hne'
      rcases lt_or_gt_of_ne hne' with hlt | hgt
      · exact List.pairwise_iff_get.mp hpw i j hlt _ hj (hrep j)
      · exact List.pairwise_iff_get.mp hpw j i hgt _ (hrep j) hj
    · intro qq
      obtain ⟨v, rfl⟩ := Quot.mk_surjective qq
      obtain ⟨c, hc, hv⟩ := (hcov v.1).mpr v.2
      obtain ⟨i, hi⟩ := List.mem_iff_get.mp hc
      refine ⟨i, Quot.sound ?_⟩
      show WeakConn g (rep i).1 v.1
      have hri : (rep i).1 ∈ c := by rw [← hi]; exact hrep i
      exact (hcls c hc _ hri v.1).mp hv
  have := Nat.card_eq_of_bijective _ hbij
  rw [← this]
  simp

/-- On a graph whose neighbour lists mention only graph nodes and are
consistent, the traversal of `GraphNum` ends with the number of classes of
connected graph nodes as its count, and with as many recorded components. -/
theorem graphNum_card (g : Graph) (hcl : NeighboursClosed g) (hcons : Consistent g) :
    ∃ s, graphNumRun g = .ok s ∧
      s.graph_count
        = Nat.card (Quot (fun a b : {n // n ∈ g.nodes} => WeakConn g a.1 b.1)) ∧
      s.graph_nodes.length = s.graph_count := by
  have hcl' := nodeSet_closed g hcl
  have hcons' : ∀ a ∈ nodeSet g, ∀ b ∈ nodeSet g,
      (b ∈ (g.node a).outputs ↔ a ∈ (g.node b).inputs) := by
    intro a ha b hb
    exact hcons a ((mem_nodeSet g a).mp ha) b ((mem_nodeSet g b).mp hb)
  obtain ⟨K, e, h1, _, h3, _⟩ := graphNumLoop_run g (nodeSet g) (nodeSet_nodup g)
    (fun s => CompInv (nodeSet g) s ∧ ConnInv g s)
    (fun s hinv hP hne =>
      ⟨step_compInv g _ (nodeSet_nodup g) hcl' s hinv hP.1 hne,
        step_connInv g _ (nodeSet_nodup g) hcl' hcons' s hinv hP.1 hP.2 hne⟩)
    (2 * (nodeSet g).length + 1) graphNumInit (queueInv_init _)
    ⟨compInv_init _, connInv_init g⟩ (measure_init _)
  obtain ⟨hinv, hc, hk⟩ := h3 K (le_refl _)
  obtain ⟨a1, a2, a3, a4⟩ := final_components (nodeSet g) _ hinv hc h1
  obtain ⟨_, hq⟩ := final_visited (nodeSet g) _ hinv hc h1
  have hcls := record_classes g (nodeSet g) hcl' hcons' _ hc hk hq
  have hcov : ∀ x, (∃ c ∈ recordComponent
      (iterState g (nodeSet g) graphNumInit K).graph_nodes
      (iterState g (nodeSet g) graphNumInit K).g_nodes, x ∈ c) ↔ x ∈ g.nodes := by
    intro x
    rw [← mem_nodeSet g x]
    exact a4 x
  refine ⟨_, graphNumRun_of_loop g _ e, ?_, a1⟩
  rw [card_classes g _ a2 a3 hcov hcls]
  exact a1.symm

/-! ## The claim on the count of GraphNum -/

/-- The equivalence shown for C11 does not need the dump; connection by
neighbours is symmetric on a closed consistent graph. -/
theorem weakConn_equivalence (g : Graph) (hcl : NeighboursClosed g) (hcons : Consistent g) :
    Equivalence (fun a b : {n // n ∈ g.nodes} => WeakConn g a.1 b.1) := by
  refine ⟨fun _ => Relation.ReflTransGen.refl, ?_, fun h1 h2 => Relation.ReflTransGen.trans h1 h2⟩
  intro a b hab
  exact (weakConn_symm g g.nodes (fun n hn m hm => hcl n hn m (List.mem_append.mpr hm))
    hcons a.1 b.1 a.2 hab).2

/-- Scenario B has two classes of connected nodes. -/
theorem scenarioB_card :
    Nat.card (Quot (fun a b : {n // n ∈ scenarioB.nodes} => WeakConn scenarioB a.1 b.1)) = 2 := by
  obtain ⟨s, hs, hc, _⟩ := graphNum_card scenarioB (by decide) (by decide)
  have h1 := graphNum_ok_of_run scenarioB s "" true hs (fun hh => hh.1 rfl)
  have h2 : GraphNum scenarioB "" true = .ok (2, none) := rfl
  rw [h2] at h1
  injection h1 with h1
  injection h1 with h1 _
  rw [← hc, ← h1]

/-- C11, the counterexample.  Scenario B is a graph whose neighbour lists
mention only graph nodes and are mutually consistent, and it has two classes of
connected nodes; with the flag set to a path on which no good stream can be
opened, `GraphNum` does not return 2: it fails with `DiagnosticIoFailure`. -/
theorem C11_counterexample :
    NeighboursClosed scenarioB ∧ Consistent scenarioB ∧
    Nat.card (Quot (fun a b : {n // n ∈ scenarioB.nodes} => WeakConn scenarioB a.1 b.1)) = 2 ∧
    GraphNum scenarioB "/no/such/dir/sub_graphs" false = .error Error.DiagnosticIoFailure ∧
    ∀ c w, GraphNum scenarioB "/no/such/dir/sub_graphs" false ≠ .ok (c, w) := by
  refine ⟨by decide, by decide, scenarioB_card, rfl, ?_⟩
  intro c w h
  have h2 : GraphNum scenarioB "/no/such/dir/sub_graphs" false
      = .error Error.DiagnosticIoFailure := rfl
  rw [h2] at h
  cases h

/-- C11, amended.  On every graph whose neighbour lists mention only graph
nodes and are mutually consistent, being connected by input and output
neighbours is an equivalence on the graph nodes, operations and variables
together.  Whatever the flag and the stream, `GraphNum` returns the number of
its classes, the weakly connected components, unless the flag is set, there is
more than one class and the stream opened for the dump is not good; in that
case, and only then, it fails, with `DiagnosticIoFailure`.  The empty graph
gives 0 and scenario A gives 1 under every flag and stream; scenario B, with its
isolated operation, gives 2 when the flag is empty or the stream is good. -/
theorem C11_GraphNum_counts_components (g : Graph) (hcl : NeighboursClosed g)
    (hcons : Consistent g) (fl : String) (good : Bool) :
    Equivalence (fun a b : {n // n ∈ g.nodes} => WeakConn g a.1 b.1) ∧
    (¬ (fl.length ≠ 0 ∧
        1 < Nat.card (Quot (fun a b : {n // n ∈ g.nodes} => WeakConn g a.1 b.1)) ∧
        good = false) →
      ∃ w, GraphNum g fl good =
        .ok (Nat.card (Quot (fun a b : {n // n ∈ g.nodes} => WeakConn g a.1 b.1)), w)) ∧
    (fl.length ≠ 0 ∧
        1 < Nat.card (Quot (fun a b : {n // n ∈ g.nodes} => WeakConn g a.1 b.1)) ∧
        good = false →
      GraphNum g fl good = .error Error.DiagnosticIoFailure) ∧
    GraphNum emptyGraph fl good = .ok (0, none) ∧
    GraphNum scenarioA fl good = .ok (1, none) ∧
    GraphNum scenarioB "" good = .ok (2, none) ∧
    (∃ w, GraphNum scenarioB fl true = .ok (2, w)) := by
  obtain ⟨s, hs, hc, hl⟩ := graphNum_card g hcl hcons
  refine ⟨weakConn_equivalence g hcl hcons, ?_, ?_, ?_, ?_, ?_, ?_⟩
  · intro hd
    rw [← hc]
    exact ⟨_, graphNum_ok_of_run g s fl good hs (by rw [hl, hc]; exact hd)⟩
  · rintro ⟨h1, h2, h3⟩
    rw [h3]
    exact graphNum_error_of_run g s fl hs h1 (by rw [hl, hc]; exact h2)
  · obtain ⟨t, ht, h0⟩ : ∃ t, graphNumRun emptyGraph = .ok t ∧
        t.graph_count = 0 ∧ t.graph_nodes.length = 0 := ⟨_, rfl, rfl, rfl⟩
    have h := graphNum_ok_of_run emptyGraph t fl good ht (by rw [h0.2]; omega)
    rw [h0.1, h0.2] at h
    simpa using h
  · obtain ⟨t, ht, h0⟩ : ∃ t, graphNumRun scenarioA = .ok t ∧
        t.graph_count = 1 ∧ t.graph_nodes.length = 1 := ⟨_, rfl, rfl, rfl⟩
    have h := graphNum_ok_of_run scenarioA t fl good ht (by rw [h0.2]; omega)
    rw [h0.1, h0.2] at h
    simpa using h
  · cases good <;> rfl
  · obtain ⟨t, ht, h0⟩ : ∃ t, graphNumRun scenarioB = .ok t ∧
        t.graph_count = 2 ∧ t.graph_nodes.length = 2 := ⟨_, rfl, rfl, rfl⟩
    have h := graphNum_ok_of_run scenarioB t fl true ht (by simp)
    rw [h0.1] at h
    exact ⟨_, h⟩

/-- C11, amended, at scenario B with the flag set and a good stream. -/
theorem C11_witness :
    NeighboursClosed scenarioB ∧ Consistent scenarioB ∧
    ∃ w, GraphNum scenarioB "sub_graphs" true =
      .ok (Nat.card (Quot (fun a b : {n // n ∈ scenarioB.nodes} =>
        WeakConn scenarioB a.1 b.1)), w) :=
  ⟨by decide, by decide,
    (C11_GraphNum_counts_components scenarioB (by decide) (by decide) "sub_graphs" true).2.1
      (fun h => Bool.noConfusion h.2.2)⟩

end GraphHelper
